import Mathlib

/-!
MaxWhitespaceFinder and FileNameDisambiguator: a shallow embedding

This file embeds `src/imageproc/MaxWhitespaceFinder.cpp` (the maximal empty
rectangle search of the page-processing pipeline) and the label bookkeeping of
`src/core/FileNameDisambiguator.cpp`, and proves properties of them.

Conventions of the embedding:

* C++ `int` coordinates are mathematical integers (`Int`).  The `int`
  products and sums of the source whose overflow changes what the program does
  (the areas compared by `AreaCompare`, the squared distance in
  `findPivotObstacle`, the increment of a label in `registerFile`) keep the
  32-bit two's complement range explicitly.
* `QRect`, `QPoint` and `QSize` are the Qt value types; the members used by the
  source are reproduced with Qt's inclusive-corner representation.
* The engine object is an explicit state record (`MaxWhitespaceFinder`); the
  member functions take the state and return the new state.
* `while` loops have an explicit iteration budget computed from their
  arguments; the section "bisection loops" proves that the budget is never
  exhausted before the loop's own exit test succeeds.
-/

namespace imageproc

/-! ## Qt value types -/

/-- Qt point: integer coordinates. -/
structure QPoint where
  x : Int
  y : Int
deriving DecidableEq, Repr

/-- Qt size: integer width and height. -/
structure QSize where
  width : Int
  height : Int
deriving DecidableEq, Repr

/-- Qt rectangle, stored as in Qt by its top-left corner `(x1, y1)` and its
inclusive bottom-right corner `(x2, y2)`. -/
structure QRect where
  x1 : Int
  y1 : Int
  x2 : Int
  y2 : Int
deriving DecidableEq, Repr

namespace QPoint

/-- Component-wise difference, `operator-` of two points. -/
def sub (a b : QPoint) : QPoint := ⟨a.x - b.x, a.y - b.y⟩

end QPoint

namespace QRect

/-- The default-constructed rectangle `QRect()`. -/
def null : QRect := ⟨0, 0, -1, -1⟩

/-- The constructor `QRect(x, y, width, height)`. -/
def ofXYWH (x y w h : Int) : QRect := ⟨x, y, x + w - 1, y + h - 1⟩

def left (r : QRect) : Int := r.x1

def top (r : QRect) : Int := r.y1

def right (r : QRect) : Int := r.x2

def bottom (r : QRect) : Int := r.y2

def width (r : QRect) : Int := r.x2 - r.x1 + 1

def height (r : QRect) : Int := r.y2 - r.y1 + 1

def isNull (r : QRect) : Bool := r.x2 == r.x1 - 1 && r.y2 == r.y1 - 1

def isEmpty (r : QRect) : Bool := decide (r.x1 > r.x2) || decide (r.y1 > r.y2)

def setLeft (r : QRect) (v : Int) : QRect := { r with x1 := v }

def setTop (r : QRect) (v : Int) : QRect := { r with y1 := v }

def setRight (r : QRect) (v : Int) : QRect := { r with x2 := v }

def setBottom (r : QRect) (v : Int) : QRect := { r with y2 := v }

def topLeft (r : QRect) : QPoint := ⟨r.x1, r.y1⟩

def topRight (r : QRect) : QPoint := ⟨r.x2, r.y1⟩

def bottomLeft (r : QRect) : QPoint := ⟨r.x1, r.y2⟩

/-- The member `center()`: the sums are halved with C++ integer division,
which truncates toward zero. -/
def center (r : QRect) : QPoint := ⟨Int.tdiv (r.x1 + r.x2) 2, Int.tdiv (r.y1 + r.y2) 2⟩

/-- The member `intersected` (Qt's `operator&`): null operands give the null
rectangle, operands of negative extent are normalised, non-overlapping operands
give the null rectangle; the corners are Qt's `qMax` and `qMin` of the
operands' corners. -/
def intersected (a b : QRect) : QRect :=
  if a.isNull || b.isNull then null else
  let l1 := if a.x2 - a.x1 + 1 < 0 then a.x2 else a.x1
  let r1 := if a.x2 - a.x1 + 1 < 0 then a.x1 else a.x2
  let l2 := if b.x2 - b.x1 + 1 < 0 then b.x2 else b.x1
  let r2 := if b.x2 - b.x1 + 1 < 0 then b.x1 else b.x2
  if l1 > r2 ∨ l2 > r1 then null else
  let t1 := if a.y2 - a.y1 + 1 < 0 then a.y2 else a.y1
  let b1 := if a.y2 - a.y1 + 1 < 0 then a.y1 else a.y2
  let t2 := if b.y2 - b.y1 + 1 < 0 then b.y2 else b.y1
  let b2 := if b.y2 - b.y1 + 1 < 0 then b.y1 else b.y2
  if t1 > b2 ∨ t2 > b1 then null else
  ⟨if l1 < l2 then l2 else l1, if t1 < t2 then t2 else t1,
   if r1 < r2 then r1 else r2, if b1 < b2 then b1 else b2⟩

/-- The area `width() * height()` used by the ordering of the frontier. -/
def area (r : QRect) : Int := r.width * r.height

/-- The pixel `(x, y)` lies in the rectangle (both corners inclusive). -/
def Covers (r : QRect) (x y : Int) : Prop :=
  r.x1 ≤ x ∧ x ≤ r.x2 ∧ r.y1 ≤ y ∧ y ≤ r.y2

/-- The rectangle `q` lies inside the rectangle `r`. -/
def Inside (q r : QRect) : Prop :=
  r.x1 ≤ q.x1 ∧ q.x2 ≤ r.x2 ∧ r.y1 ≤ q.y1 ∧ q.y2 ≤ r.y2

instance (r : QRect) (x y : Int) : Decidable (r.Covers x y) := by
  unfold Covers; infer_instance

instance (q r : QRect) : Decidable (q.Inside r) := by
  unfold Inside; infer_instance

/-- Two rectangles have a pixel in common. -/
def Meets (a b : QRect) : Prop := ∃ x y, a.Covers x y ∧ b.Covers x y

end QRect

/-! ## The raster and its integral image -/

/-- Modelled from the spec: the class `BinaryImage` (BinaryImage.h is not among
the sources), "immutable 2D bitmap, width x height, pixel in {0,1}", with the
layout that `MaxWhitespaceFinder::init` reads: `height` rows of `wordsPerLine`
32-bit words each, most significant bit first, of which the first `width` bits
of a row are pixels. -/
structure BinaryImage where
  width : Nat
  height : Nat
  wordsPerLine : Nat
  data : List Nat
deriving DecidableEq, Repr

namespace BinaryImage

/-- The member `rect()`: the whole raster as a rectangle at the origin. -/
def rect (img : BinaryImage) : QRect := QRect.ofXYWH 0 0 img.width img.height

/-- The value that `MaxWhitespaceFinder::init` pushes into the integral image
for column `x` of the row starting at word `y * wpl`:
`(line[x >> 5] >> (31 - (x & 31))) & 1`. -/
def bit (img : BinaryImage) (x y : Nat) : Nat :=
  let shift := 31 - (x &&& 31)
  ((img.data.getD (y * img.wordsPerLine + (x >>> 5)) 0) >>> shift) &&& 1

/-- The pixel at integer coordinates; `0` outside the raster. -/
def pixel (img : BinaryImage) (x y : Int) : Nat :=
  if 0 ≤ x ∧ x < img.width ∧ 0 ≤ y ∧ y < img.height then img.bit x.toNat y.toNat else 0

end BinaryImage

/-- Modelled from the spec: the class `IntegralImage` (IntegralImage.h is not
among the sources).  The spec (sections 3 and 4.1) fixes its contract:
`sum(rect)` is the count of foreground pixels within `rect` intersected with
the raster bounds.  The model keeps the raster that `init` feeds into it,
pixel by pixel. -/
structure IntegralImage where
  img : BinaryImage
deriving DecidableEq, Repr

namespace IntegralImage

/-- Modelled from the spec: `IntegralImage::sum(QRect)`, the number of
foreground pixels of the raster that lie in the rectangle. -/
def sum (ii : IntegralImage) (r : QRect) : Nat :=
  ((List.range r.height.toNat).map fun (j : Nat) =>
    ((List.range r.width.toNat).map fun (i : Nat) =>
      ii.img.pixel (r.x1 + (i : Int)) (r.y1 + (j : Int))).sum).sum

end IntegralImage

/-! ## Regions and the priority frontier -/

/-- The nested class `MaxWhitespaceFinder::Region`: a watermark into the global
obstacle list, the bounds, and the obstacles known to this region. -/
structure Region where
  m_knownNewObstacles : Nat
  m_bounds : QRect
  m_obstacles : List QRect
deriving DecidableEq, Repr

namespace Region

/-- The constructor `Region(known_new_obstacles, bounds)`. -/
def new (known_new_obstacles : Nat) (bounds : QRect) : Region :=
  ⟨known_new_obstacles, bounds, []⟩

/-- Modelled from the spec: the inline member `Region::addObstacle(const QRect&)`
is declared in MaxWhitespaceFinder.h, which is not among the sources.  The spec
says that a region holds "obstacle-rectangles already clipped to this region's
bounds", that "obstacle rectangles are clipped to the region's bounds and empty
intersections discarded" (section 3), and that "obstacles outside bounds are
silently clipped to empty and ignored" (section 7).  It is modelled like the
loop body of `addObstacles` and `addNewObstacles`: the rectangle is intersected
with the bounds and appended unless the intersection is empty. -/
def addObstacle (self : Region) (obstacle : QRect) : Region :=
  let clipped := [obstacle.intersected self.m_bounds]
  { self with m_obstacles := self.m_obstacles ++ clipped.filter fun r => !r.isEmpty }

/-- The member `Region::addObstacles`: adds the obstacles of another region
that intersect the bounds of this one, clipped to these bounds. -/
def addObstacles (self other_region : Region) : Region :=
  let clipped := other_region.m_obstacles.map fun obstacle => obstacle.intersected self.m_bounds
  { self with m_obstacles := self.m_obstacles ++ clipped.filter fun r => !r.isEmpty }

/-- The member `Region::addNewObstacles`: adds the global obstacles from index
`m_knownNewObstacles` on, clipped to the bounds. -/
def addNewObstacles (self : Region) (new_obstacles : List QRect) : Region :=
  let clipped := (new_obstacles.drop self.m_knownNewObstacles).map
    fun obstacle => obstacle.intersected self.m_bounds
  { self with m_obstacles := self.m_obstacles ++ clipped.filter fun r => !r.isEmpty }

end Region

/-- The value `std::numeric_limits<int>::max()`. -/
def INT_MAX : Int := 2147483647

/-- The value of an arithmetic result stored in a 32-bit `int`
(two's complement). -/
def toInt32 (z : Int) : Int := (z + 2147483648) % 4294967296 - 2147483648

/-- The comparator `AreaCompare`: `lhs` is of less quality than `rhs` when its
area is smaller.  The two areas are `int` products, so they are kept in the
32-bit range. -/
def AreaCompare (lhs rhs : QRect) : Bool :=
  let lhs_area := toInt32 (lhs.width * lhs.height)
  let rhs_area := toInt32 (rhs.width * rhs.height)
  decide (lhs_area < rhs_area)

/-- Modelled from the spec: the frontier `PriorityStorageImpl<AreaCompare>`
(declared in MaxWhitespaceFinder.h, not among the sources) is "a max-priority
queue of Regions ordered by bounding-rectangle area", ties broken by a
consistent insertion order.  The model is the list of queued regions in
insertion order; `top` is the earliest region that no other region beats. -/
abbrev PriorityStorage := List Region

namespace PriorityStorage

/-- Modelled from the spec: `PriorityStorage::top`, the queued region of
greatest area (the earliest such region), if any. -/
def top : PriorityStorage → Option Region
  | [] => none
  | g :: rest =>
    match top rest with
    | none => some g
    | some h => if AreaCompare g.m_bounds h.m_bounds then some h else some g

/-- Modelled from the spec: `PriorityStorage::pop`, which removes the region
that `top` designates. -/
def pop : PriorityStorage → PriorityStorage
  | [] => []
  | g :: rest =>
    match top rest with
    | none => []
    | some h => if AreaCompare g.m_bounds h.m_bounds then g :: pop rest else rest

/-- Modelled from the spec: `PriorityStorage::push`, which queues the region
together with its obstacles. -/
def push (q : PriorityStorage) (region : Region) : PriorityStorage := q ++ [region]

end PriorityStorage

/-! ## The search engine -/

/-- Modelled from the spec: the enumeration `MaxWhitespaceFinder::ObstacleMode`
(declared in the absent header).  The source names `AUTO_OBSTACLES`; the other
mode, in which `next` registers nothing, is the spec's manual mode. -/
inductive ObstacleMode where
  | AUTO_OBSTACLES
  | MANUAL_OBSTACLES
deriving DecidableEq, Repr

/-- The data members of `MaxWhitespaceFinder` that the source uses. -/
structure MaxWhitespaceFinder where
  m_integralImg : IntegralImage
  m_queuedRegions : PriorityStorage
  m_newObstacles : List QRect
  m_minSize : QSize
deriving DecidableEq, Repr

/-- The rectangle `middle_rect` built in each round of the two bisection loops:
each edge lies halfway between the corresponding edges of the outer and the
inner rectangle. -/
def middleRect (outer_rect inner_rect : QRect) : QRect :=
  let delta_left := inner_rect.left - outer_rect.left
  let delta_right := outer_rect.right - inner_rect.right
  let delta_top := inner_rect.top - outer_rect.top
  let delta_bottom := outer_rect.bottom - inner_rect.bottom
  let middle_rect := QRect.ofXYWH (outer_rect.left + ((delta_left + 1) >>> (1 : Nat)))
    (outer_rect.top + ((delta_top + 1) >>> (1 : Nat))) 0 0
  let middle_rect := middle_rect.setRight (outer_rect.right - (delta_right >>> (1 : Nat)))
  middle_rect.setBottom (outer_rect.bottom - (delta_bottom >>> (1 : Nat)))

/-- The iteration budget given to a bisection loop started on the given pair
of rectangles. -/
def bisectBudget (outer_rect inner_rect : QRect) : Nat :=
  (outer_rect.width - inner_rect.width).toNat + (outer_rect.height - inner_rect.height).toNat

namespace MaxWhitespaceFinder

/-- The constructor together with `init`: the integral image of the raster
and a frontier holding the single region `Region(0, img.rect())`. -/
def new (img : BinaryImage) (min_size : QSize) : MaxWhitespaceFinder :=
  { m_integralImg := ⟨img⟩
    m_queuedRegions := PriorityStorage.push [] (Region.new 0 img.rect)
    m_newObstacles := []
    m_minSize := min_size }

/-- The member `addObstacle`. -/
def addObstacle (self : MaxWhitespaceFinder) (obstacle : QRect) : MaxWhitespaceFinder :=
  match self.m_queuedRegions with
  | [top_region] => { self with m_queuedRegions := [top_region.addObstacle obstacle] }
  | _ => { self with m_newObstacles := self.m_newObstacles ++ [obstacle] }

/-- One child of `subdivide`:
`Region new_region(m_newObstacles.size(), new_bounds); new_region.addObstacles(region)`. -/
def newRegion (self : MaxWhitespaceFinder) (region : Region) (new_bounds : QRect) : Region :=
  (Region.new self.m_newObstacles.length new_bounds).addObstacles region

/-- Queue a region: `m_queuedRegions->push(new_region)`. -/
def pushRegion (self : MaxWhitespaceFinder) (new_region : Region) : MaxWhitespaceFinder :=
  { self with m_queuedRegions := PriorityStorage.push self.m_queuedRegions new_region }

/-- The member `subdivide`. -/
def subdivide (self : MaxWhitespaceFinder) (region : Region) (bounds pivot : QRect) :
    MaxWhitespaceFinder :=
  -- Area above the pivot obstacle.
  let s1 := if pivot.top - bounds.top ≥ self.m_minSize.height then
      self.pushRegion (self.newRegion region (bounds.setBottom (pivot.top - 1)))
    else self
  -- Area below the pivot obstacle.
  let s2 := if bounds.bottom - pivot.bottom ≥ s1.m_minSize.height then
      s1.pushRegion (s1.newRegion region (bounds.setTop (pivot.bottom + 1)))
    else s1
  -- Area to the left of the pivot obstacle.
  let s3 := if pivot.left - bounds.left ≥ s2.m_minSize.width then
      s2.pushRegion (s2.newRegion region (bounds.setRight (pivot.left - 1)))
    else s2
  -- Area to the right of the pivot obstacle.
  if bounds.right - pivot.right ≥ s3.m_minSize.width then
    s3.pushRegion (s3.newRegion region (bounds.setLeft (pivot.right + 1)))
  else s3

/-- The loop body of `findPivotObstacle` for one obstacle, on the pair
`(best_obstacle, best_distance)`. -/
def pivotStep (center : QPoint) (best : QRect × Int) (obstacle : QRect) : QRect × Int :=
  let vec := center.sub obstacle.center
  let distance := toInt32 (vec.x * vec.x + vec.y * vec.y)
  if distance ≤ best.2 then (obstacle, distance) else best

/-- The member `findPivotObstacle`. -/
def findPivotObstacle (region : Region) : QRect :=
  let center := region.m_bounds.center
  (region.m_obstacles.foldl (pivotStep center) (QRect.null, INT_MAX)).1

/-- The `while (true)` loop of `findBlackPixelCloseToCenter`, on the pair
`(outer_rect, inner_rect)`; the first argument bounds the number of rounds. -/
def findLoop (ii : IntegralImage) : Nat → QRect → QRect → QRect × QRect
  | 0, outer_rect, inner_rect => (outer_rect, inner_rect)
  | budget + 1, outer_rect, inner_rect =>
    let outer_inner_dw := outer_rect.width - inner_rect.width
    let outer_inner_dh := outer_rect.height - inner_rect.height
    if outer_inner_dw ≤ 1 ∧ outer_inner_dh ≤ 1 then (outer_rect, inner_rect) else
    let middle_rect := middleRect outer_rect inner_rect
    if ii.sum middle_rect = 0 then findLoop ii budget outer_rect middle_rect
    else findLoop ii budget middle_rect inner_rect

/-- The member `findBlackPixelCloseToCenter`, with the depth of the recursion
on edge strips bounded by the first argument. -/
def findBlackPixelCloseToCenterRec (ii : IntegralImage) : Nat → QRect → QPoint
  | 0, non_white_rect => non_white_rect.center
  | depth + 1, non_white_rect =>
    let center := non_white_rect.center
    let inner0 := QRect.ofXYWH center.x center.y 1 1
    if ii.sum inner0 ≠ 0 then center else
    let loop := findLoop ii (bisectBudget non_white_rect inner0) non_white_rect inner0
    let outer_rect := loop.1
    let inner_rect := loop.2
    -- Process the left edge.
    let leftRect := outer_rect.setRight outer_rect.left
    if outer_rect.left ≠ inner_rect.left ∧ outer_rect.height = 1 then
      (if ii.sum leftRect ≠ 0 then outer_rect.topLeft else outer_rect.topRight)
    else if outer_rect.left ≠ inner_rect.left ∧ ii.sum leftRect ≠ 0 then
      findBlackPixelCloseToCenterRec ii depth leftRect
    else
    -- Process the right edge.
    let rightRect := outer_rect.setLeft outer_rect.right
    if outer_rect.right ≠ inner_rect.right ∧ outer_rect.height = 1 then
      (if ii.sum rightRect ≠ 0 then outer_rect.topRight else outer_rect.topLeft)
    else if outer_rect.right ≠ inner_rect.right ∧ ii.sum rightRect ≠ 0 then
      findBlackPixelCloseToCenterRec ii depth rightRect
    else
    -- Process the top edge.
    let topRect := outer_rect.setBottom outer_rect.top
    if outer_rect.top ≠ inner_rect.top ∧ outer_rect.width = 1 then
      (if ii.sum topRect ≠ 0 then outer_rect.topLeft else outer_rect.bottomLeft)
    else if outer_rect.top ≠ inner_rect.top ∧ ii.sum topRect ≠ 0 then
      findBlackPixelCloseToCenterRec ii depth topRect
    else
    -- Process the bottom edge.
    let bottomRect := outer_rect.setTop outer_rect.bottom
    if outer_rect.width = 1 then outer_rect.bottomLeft
    else findBlackPixelCloseToCenterRec ii depth bottomRect

/-- The member `findBlackPixelCloseToCenter`: a call on the whole rectangle
and at most one nested call on an edge strip. -/
def findBlackPixelCloseToCenter (ii : IntegralImage) (non_white_rect : QRect) : QPoint :=
  findBlackPixelCloseToCenterRec ii 2 non_white_rect

/-- The `while (true)` loop of `extendBlackPixelToBlackBox`, on the pair
`(outer_rect, inner_rect)`; the first argument bounds the number of rounds.
The source compares the `unsigned` sum with the product converted to
`unsigned`; the model compares them as integers, which agrees with it whenever
the sum is below 2^31. -/
def extendLoop (ii : IntegralImage) : Nat → QRect → QRect → QRect × QRect
  | 0, outer_rect, inner_rect => (outer_rect, inner_rect)
  | budget + 1, outer_rect, inner_rect =>
    let outer_inner_dw := outer_rect.width - inner_rect.width
    let outer_inner_dh := outer_rect.height - inner_rect.height
    if outer_inner_dw ≤ 1 ∧ outer_inner_dh ≤ 1 then (outer_rect, inner_rect) else
    let middle_rect := middleRect outer_rect inner_rect
    let area := middle_rect.width * middle_rect.height
    if (ii.sum middle_rect : Int) = area then extendLoop ii budget outer_rect middle_rect
    else extendLoop ii budget middle_rect inner_rect

/-- The member `extendBlackPixelToBlackBox`. -/
def extendBlackPixelToBlackBox (ii : IntegralImage) (pixel : QPoint) (bounds : QRect) : QRect :=
  let outer_rect := bounds
  let inner_rect := QRect.ofXYWH pixel.x pixel.y 1 1
  if (ii.sum outer_rect : Int) = outer_rect.width * outer_rect.height then outer_rect else
  (extendLoop ii (bisectBudget outer_rect inner_rect) outer_rect inner_rect).2

/-- The member `subdivideUsingObstacles`. -/
def subdivideUsingObstacles (self : MaxWhitespaceFinder) (region : Region) :
    MaxWhitespaceFinder :=
  let bounds := region.m_bounds
  let pivot_rect := findPivotObstacle region
  self.subdivide region bounds pivot_rect

/-- The member `subdivideUsingRaster`. -/
def subdivideUsingRaster (self : MaxWhitespaceFinder) (region : Region) :
    MaxWhitespaceFinder :=
  let bounds := region.m_bounds
  let pivot_pixel := findBlackPixelCloseToCenter self.m_integralImg bounds
  let pivot_rect := extendBlackPixelToBlackBox self.m_integralImg pivot_pixel bounds
  self.subdivide region bounds pivot_rect

/-- What one call of `next` yields: the returned rectangle, the engine state
after the call, and the number of regions the call popped off the frontier. -/
structure NextResult where
  rect : QRect
  state : MaxWhitespaceFinder
  pops : Nat
deriving DecidableEq, Repr

/-- The statement `m_queuedRegions->pop()`. -/
def popTop (self : MaxWhitespaceFinder) : MaxWhitespaceFinder :=
  { self with m_queuedRegions := PriorityStorage.pop self.m_queuedRegions }

/-- The statement before `return region.bounds()`: in mode `AUTO_OBSTACLES`
the returned bounds are appended to the global obstacle list. -/
def registerResult (self : MaxWhitespaceFinder) (obstacle_mode : ObstacleMode)
    (bounds : QRect) : MaxWhitespaceFinder :=
  if obstacle_mode = ObstacleMode.AUTO_OBSTACLES then
    { self with m_newObstacles := self.m_newObstacles ++ [bounds] }
  else self

/-- The loop of `next`: the first argument is the remaining `max_iterations`,
the last one counts the pops made so far in this call. -/
def nextLoop (obstacle_mode : ObstacleMode) : Nat → MaxWhitespaceFinder → Nat → NextResult
  | 0, self, pops => ⟨QRect.null, self, pops⟩
  | max_iterations + 1, self, pops =>
    match PriorityStorage.top self.m_queuedRegions with
    | none => ⟨QRect.null, self, pops⟩
    | some top_region =>
      let region := top_region.addNewObstacles self.popTop.m_newObstacles
      if region.m_obstacles ≠ [] then
        nextLoop obstacle_mode max_iterations (self.popTop.subdivideUsingObstacles region) (pops + 1)
      else if self.popTop.m_integralImg.sum region.m_bounds ≠ 0 then
        nextLoop obstacle_mode max_iterations (self.popTop.subdivideUsingRaster region) (pops + 1)
      else
        ⟨region.m_bounds, self.popTop.registerResult obstacle_mode region.m_bounds, pops + 1⟩

/-- The member `next`, with the number of pops it made. -/
def nextCounted (self : MaxWhitespaceFinder) (obstacle_mode : ObstacleMode)
    (max_iterations : Int) : NextResult :=
  nextLoop obstacle_mode max_iterations.toNat self 0

/-- The member `next`: the returned rectangle and the state after the call. -/
def next (self : MaxWhitespaceFinder) (obstacle_mode : ObstacleMode) (max_iterations : Int) :
    QRect × MaxWhitespaceFinder :=
  ((self.nextCounted obstacle_mode max_iterations).rect,
   (self.nextCounted obstacle_mode max_iterations).state)

end MaxWhitespaceFinder

/-! ## Call sequences -/

/-- A call made by the client of the engine. -/
inductive Call where
  | addObstacle (obstacle : QRect)
  | next (obstacle_mode : ObstacleMode) (max_iterations : Int)
deriving DecidableEq, Repr

/-- Runs a sequence of calls; returns the final state and the rectangles
returned by the `next` calls, in call order. -/
def runCalls : MaxWhitespaceFinder → List Call → MaxWhitespaceFinder × List QRect
  | s, [] => (s, [])
  | s, Call.addObstacle obstacle :: rest => runCalls (s.addObstacle obstacle) rest
  | s, Call.next obstacle_mode max_iterations :: rest =>
    let r := s.next obstacle_mode max_iterations
    let out := runCalls r.2 rest
    (out.1, r.1 :: out.2)

/-- The regions that `subdivide` queues, in the order in which it pushes them
(above, below, left, right). -/
def subdivideChildren (self : MaxWhitespaceFinder) (region : Region) (bounds pivot : QRect) :
    List Region :=
  (if pivot.top - bounds.top ≥ self.m_minSize.height then
    [self.newRegion region (bounds.setBottom (pivot.top - 1))] else []) ++
  (if bounds.bottom - pivot.bottom ≥ self.m_minSize.height then
    [self.newRegion region (bounds.setTop (pivot.bottom + 1))] else []) ++
  (if pivot.left - bounds.left ≥ self.m_minSize.width then
    [self.newRegion region (bounds.setRight (pivot.left - 1))] else []) ++
  (if bounds.right - pivot.right ≥ self.m_minSize.width then
    [self.newRegion region (bounds.setLeft (pivot.right + 1))] else [])

/-- An all-background raster of the given size (every word is zero). -/
def whiteImage (w h : Nat) : BinaryImage :=
  { width := w, height := h, wordsPerLine := (w + 31) / 32,
    data := List.replicate (h * ((w + 31) / 32)) 0 }

/-- The 10 x 10 raster whose only foreground pixels are the 2 x 2 block with
top-left corner (4, 4). -/
def blobImage : BinaryImage :=
  { width := 10, height := 10, wordsPerLine := 1,
    data := [0, 0, 0, 0, 0x0C000000, 0x0C000000, 0, 0, 0, 0] }

/-- The rectangle has at least one pixel (`!isEmpty()`). -/
def QRect.Valid (r : QRect) : Prop := r.x1 ≤ r.x2 ∧ r.y1 ≤ r.y2

instance (r : QRect) : Decidable r.Valid := by
  unfold QRect.Valid; infer_instance

/-- Every pixel of the rectangle is a foreground pixel of the raster. -/
def IntegralImage.AllBlack (ii : IntegralImage) (r : QRect) : Prop :=
  ∀ x y, r.Covers x y → ii.img.pixel x y ≠ 0

/-- The candidates of the optimality and coverage statements: rectangles
inside the raster, at least `min_size` wide and high, without foreground pixel,
that meet neither a caller obstacle (`obs`) nor a rectangle returned so far
(`res`). -/
def Candidate (img : BinaryImage) (min_size : QSize) (obs res : List QRect) (q : QRect) : Prop :=
  q.Inside img.rect ∧ min_size.width ≤ q.width ∧ min_size.height ≤ q.height ∧
  (IntegralImage.mk img).sum q = 0 ∧ ∀ o ∈ obs ++ res, ¬ q.Meets o

/-- Invariant of the engine in `AUTO_OBSTACLES` mode when the caller obstacles
`obs` are non-empty, inside the raster and added before the first `next`;
`res` lists the rectangles returned so far. -/
structure AutoInv (img : BinaryImage) (min_size : QSize) (obs res : List QRect)
    (s : MaxWhitespaceFinder) : Prop where
  img_eq : s.m_integralImg = ⟨img⟩
  min_eq : s.m_minSize = min_size
  min_w : 1 ≤ min_size.width
  min_h : 1 ≤ min_size.height
  dims : ∀ g ∈ s.m_queuedRegions,
    g.m_bounds.x1 ≤ g.m_bounds.x2 + 1 ∧ g.m_bounds.y1 ≤ g.m_bounds.y2 + 1
  obst : ∀ g ∈ s.m_queuedRegions, ∀ o ∈ g.m_obstacles,
    o.Valid ∧ o.Inside g.m_bounds ∧ ∃ b ∈ obs ++ res, o.Inside b
  newobs : ∀ b ∈ s.m_newObstacles, b ∈ res ∧ b.x1 ≤ b.x2 + 1 ∧ b.y1 ≤ b.y2 + 1
  registered : ∀ r ∈ res, r ∈ s.m_newObstacles ∨ ¬ r.Valid
  known : ∀ g ∈ s.m_queuedRegions, g.m_knownNewObstacles ≤ s.m_newObstacles.length ∧
    ∀ b ∈ s.m_newObstacles.take g.m_knownNewObstacles, ∀ x y,
      g.m_bounds.Covers x y → b.Covers x y → ∃ o ∈ g.m_obstacles, o.Covers x y
  tracked : ∀ g ∈ s.m_queuedRegions, ∀ b ∈ obs, ∀ x y,
    g.m_bounds.Covers x y → b.Covers x y → ∃ o ∈ g.m_obstacles, o.Covers x y
  cover : ∀ q, Candidate img min_size obs res q →
    ∃ g ∈ s.m_queuedRegions, q.Inside g.m_bounds
  inside : ∀ g ∈ s.m_queuedRegions, g.m_bounds.Inside img.rect

/-- What the optimality and disjointness statements say of a rectangle `r`
returned after the rectangles `res`; the optimality part is for rasters whose
number of pixels is an `int`. -/
def ResultOK (img : BinaryImage) (min_size : QSize) (obs res : List QRect) (r : QRect) : Prop :=
  (IntegralImage.mk img).sum r = 0 ∧ (∀ b ∈ res, ¬ b.Meets r) ∧ (∀ b ∈ obs, ¬ b.Meets r) ∧
  (r.isNull = false → (img.width : Int) * (img.height : Int) ≤ INT_MAX →
    ∀ q, Candidate img min_size obs res q → q.area ≤ r.area)

/-- Invariant of the states reached with a minimum size of at least (1, 1):
a queued region whose bounds are a null rectangle is alone in the frontier and
its bounds are `QRect()` (it is the root region of a 0 x 0 raster). -/
def NullOnlyAlone (s : MaxWhitespaceFinder) : Prop :=
  1 ≤ s.m_minSize.width ∧ 1 ≤ s.m_minSize.height ∧
  ∀ g ∈ s.m_queuedRegions, g.m_bounds.isNull = true →
    s.m_queuedRegions = [g] ∧ g.m_bounds = QRect.null

/-- The engine state after construction on `img` and one `addObstacle` call
for each rectangle of `obs`, in order. -/
def seeded (img : BinaryImage) (min_size : QSize) (obs : List QRect) : MaxWhitespaceFinder :=
  { m_integralImg := ⟨img⟩
    m_queuedRegions := [⟨0, img.rect, obs⟩]
    m_newObstacles := []
    m_minSize := min_size }

/-- The 1 x 1 raster whose only pixel is a foreground pixel. -/
def blackPixelImage : BinaryImage :=
  { width := 1, height := 1, wordsPerLine := 1, data := [0x80000000] }

/-- Invariant of the engine on a raster whose pixels are all foreground, with
`min_size >= (1, 1)` and no obstacles: the frontier holds at most the root
region, and no obstacle is registered. -/
def BlackInv (img : BinaryImage) (s : MaxWhitespaceFinder) : Prop :=
  s.m_integralImg = ⟨img⟩ ∧ 1 ≤ s.m_minSize.width ∧ 1 ≤ s.m_minSize.height ∧
  s.m_newObstacles = [] ∧
  (s.m_queuedRegions = [] ∨ s.m_queuedRegions = [Region.new 0 img.rect])

/-- The rectangles of a list of results that are not null. -/
def nonNull (l : List QRect) : List QRect := l.filter fun r => !r.isNull

/-- One call `next(mode, 1)` on an engine state paired with the non-null
rectangles returned so far. -/
def unitStep (mode : ObstacleMode) (c : MaxWhitespaceFinder × List QRect) :
    MaxWhitespaceFinder × List QRect :=
  ((c.1.next mode 1).2, c.2 ++ nonNull [(c.1.next mode 1).1])

/-- A number of calls `next(mode, 1)` in a row. -/
def unitRun (mode : ObstacleMode) : Nat → MaxWhitespaceFinder × List QRect →
    MaxWhitespaceFinder × List QRect
  | 0, c => c
  | j + 1, c => unitRun mode j (unitStep mode c)

/-- The value of `vec.x() * vec.x() + vec.y() * vec.y()` in `findPivotObstacle`
before it is stored in an `int`: the squared distance between `center` and
the centre of the obstacle. -/
def sqDist (center : QPoint) (obstacle : QRect) : Int :=
  let vec := center.sub obstacle.center
  vec.x * vec.x + vec.y * vec.y

/-- The outcome of a run that also evaluates the `assert`s of the source and
counts the rounds of a loop or the levels of a recursion against a bound. -/
inductive Checked (α : Type) where
  | ok (value : α)
  | assertFailed
  | outOfFuel
deriving DecidableEq, Repr

/-- The member `QRect::contains(const QRect&)` of Qt: false when either
rectangle is null; otherwise both rectangles are normalised and the edges
compared, equal edges counting as contained. -/
def QRect.contains (r q : QRect) : Bool :=
  if r.isNull || q.isNull then false else
  let l1 := if r.x2 - r.x1 + 1 < 0 then r.x2 else r.x1
  let r1 := if r.x2 - r.x1 + 1 < 0 then r.x1 else r.x2
  let l2 := if q.x2 - q.x1 + 1 < 0 then q.x2 else q.x1
  let r2 := if q.x2 - q.x1 + 1 < 0 then q.x1 else q.x2
  if l2 < l1 ∨ r2 > r1 then false else
  let t1 := if r.y2 - r.y1 + 1 < 0 then r.y2 else r.y1
  let b1 := if r.y2 - r.y1 + 1 < 0 then r.y1 else r.y2
  let t2 := if q.y2 - q.y1 + 1 < 0 then q.y2 else q.y1
  let b2 := if q.y2 - q.y1 + 1 < 0 then q.y1 else q.y2
  if t2 < t1 ∨ b2 > b1 then false else true

/-- The member `QRect::contains(const QPoint&)` of Qt: false for the null
rectangle; otherwise the point is compared with the normalised edges, which
count as inside. -/
def QRect.containsPoint (r : QRect) (p : QPoint) : Bool :=
  if r.isNull then false else
  let l := if r.x2 < r.x1 - 1 then r.x2 else r.x1
  let rr := if r.x2 < r.x1 - 1 then r.x1 else r.x2
  if p.x < l ∨ p.x > rr then false else
  let t := if r.y2 < r.y1 - 1 then r.y2 else r.y1
  let b := if r.y2 < r.y1 - 1 then r.y1 else r.y2
  if p.y < t ∨ p.y > b then false else true

/-- The `while (true)` loop of `findBlackPixelCloseToCenter` with its two
`assert`s; running out of the given number of rounds before the `break` is
reported as `outOfFuel`. -/
def findLoopChecked (ii : IntegralImage) : Nat → QRect → QRect → Checked (QRect × QRect)
  | 0, outer_rect, inner_rect =>
    if outer_rect.width - inner_rect.width ≤ 1 ∧ outer_rect.height - inner_rect.height ≤ 1 then
      Checked.ok (outer_rect, inner_rect)
    else Checked.outOfFuel
  | budget + 1, outer_rect, inner_rect =>
    let outer_inner_dw := outer_rect.width - inner_rect.width
    let outer_inner_dh := outer_rect.height - inner_rect.height
    if outer_inner_dw ≤ 1 ∧ outer_inner_dh ≤ 1 then Checked.ok (outer_rect, inner_rect) else
    let middle_rect := middleRect outer_rect inner_rect
    if outer_rect.contains middle_rect = false then Checked.assertFailed else
    if middle_rect.contains inner_rect = false then Checked.assertFailed else
    if ii.sum middle_rect = 0 then findLoopChecked ii budget outer_rect middle_rect
    else findLoopChecked ii budget middle_rect inner_rect

/-- The `while (true)` loop of `extendBlackPixelToBlackBox` with its two
`assert`s; running out of the given number of rounds before the `break` is
reported as `outOfFuel`. -/
def extendLoopChecked (ii : IntegralImage) : Nat → QRect → QRect → Checked (QRect × QRect)
  | 0, outer_rect, inner_rect =>
    if outer_rect.width - inner_rect.width ≤ 1 ∧ outer_rect.height - inner_rect.height ≤ 1 then
      Checked.ok (outer_rect, inner_rect)
    else Checked.outOfFuel
  | budget + 1, outer_rect, inner_rect =>
    let outer_inner_dw := outer_rect.width - inner_rect.width
    let outer_inner_dh := outer_rect.height - inner_rect.height
    if outer_inner_dw ≤ 1 ∧ outer_inner_dh ≤ 1 then Checked.ok (outer_rect, inner_rect) else
    let middle_rect := middleRect outer_rect inner_rect
    if outer_rect.contains middle_rect = false then Checked.assertFailed else
    if middle_rect.contains inner_rect = false then Checked.assertFailed else
    let area := middle_rect.width * middle_rect.height
    if (ii.sum middle_rect : Int) = area then extendLoopChecked ii budget outer_rect middle_rect
    else extendLoopChecked ii budget middle_rect inner_rect

/-- The member `findBlackPixelCloseToCenter` with all of its `assert`s; a call
nested deeper than the given number of levels is reported as `outOfFuel`. -/
def findBlackPixelCloseToCenterChecked (ii : IntegralImage) : Nat → QRect → Checked QPoint
  | 0, _ => Checked.outOfFuel
  | depth + 1, non_white_rect =>
    if ii.sum non_white_rect = 0 then Checked.assertFailed else
    let center := non_white_rect.center
    let inner0 := QRect.ofXYWH center.x center.y 1 1
    if ii.sum inner0 ≠ 0 then Checked.ok center else
    match findLoopChecked ii (bisectBudget non_white_rect inner0) non_white_rect inner0 with
    | Checked.assertFailed => Checked.assertFailed
    | Checked.outOfFuel => Checked.outOfFuel
    | Checked.ok loop =>
      let outer_rect := loop.1
      let inner_rect := loop.2
      -- Process the left edge.
      let leftRect := outer_rect.setRight outer_rect.left
      if outer_rect.left ≠ inner_rect.left ∧ outer_rect.height = 1 then
        (if ii.sum leftRect ≠ 0 then Checked.ok outer_rect.topLeft
          else Checked.ok outer_rect.topRight)
      else if outer_rect.left ≠ inner_rect.left ∧ ii.sum leftRect ≠ 0 then
        findBlackPixelCloseToCenterChecked ii depth leftRect
      else
      -- Process the right edge.
      let rightRect := outer_rect.setLeft outer_rect.right
      if outer_rect.right ≠ inner_rect.right ∧ outer_rect.height = 1 then
        (if ii.sum rightRect ≠ 0 then Checked.ok outer_rect.topRight
          else Checked.ok outer_rect.topLeft)
      else if outer_rect.right ≠ inner_rect.right ∧ ii.sum rightRect ≠ 0 then
        findBlackPixelCloseToCenterChecked ii depth rightRect
      else
      -- Process the top edge.
      let topRect := outer_rect.setBottom outer_rect.top
      if outer_rect.top ≠ inner_rect.top ∧ outer_rect.width = 1 then
        (if ii.sum topRect ≠ 0 then Checked.ok outer_rect.topLeft
          else Checked.ok outer_rect.bottomLeft)
      else if outer_rect.top ≠ inner_rect.top ∧ ii.sum topRect ≠ 0 then
        findBlackPixelCloseToCenterChecked ii depth topRect
      else
      -- Process the bottom edge.
      if outer_rect.bottom = inner_rect.bottom then Checked.assertFailed else
      let bottomRect := outer_rect.setTop outer_rect.bottom
      if ii.sum bottomRect = 0 then Checked.assertFailed else
      if outer_rect.width = 1 then Checked.ok outer_rect.bottomLeft
      else findBlackPixelCloseToCenterChecked ii depth bottomRect

/-- The member `extendBlackPixelToBlackBox` with all of its `assert`s; a loop
that does not reach its `break` within the bound is reported as `outOfFuel`. -/
def extendBlackPixelToBlackBoxChecked (ii : IntegralImage) (pixel : QPoint) (bounds : QRect) :
    Checked QRect :=
  if bounds.containsPoint pixel = false then Checked.assertFailed else
  let outer_rect := bounds
  let inner_rect := QRect.ofXYWH pixel.x pixel.y 1 1
  if (ii.sum outer_rect : Int) = outer_rect.width * outer_rect.height then
    Checked.ok outer_rect
  else
  match extendLoopChecked ii (bisectBudget outer_rect inner_rect) outer_rect inner_rect with
  | Checked.assertFailed => Checked.assertFailed
  | Checked.outOfFuel => Checked.outOfFuel
  | Checked.ok loop => Checked.ok loop.2

/-- The number of regions popped off the frontier by the `next` calls of a
sequence of calls. -/
def runPops : MaxWhitespaceFinder → List Call → Nat
  | _, [] => 0
  | s, Call.addObstacle obstacle :: rest => runPops (s.addObstacle obstacle) rest
  | s, Call.next obstacle_mode max_iterations :: rest =>
    (s.nextCounted obstacle_mode max_iterations).pops +
      runPops (s.next obstacle_mode max_iterations).2 rest

/-- The weight of a queued region in the termination measure: a region of
area `a` weighs more than four regions of area `a - 1` together. -/
def popWeight (r : QRect) : Nat := 5 ^ r.area.toNat

/-- The termination measure of the frontier. -/
def potential (q : List Region) : Nat := (q.map fun g => popWeight g.m_bounds).sum

/-- Invariant behind the termination measure: `min_size >= (1, 1)`, no queued
region has a negative extent, and the obstacles held by a queued region are
non-empty and lie inside its bounds. -/
def TermInv (s : MaxWhitespaceFinder) : Prop :=
  1 ≤ s.m_minSize.width ∧ 1 ≤ s.m_minSize.height ∧
  ∀ g ∈ s.m_queuedRegions,
    (g.m_bounds.x1 ≤ g.m_bounds.x2 + 1 ∧ g.m_bounds.y1 ≤ g.m_bounds.y2 + 1) ∧
    ∀ o ∈ g.m_obstacles, o.Valid ∧ o.Inside g.m_bounds

/-- The rectangles passed to `addObstacle` by a sequence of calls, in call
order. -/
def addedObstacles : List Call → List QRect
  | [] => []
  | Call.addObstacle obstacle :: rest => obstacle :: addedObstacles rest
  | Call.next _ _ :: rest => addedObstacles rest

/-- Invariant of the states reached from the constructor by any sequence of
`addObstacle` and `next` calls, whatever the minimum size; `obs` lists the
rectangles passed to `addObstacle` so far.  No queued region has a negative
extent, every queued region lies inside the raster and holds non-empty
obstacles inside its bounds, its watermark does not exceed the number of
global obstacles, every pixel of a caller obstacle inside a queued region is
covered by an obstacle of the region unless the caller obstacle is still
pending for that region in the global list, and a region with null bounds is
alone in the frontier (it is the root region of a 0 x 0 raster). -/
structure CallInv (img : BinaryImage) (obs : List QRect) (s : MaxWhitespaceFinder) : Prop where
  img_eq : s.m_integralImg = ⟨img⟩
  dims : ∀ g ∈ s.m_queuedRegions,
    g.m_bounds.x1 ≤ g.m_bounds.x2 + 1 ∧ g.m_bounds.y1 ≤ g.m_bounds.y2 + 1
  inside : ∀ g ∈ s.m_queuedRegions, g.m_bounds.Inside img.rect
  obst : ∀ g ∈ s.m_queuedRegions, ∀ o ∈ g.m_obstacles, o.Valid ∧ o.Inside g.m_bounds
  known : ∀ g ∈ s.m_queuedRegions, g.m_knownNewObstacles ≤ s.m_newObstacles.length
  tracked : ∀ g ∈ s.m_queuedRegions, ∀ b ∈ obs, ∀ x y,
    g.m_bounds.Covers x y → b.Covers x y →
      (∃ o ∈ g.m_obstacles, o.Covers x y) ∨
        b ∈ s.m_newObstacles.drop g.m_knownNewObstacles
  alone : ∀ g ∈ s.m_queuedRegions, g.m_bounds.isNull = true →
    s.m_queuedRegions = [g] ∧ g.m_bounds = QRect.null

/-- The rectangles of a list clipped to `bounds`, without the empty
intersections: what `addNewObstacles` appends to the obstacles of a region
with these bounds. -/
def clipTo (bounds : QRect) (l : List QRect) : List QRect :=
  (l.map fun obstacle => obstacle.intersected bounds).filter fun r => !r.isEmpty

/-- Two queued regions, each with the global obstacle list of its engine, that
`next` cannot tell apart: same bounds, same obstacles, and the same clipped
global obstacles still to be merged. -/
def RegionSim (new_obstacles1 new_obstacles2 : List QRect) (g1 g2 : Region) : Prop :=
  g1.m_bounds = g2.m_bounds ∧ g1.m_obstacles = g2.m_obstacles ∧
  g1.m_knownNewObstacles ≤ new_obstacles1.length ∧
  g2.m_knownNewObstacles ≤ new_obstacles2.length ∧
  clipTo g1.m_bounds (new_obstacles1.drop g1.m_knownNewObstacles) =
    clipTo g2.m_bounds (new_obstacles2.drop g2.m_knownNewObstacles)

/-- Two engine states that `next` and `addObstacle` cannot tell apart: same
raster, same minimum size, and frontiers that correspond region by region. -/
def Sim (s1 s2 : MaxWhitespaceFinder) : Prop :=
  s1.m_integralImg = s2.m_integralImg ∧ s1.m_minSize = s2.m_minSize ∧
  List.Forall₂ (RegionSim s1.m_newObstacles s2.m_newObstacles)
    s1.m_queuedRegions s2.m_queuedRegions

end imageproc

/-! ## FileNameDisambiguator -/

namespace FileNameDisambiguator

/-- A `QString`, as the sequence of its UTF-16 code units; `operator<` of
`QString` is the lexicographic order of these sequences. -/
abbrev QString := List Nat

/-- The function `QFileInfo(file_path).fileName()` of Qt: the name of the file
without the path, that is, what follows the last `/` (code unit 47). -/
def fileNameOf (file_path : QString) : QString :=
  (file_path.reverse.takeWhile fun c => c ≠ 47).reverse

/-- The struct `Impl::Item`. -/
structure Item where
  filePath : QString
  fileName : QString
  label : Int
deriving DecidableEq, Repr

/-- The constructor `Item(file_path, lbl)`. -/
def Item.ofPath (file_path : QString) (lbl : Int) : Item :=
  ⟨file_path, fileNameOf file_path, lbl⟩

/-- The composite key `(fileName, label)` of the index `ItemsByFileNameLabel`,
ordered lexicographically. -/
def Item.key (it : Item) : Lex (QString × Int) := toLex (it.fileName, it.label)

/-- The order of the index `ItemsByFileNameLabel`. -/
def Item.le (a b : Item) : Prop := a.key ≤ b.key

instance : DecidableRel Item.le := fun a b => by
  unfold Item.le; infer_instance

instance : IsTotal Item Item.le := ⟨fun a b => le_total a.key b.key⟩

instance : IsTrans Item Item.le := ⟨fun a _ _ h1 h2 => le_trans (a := a.key) h1 h2⟩

/-- The data of `FileNameDisambiguator::Impl`: the items of the
`multi_index_container`, in the order of its sequenced index. -/
structure Impl where
  m_items : List Item
deriving DecidableEq, Repr

/-- The default constructor: no items. -/
def Impl.empty : Impl := ⟨[]⟩

/-- Insertion into the `multi_index_container`: refused when the file path or
the pair `(fileName, label)` is already present (both indices are
`ordered_unique`); otherwise the item is appended to the sequenced index. -/
def Impl.insert (self : Impl) (item : Item) : Impl :=
  if self.m_items.any (fun x => decide (x.filePath = item.filePath)) then self
  else if self.m_items.any
      (fun x => decide (x.fileName = item.fileName ∧ x.label = item.label)) then self
  else ⟨self.m_items ++ [item]⟩

/-- The lookup `m_itemsByFilePath.find(file_path)`. -/
def Impl.findByFilePath (self : Impl) (file_path : QString) : Option Item :=
  self.m_items.find? fun x => decide (x.filePath = file_path)

/-- The items in the order of the index `ItemsByFileNameLabel`. -/
def Impl.itemsByFileNameLabel (self : Impl) : List Item :=
  self.m_items.insertionSort Item.le

/-- The items of the index `ItemsByFileNameLabel` that come before the
iterator `upper_bound(boost::make_tuple(file_name))`: those whose file name is
not greater than `file_name`. -/
def Impl.beforeUpperBound (self : Impl) (file_name : QString) : List Item :=
  self.itemsByFileNameLabel.takeWhile fun x => decide (x.fileName ≤ file_name)

/-- The member `getLabel`; it is `const`, so the state is not part of the
result. -/
def Impl.getLabel (self : Impl) (file_path : QString) : Int :=
  match self.findByFilePath file_path with
  | some item => item.label
  | none => 0

/-- The label that `registerFile` gives to a path with the given file name
that is not registered yet.  The item before the iterator `fn_it`, if there is
one, is the last of `beforeUpperBound`; `prev->label + 1` is computed in
`int`. -/
def Impl.newLabel (self : Impl) (file_name : QString) : Int :=
  match (self.beforeUpperBound file_name).getLast? with
  | none => 0
  | some prev => if prev.fileName = file_name then imageproc.toInt32 (prev.label + 1) else 0

/-- The member `registerFile`: the returned label and the state after the
call. -/
def Impl.registerFile (self : Impl) (file_path : QString) : Int × Impl :=
  match self.findByFilePath file_path with
  | some item => (item.label, self)
  | none =>
    let file_name := fileNameOf file_path
    let label := self.newLabel file_name
    (label, self.insert ⟨file_path, file_name, label⟩)

/-- The state after registering the given paths one after the other. -/
def Impl.registerAll (self : Impl) (paths : List QString) : Impl :=
  paths.foldl (fun s p => (s.registerFile p).2) self

/-- The number of items with the given file name. -/
def Impl.countName (self : Impl) (file_name : QString) : Nat :=
  (self.m_items.filter fun x => decide (x.fileName = file_name)).length

/-- What the container and the constructors of `Item` guarantee in every
state: the file name of an item is the file name of its path, no two items
have the same path, and no two items have the same file name and label. -/
def Impl.WF (self : Impl) : Prop :=
  (∀ x ∈ self.m_items, x.fileName = fileNameOf x.filePath) ∧
  (self.m_items.Pairwise fun a b => a.filePath ≠ b.filePath) ∧
  (self.m_items.Pairwise fun a b => ¬ (a.fileName = b.fileName ∧ a.label = b.label))

instance (self : Impl) : Decidable self.WF := by
  unfold Impl.WF; infer_instance

/-- The labels of each file name are dense: with `n` items of a file name,
their labels lie in `0 .. n - 1` and the label `n - 1` is taken. -/
def Impl.Dense (self : Impl) : Prop :=
  ∀ file_name : QString,
    (∀ x ∈ self.m_items, x.fileName = file_name →
      0 ≤ x.label ∧ x.label < self.countName file_name) ∧
    (self.countName file_name ≠ 0 →
      ∃ m ∈ self.m_items, m.fileName = file_name ∧ m.label = self.countName file_name - 1)

end FileNameDisambiguator

/-! # Theorems -/

namespace imageproc

open MaxWhitespaceFinder

/-! ## Rectangle sums -/

theorem sum_range_eq_zero_iff (f : Nat → Nat) (n : Nat) :
    ((List.range n).map f).sum = 0 ↔ ∀ i, i < n → f i = 0 := by
  rw [List.sum_eq_zero_iff]
  constructor
  · intro h i hi
    exact h (f i) (List.mem_map.mpr ⟨i, List.mem_range.mpr hi, rfl⟩)
  · intro h a ha
    obtain ⟨i, hi, rfl⟩ := List.mem_map.mp ha
    exact h i (List.mem_range.mp hi)

theorem IntegralImage.sum_eq_zero_iff (ii : IntegralImage) (r : QRect) :
    ii.sum r = 0 ↔ ∀ x y, r.Covers x y → ii.img.pixel x y = 0 := by
  unfold IntegralImage.sum
  rw [sum_range_eq_zero_iff]
  simp only [sum_range_eq_zero_iff, QRect.Covers, QRect.width, QRect.height]
  constructor
  · intro h x y hx
    have := h (y - r.y1).toNat (by omega) (x - r.x1).toNat (by omega)
    have e1 : r.x1 + ((x - r.x1).toNat : Int) = x := by omega
    have e2 : r.y1 + ((y - r.y1).toNat : Int) = y := by omega
    rwa [e1, e2] at this
  · intro h j hj i hi
    exact h _ _ (by omega)

theorem IntegralImage.sum_null (ii : IntegralImage) : ii.sum QRect.null = 0 := by
  rw [IntegralImage.sum_eq_zero_iff]
  intro x y h
  simp only [QRect.Covers, QRect.null] at h
  omega

/-! ## The effect of `subdivide` on the state -/

theorem subdivide_eq (s : MaxWhitespaceFinder) (region : Region) (bounds pivot : QRect) :
    s.subdivide region bounds pivot =
      { s with m_queuedRegions := s.m_queuedRegions ++ subdivideChildren s region bounds pivot } := by
  unfold MaxWhitespaceFinder.subdivide subdivideChildren
  simp only [pushRegion, PriorityStorage.push, newRegion]
  split_ifs <;> simp

/-! ## The priority frontier -/

theorem PriorityStorage.top_eq_none_iff (q : PriorityStorage) :
    PriorityStorage.top q = none ↔ q = [] := by
  cases q with
  | nil => simp [PriorityStorage.top]
  | cons g rest =>
    simp only [PriorityStorage.top]
    cases PriorityStorage.top rest with
    | none => simp
    | some h => by_cases c : AreaCompare g.m_bounds h.m_bounds <;> simp [c]

theorem PriorityStorage.top_mem {q : PriorityStorage} {t : Region}
    (h : PriorityStorage.top q = some t) : t ∈ q := by
  induction q generalizing t with
  | nil => simp [PriorityStorage.top] at h
  | cons g rest ih =>
    simp only [PriorityStorage.top] at h
    cases hr : PriorityStorage.top rest with
    | none =>
      rw [hr] at h
      simp only [Option.some.injEq] at h
      simp [h]
    | some u =>
      rw [hr] at h
      by_cases c : AreaCompare g.m_bounds u.m_bounds
      · simp only [c, if_true, Option.some.injEq] at h
        subst h
        exact List.mem_cons_of_mem _ (ih hr)
      · simp only [c, Bool.false_eq_true, if_false, Option.some.injEq] at h
        simp [h]

theorem PriorityStorage.mem_of_mem_pop {q : PriorityStorage} {g : Region}
    (h : g ∈ PriorityStorage.pop q) : g ∈ q := by
  induction q with
  | nil => simp [PriorityStorage.pop] at h
  | cons a rest ih =>
    simp only [PriorityStorage.pop] at h
    cases hr : PriorityStorage.top rest with
    | none => rw [hr] at h; simp at h
    | some u =>
      rw [hr] at h
      by_cases c : AreaCompare a.m_bounds u.m_bounds
      · simp only [c, if_true, List.mem_cons] at h
        rcases h with h | h
        · simp [h]
        · exact List.mem_cons_of_mem _ (ih h)
      · simp only [c] at h
        exact List.mem_cons_of_mem _ h

theorem PriorityStorage.mem_top_or_pop {q : PriorityStorage} {t g : Region}
    (ht : PriorityStorage.top q = some t) (h : g ∈ q) : g = t ∨ g ∈ PriorityStorage.pop q := by
  induction q generalizing t with
  | nil => simp at h
  | cons a rest ih =>
    simp only [PriorityStorage.top] at ht
    simp only [PriorityStorage.pop]
    cases hr : PriorityStorage.top rest with
    | none =>
      rw [hr] at ht
      have : rest = [] := (PriorityStorage.top_eq_none_iff rest).mp hr
      subst this
      simp only [Option.some.injEq] at ht
      simp only [List.mem_singleton] at h
      left; rw [h, ht]
    | some u =>
      rw [hr] at ht
      by_cases c : AreaCompare a.m_bounds u.m_bounds
      · simp only [c, if_true, Option.some.injEq] at ht
        simp only [c, if_true, List.mem_cons]
        rcases List.mem_cons.mp h with h | h
        · right; left; exact h
        · rcases ih hr h with h | h
          · left; rw [h, ht]
          · right; right; exact h
      · simp only [c, Bool.false_eq_true, if_false, Option.some.injEq] at ht
        simp only [c]
        rcases List.mem_cons.mp h with h | h
        · left; rw [h, ht]
        · right; exact h

theorem PriorityStorage.top_area_le {q : PriorityStorage} {t g : Region}
    (ht : PriorityStorage.top q = some t) (h : g ∈ q) :
    toInt32 g.m_bounds.area ≤ toInt32 t.m_bounds.area := by
  induction q generalizing t with
  | nil => simp at h
  | cons a rest ih =>
    simp only [PriorityStorage.top] at ht
    cases hr : PriorityStorage.top rest with
    | none =>
      rw [hr] at ht
      have : rest = [] := (PriorityStorage.top_eq_none_iff rest).mp hr
      subst this
      simp only [Option.some.injEq] at ht
      simp only [List.mem_singleton] at h
      rw [h, ht]
    | some u =>
      rw [hr] at ht
      by_cases c : AreaCompare a.m_bounds u.m_bounds
      · simp only [c, if_true, Option.some.injEq] at ht
        subst ht
        rcases List.mem_cons.mp h with h | h
        · subst h
          simp only [AreaCompare, decide_eq_true_eq] at c
          exact le_of_lt c
        · exact ih hr h
      · simp only [c, Bool.false_eq_true, if_false, Option.some.injEq] at ht
        subst ht
        simp only [AreaCompare, decide_eq_true_eq, not_lt] at c
        rcases List.mem_cons.mp h with h | h
        · rw [h]
        · exact le_trans (ih hr h) c

theorem PriorityStorage.pop_length {q : PriorityStorage} {t : Region}
    (ht : PriorityStorage.top q = some t) : (PriorityStorage.pop q).length + 1 = q.length := by
  induction q generalizing t with
  | nil => simp [PriorityStorage.top] at ht
  | cons a rest ih =>
    simp only [PriorityStorage.pop]
    cases hr : PriorityStorage.top rest with
    | none =>
      have : rest = [] := (PriorityStorage.top_eq_none_iff rest).mp hr
      subst this
      simp
    | some u =>
      by_cases c : AreaCompare a.m_bounds u.m_bounds
      · simp only [c, if_true, List.length_cons]
        have := ih hr
        omega
      · simp [c]

/-! ## The loop of `next` -/

theorem nextLoop_induction (mode : ObstacleMode) (Inv : MaxWhitespaceFinder → Prop)
    (Post : QRect → MaxWhitespaceFinder → Prop)
    (hstop : ∀ s, Inv s → Post QRect.null s)
    (hobs : ∀ s t, Inv s → PriorityStorage.top s.m_queuedRegions = some t →
      (t.addNewObstacles s.m_newObstacles).m_obstacles ≠ [] →
      Inv (s.popTop.subdivideUsingObstacles (t.addNewObstacles s.m_newObstacles)))
    (hras : ∀ s t, Inv s → PriorityStorage.top s.m_queuedRegions = some t →
      (t.addNewObstacles s.m_newObstacles).m_obstacles = [] →
      s.m_integralImg.sum t.m_bounds ≠ 0 →
      Inv (s.popTop.subdivideUsingRaster (t.addNewObstacles s.m_newObstacles)))
    (hret : ∀ s t, Inv s → PriorityStorage.top s.m_queuedRegions = some t →
      (t.addNewObstacles s.m_newObstacles).m_obstacles = [] →
      s.m_integralImg.sum t.m_bounds = 0 →
      Post t.m_bounds (s.popTop.registerResult mode t.m_bounds))
    (n : Nat) (s : MaxWhitespaceFinder) (k : Nat) (hs : Inv s) :
    Post (nextLoop mode n s k).rect (nextLoop mode n s k).state := by
  induction n generalizing s k with
  | zero => exact hstop s hs
  | succ n ih =>
    unfold nextLoop
    cases ht : PriorityStorage.top s.m_queuedRegions with
    | none => exact hstop s hs
    | some t =>
      simp only
      by_cases c1 : (t.addNewObstacles s.popTop.m_newObstacles).m_obstacles ≠ []
      · rw [if_pos c1]
        exact ih _ _ (hobs s t hs ht c1)
      · rw [if_neg c1]
        have c1 : (t.addNewObstacles s.m_newObstacles).m_obstacles = [] := not_not.mp c1
        by_cases c2 : s.popTop.m_integralImg.sum (t.addNewObstacles s.popTop.m_newObstacles).m_bounds ≠ 0
        · rw [if_pos c2]
          exact ih _ _ (hras s t hs ht c1 c2)
        · rw [if_neg c2]
          exact hret s t hs ht c1 (not_not.mp c2)

theorem nextLoop_rect_state (mode : ObstacleMode) (n : Nat) (s : MaxWhitespaceFinder)
    (k k2 : Nat) :
    (nextLoop mode n s k).rect = (nextLoop mode n s k2).rect ∧
    (nextLoop mode n s k).state = (nextLoop mode n s k2).state := by
  induction n generalizing s k k2 with
  | zero => simp [nextLoop]
  | succ n ih =>
    unfold nextLoop
    cases PriorityStorage.top s.m_queuedRegions with
    | none => simp
    | some t =>
      simp only
      split_ifs
      · exact ih _ _ _
      · exact ih _ _ _
      · simp

theorem nextLoop_pops_le (mode : ObstacleMode) (n : Nat) (s : MaxWhitespaceFinder) (k : Nat) :
    (nextLoop mode n s k).pops ≤ k + n := by
  induction n generalizing s k with
  | zero => simp [nextLoop]
  | succ n ih =>
    unfold nextLoop
    cases PriorityStorage.top s.m_queuedRegions with
    | none => simp
    | some t =>
      simp only
      split_ifs
      · have := ih (s.popTop.subdivideUsingObstacles (t.addNewObstacles s.popTop.m_newObstacles)) (k + 1)
        omega
      · have := ih (s.popTop.subdivideUsingRaster (t.addNewObstacles s.popTop.m_newObstacles)) (k + 1)
        omega
      · simp only; omega

theorem next_induction (mode : ObstacleMode) (Inv : MaxWhitespaceFinder → Prop)
    (Post : QRect → MaxWhitespaceFinder → Prop)
    (hstop : ∀ s, Inv s → Post QRect.null s)
    (hobs : ∀ s t, Inv s → PriorityStorage.top s.m_queuedRegions = some t →
      (t.addNewObstacles s.m_newObstacles).m_obstacles ≠ [] →
      Inv (s.popTop.subdivideUsingObstacles (t.addNewObstacles s.m_newObstacles)))
    (hras : ∀ s t, Inv s → PriorityStorage.top s.m_queuedRegions = some t →
      (t.addNewObstacles s.m_newObstacles).m_obstacles = [] →
      s.m_integralImg.sum t.m_bounds ≠ 0 →
      Inv (s.popTop.subdivideUsingRaster (t.addNewObstacles s.m_newObstacles)))
    (hret : ∀ s t, Inv s → PriorityStorage.top s.m_queuedRegions = some t →
      (t.addNewObstacles s.m_newObstacles).m_obstacles = [] →
      s.m_integralImg.sum t.m_bounds = 0 →
      Post t.m_bounds (s.popTop.registerResult mode t.m_bounds))
    (n : Int) (s : MaxWhitespaceFinder) (hs : Inv s) :
    Post (s.next mode n).1 (s.next mode n).2 :=
  nextLoop_induction mode Inv Post hstop hobs hras hret n.toNat s 0 hs

theorem subdivideUsingObstacles_eq (s : MaxWhitespaceFinder) (region : Region) :
    s.subdivideUsingObstacles region =
      { s with m_queuedRegions := s.m_queuedRegions ++
          subdivideChildren s region region.m_bounds (findPivotObstacle region) } := by
  unfold subdivideUsingObstacles
  exact subdivide_eq _ _ _ _

theorem subdivideUsingRaster_eq (s : MaxWhitespaceFinder) (region : Region) :
    s.subdivideUsingRaster region =
      { s with m_queuedRegions := s.m_queuedRegions ++
          subdivideChildren s region region.m_bounds (extendBlackPixelToBlackBox s.m_integralImg
            (findBlackPixelCloseToCenter s.m_integralImg region.m_bounds) region.m_bounds) } := by
  unfold subdivideUsingRaster
  exact subdivide_eq _ _ _ _

theorem registerResult_integralImg (s : MaxWhitespaceFinder) (mode : ObstacleMode) (b : QRect) :
    (s.registerResult mode b).m_integralImg = s.m_integralImg := by
  unfold registerResult; split_ifs <;> rfl

theorem registerResult_minSize (s : MaxWhitespaceFinder) (mode : ObstacleMode) (b : QRect) :
    (s.registerResult mode b).m_minSize = s.m_minSize := by
  unfold registerResult; split_ifs <;> rfl

theorem registerResult_queue (s : MaxWhitespaceFinder) (mode : ObstacleMode) (b : QRect) :
    (s.registerResult mode b).m_queuedRegions = s.m_queuedRegions := by
  unfold registerResult; split_ifs <;> rfl

theorem addObstacle_integralImg (s : MaxWhitespaceFinder) (o : QRect) :
    (s.addObstacle o).m_integralImg = s.m_integralImg := by
  unfold MaxWhitespaceFinder.addObstacle; split <;> rfl

theorem addObstacle_minSize (s : MaxWhitespaceFinder) (o : QRect) :
    (s.addObstacle o).m_minSize = s.m_minSize := by
  unfold MaxWhitespaceFinder.addObstacle; split <;> rfl

theorem next_sum_zero (s : MaxWhitespaceFinder) (mode : ObstacleMode) (n : Int) :
    s.m_integralImg.sum (s.next mode n).1 = 0 ∧
      (s.next mode n).2.m_integralImg = s.m_integralImg := by
  refine next_induction mode (fun u => u.m_integralImg = s.m_integralImg)
    (fun r u => s.m_integralImg.sum r = 0 ∧ u.m_integralImg = s.m_integralImg)
    ?_ ?_ ?_ ?_ n s rfl
  · intro u hu
    exact ⟨IntegralImage.sum_null _, hu⟩
  · intro u t hu _ _
    rw [subdivideUsingObstacles_eq]; exact hu
  · intro u t hu _ _ _
    rw [subdivideUsingRaster_eq]; exact hu
  · intro u t hu _ _ hsum
    rw [registerResult_integralImg]
    exact ⟨hu ▸ hsum, hu⟩

theorem runCalls_induction (Inv : MaxWhitespaceFinder → Prop) (P : QRect → Prop)
    (hadd : ∀ s o, Inv s → Inv (s.addObstacle o))
    (hnext : ∀ s mode n, Inv s → Inv (s.next mode n).2 ∧ P (s.next mode n).1)
    (calls : List Call) (s : MaxWhitespaceFinder) (hs : Inv s) :
    Inv (runCalls s calls).1 ∧ ∀ r ∈ (runCalls s calls).2, P r := by
  induction calls generalizing s with
  | nil => simp [runCalls, hs]
  | cons c rest ih =>
    cases c with
    | addObstacle o =>
      simp only [runCalls]
      exact ih _ (hadd s o hs)
    | next mode n =>
      simp only [runCalls]
      have h1 := hnext s mode n hs
      have h2 := ih _ h1.1
      refine ⟨h2.1, ?_⟩
      intro r hr
      rcases List.mem_cons.mp hr with hr | hr
      · rw [hr]; exact h1.2
      · exact h2.2 r hr

/-- C2 (emptiness, pixels): whatever the raster, the minimum size and the
sequence of `addObstacle` and `next` calls (any mode, any budget), every
rectangle returned by `next` has integral-image sum 0 and covers no foreground
pixel of the raster. -/
theorem next_result_has_no_foreground (img : BinaryImage) (min_size : QSize)
    (calls : List Call) (r : QRect)
    (hr : r ∈ (runCalls (MaxWhitespaceFinder.new img min_size) calls).2) :
    (IntegralImage.mk img).sum r = 0 ∧ ∀ x y, r.Covers x y → img.pixel x y = 0 := by
  have h := runCalls_induction (fun u => u.m_integralImg = ⟨img⟩)
    (fun r => (IntegralImage.mk img).sum r = 0)
    (fun s o hs => by
      show (s.addObstacle o).m_integralImg = _
      rw [addObstacle_integralImg]; exact hs)
    (fun s mode n hs => by
      have := next_sum_zero s mode n
      have hs : s.m_integralImg = ⟨img⟩ := hs
      rw [hs] at this
      exact ⟨this.2, this.1⟩)
    calls (MaxWhitespaceFinder.new img min_size) rfl
  have h0 := h.2 r hr
  exact ⟨h0, (IntegralImage.sum_eq_zero_iff ⟨img⟩ r).mp h0⟩

theorem next_result_has_no_foreground_witness :
    (⟨0, 0, 9, 3⟩ : QRect) ∈ (runCalls (MaxWhitespaceFinder.new blobImage ⟨1, 1⟩)
        [Call.next ObstacleMode.AUTO_OBSTACLES 100]).2 ∧
    ((IntegralImage.mk blobImage).sum ⟨0, 0, 9, 3⟩ = 0 ∧
      ∀ x y, (⟨0, 0, 9, 3⟩ : QRect).Covers x y → blobImage.pixel x y = 0) :=
  ⟨by decide, next_result_has_no_foreground blobImage ⟨1, 1⟩
    [Call.next ObstacleMode.AUTO_OBSTACLES 100] ⟨0, 0, 9, 3⟩ (by decide)⟩

/-- C9 (absent result): when the frontier is empty or `max_iterations <= 0`,
`next` returns the null rectangle `QRect()` and leaves the engine state
unchanged; and a call pops at most `max_iterations` regions. -/
theorem next_absent_result (s : MaxWhitespaceFinder) (mode : ObstacleMode) (n : Int) :
    ((s.m_queuedRegions = [] ∨ n ≤ 0) → s.next mode n = (QRect.null, s)) ∧
    ((s.nextCounted mode n).pops : Int) ≤ max n 0 := by
  constructor
  · intro h
    unfold MaxWhitespaceFinder.next nextCounted
    rcases h with h | h
    · cases hn : n.toNat with
      | zero => simp [nextLoop]
      | succ m =>
        unfold nextLoop
        rw [h]
        simp [PriorityStorage.top]
    · have : n.toNat = 0 := by omega
      rw [this]
      simp [nextLoop]
  · have := nextLoop_pops_le mode n.toNat s 0
    unfold nextCounted
    omega

theorem next_absent_result_witness :
    (((MaxWhitespaceFinder.new blobImage ⟨1, 1⟩).m_queuedRegions = [] ∨ (0 : Int) ≤ 0) →
      (MaxWhitespaceFinder.new blobImage ⟨1, 1⟩).next ObstacleMode.AUTO_OBSTACLES 0 =
        (QRect.null, MaxWhitespaceFinder.new blobImage ⟨1, 1⟩)) ∧
    (((MaxWhitespaceFinder.new blobImage ⟨1, 1⟩).nextCounted
      ObstacleMode.AUTO_OBSTACLES 0).pops : Int) ≤ max 0 0 :=
  next_absent_result (MaxWhitespaceFinder.new blobImage ⟨1, 1⟩) ObstacleMode.AUTO_OBSTACLES 0

/-! ## Regions queued by `subdivide` and by `addObstacle` -/

theorem newRegion_bounds (s : MaxWhitespaceFinder) (region : Region) (b : QRect) :
    (s.newRegion region b).m_bounds = b := rfl

theorem newRegion_known (s : MaxWhitespaceFinder) (region : Region) (b : QRect) :
    (s.newRegion region b).m_knownNewObstacles = s.m_newObstacles.length := rfl

theorem newRegion_obstacles (s : MaxWhitespaceFinder) (region : Region) (b : QRect) :
    (s.newRegion region b).m_obstacles =
      (region.m_obstacles.map fun o => o.intersected b).filter fun r => !r.isEmpty := by
  simp [newRegion, Region.addObstacles, Region.new]

theorem mem_subdivideChildren {s : MaxWhitespaceFinder} {region : Region} {bounds pivot : QRect}
    {c : Region} (h : c ∈ subdivideChildren s region bounds pivot) :
    (s.m_minSize.height ≤ pivot.y1 - bounds.y1 ∧
        c = s.newRegion region (bounds.setBottom (pivot.y1 - 1))) ∨
    (s.m_minSize.height ≤ bounds.y2 - pivot.y2 ∧
        c = s.newRegion region (bounds.setTop (pivot.y2 + 1))) ∨
    (s.m_minSize.width ≤ pivot.x1 - bounds.x1 ∧
        c = s.newRegion region (bounds.setRight (pivot.x1 - 1))) ∨
    (s.m_minSize.width ≤ bounds.x2 - pivot.x2 ∧
        c = s.newRegion region (bounds.setLeft (pivot.x2 + 1))) := by
  unfold subdivideChildren at h
  simp only [QRect.top, QRect.bottom, QRect.left, QRect.right, ge_iff_le, List.mem_append] at h
  rcases h with ((h | h) | h) | h
  · left
    split_ifs at h with c1
    · exact ⟨c1, List.mem_singleton.mp h⟩
    · simp at h
  · right; left
    split_ifs at h with c1
    · exact ⟨c1, List.mem_singleton.mp h⟩
    · simp at h
  · right; right; left
    split_ifs at h with c1
    · exact ⟨c1, List.mem_singleton.mp h⟩
    · simp at h
  · right; right; right
    split_ifs at h with c1
    · exact ⟨c1, List.mem_singleton.mp h⟩
    · simp at h

theorem mem_addObstacle_queue {s : MaxWhitespaceFinder} {o : QRect} {g : Region}
    (h : g ∈ (s.addObstacle o).m_queuedRegions) :
    g ∈ s.m_queuedRegions ∨
      ∃ t, s.m_queuedRegions = [t] ∧ g = t.addObstacle o := by
  unfold MaxWhitespaceFinder.addObstacle at h
  split at h
  · rename_i t ht
    right
    exact ⟨t, ht, List.mem_singleton.mp h⟩
  · left; exact h

theorem mem_popTop_queue {s : MaxWhitespaceFinder} {g : Region}
    (h : g ∈ s.popTop.m_queuedRegions) : g ∈ s.m_queuedRegions :=
  PriorityStorage.mem_of_mem_pop h

/-! ## Minimum size -/

theorem next_min_size (s : MaxWhitespaceFinder) (mode : ObstacleMode) (n : Int)
    (hs : ∀ g ∈ s.m_queuedRegions,
      s.m_minSize.width ≤ g.m_bounds.width ∧ s.m_minSize.height ≤ g.m_bounds.height) :
    ((s.next mode n).2.m_minSize = s.m_minSize ∧
      ∀ g ∈ (s.next mode n).2.m_queuedRegions,
        s.m_minSize.width ≤ g.m_bounds.width ∧ s.m_minSize.height ≤ g.m_bounds.height) ∧
    ((s.next mode n).1 = QRect.null ∨
      (s.m_minSize.width ≤ (s.next mode n).1.width ∧
        s.m_minSize.height ≤ (s.next mode n).1.height)) := by
  have key : ∀ (u : MaxWhitespaceFinder) (t : Region) (pivot : QRect),
      (u.m_minSize = s.m_minSize ∧ ∀ g ∈ u.m_queuedRegions,
        s.m_minSize.width ≤ g.m_bounds.width ∧ s.m_minSize.height ≤ g.m_bounds.height) →
      PriorityStorage.top u.m_queuedRegions = some t →
      ∀ g ∈ u.popTop.m_queuedRegions ++ subdivideChildren u.popTop
          (t.addNewObstacles u.m_newObstacles) t.m_bounds pivot,
        s.m_minSize.width ≤ g.m_bounds.width ∧ s.m_minSize.height ≤ g.m_bounds.height := by
    intro u t pivot hu ht g hg
    rcases List.mem_append.mp hg with hg | hg
    · exact hu.2 g (mem_popTop_queue hg)
    · have htb := hu.2 t (PriorityStorage.top_mem ht)
      have hm : u.popTop.m_minSize = s.m_minSize := hu.1
      rcases mem_subdivideChildren hg with ⟨c, rfl⟩ | ⟨c, rfl⟩ | ⟨c, rfl⟩ | ⟨c, rfl⟩ <;>
        simp only [newRegion_bounds, QRect.width, QRect.height, QRect.setBottom, QRect.setTop,
          QRect.setLeft, QRect.setRight] at htb ⊢ <;>
        rw [hm] at c <;> omega
  refine next_induction mode
    (fun u => u.m_minSize = s.m_minSize ∧ ∀ g ∈ u.m_queuedRegions,
      s.m_minSize.width ≤ g.m_bounds.width ∧ s.m_minSize.height ≤ g.m_bounds.height)
    (fun r u => (u.m_minSize = s.m_minSize ∧ ∀ g ∈ u.m_queuedRegions,
      s.m_minSize.width ≤ g.m_bounds.width ∧ s.m_minSize.height ≤ g.m_bounds.height) ∧
      (r = QRect.null ∨ (s.m_minSize.width ≤ r.width ∧ s.m_minSize.height ≤ r.height)))
    ?_ ?_ ?_ ?_ n s ⟨rfl, hs⟩
  · intro u hu
    exact ⟨hu, Or.inl rfl⟩
  · intro u t hu ht _
    rw [subdivideUsingObstacles_eq]
    exact ⟨hu.1, key u t _ hu ht⟩
  · intro u t hu ht _ _
    rw [subdivideUsingRaster_eq]
    exact ⟨hu.1, key u t _ hu ht⟩
  · intro u t hu ht _ _
    refine ⟨⟨?_, ?_⟩, Or.inr (hu.2 t (PriorityStorage.top_mem ht))⟩
    · rw [registerResult_minSize]; exact hu.1
    · rw [registerResult_queue]
      intro g hg
      exact hu.2 g (mem_popTop_queue hg)

/-- C6 (minimum-size respect): if the raster is at least `min_size` in both
dimensions then, for every sequence of `addObstacle` and `next` calls (any
mode, any budget), every non-null rectangle returned by `next` has width at
least `min_size.width` and height at least `min_size.height`. -/
theorem next_result_respects_min_size (img : BinaryImage) (min_size : QSize)
    (calls : List Call)
    (hw : min_size.width ≤ img.width) (hh : min_size.height ≤ img.height) (r : QRect)
    (hr : r ∈ (runCalls (MaxWhitespaceFinder.new img min_size) calls).2)
    (hnull : r.isNull = false) :
    min_size.width ≤ r.width ∧ min_size.height ≤ r.height := by
  have h := runCalls_induction
    (fun u => u.m_minSize = min_size ∧ ∀ g ∈ u.m_queuedRegions,
      min_size.width ≤ g.m_bounds.width ∧ min_size.height ≤ g.m_bounds.height)
    (fun r => r = QRect.null ∨ (min_size.width ≤ r.width ∧ min_size.height ≤ r.height))
    (fun s o hs => by
      refine ⟨by rw [addObstacle_minSize]; exact hs.1, ?_⟩
      intro g hg
      rcases mem_addObstacle_queue hg with hg | ⟨t, ht, rfl⟩
      · exact hs.2 g hg
      · exact hs.2 t (by rw [ht]; simp))
    (fun s mode n hs => by
      have h1 := next_min_size s mode n (by rw [hs.1]; exact hs.2)
      rw [hs.1] at h1
      exact h1)
    calls (MaxWhitespaceFinder.new img min_size)
    ⟨rfl, by
      intro g hg
      simp only [MaxWhitespaceFinder.new, PriorityStorage.push, List.nil_append,
        List.mem_singleton] at hg
      subst hg
      simp only [Region.new, BinaryImage.rect, QRect.ofXYWH, QRect.width, QRect.height]
      omega⟩
  rcases h.2 r hr with h0 | h0
  · rw [h0] at hnull
    simp [QRect.null, QRect.isNull] at hnull
  · exact h0

theorem next_result_respects_min_size_witness :
    ((4 : Int) ≤ (10 : Nat) ∧ (4 : Int) ≤ (10 : Nat)) ∧
    (⟨0, 0, 9, 3⟩ : QRect) ∈ (runCalls (MaxWhitespaceFinder.new blobImage ⟨4, 4⟩)
      [Call.next ObstacleMode.AUTO_OBSTACLES 100]).2 ∧
    (⟨0, 0, 9, 3⟩ : QRect).isNull = false ∧
    ((4 : Int) ≤ (⟨0, 0, 9, 3⟩ : QRect).width ∧ (4 : Int) ≤ (⟨0, 0, 9, 3⟩ : QRect).height) :=
  ⟨by decide, by decide, by decide,
    next_result_respects_min_size blobImage ⟨4, 4⟩ [Call.next ObstacleMode.AUTO_OBSTACLES 100]
      (by decide) (by decide) ⟨0, 0, 9, 3⟩ (by decide) (by decide)⟩

/-! ## Evaluations on concrete rasters -/

/-- C7 (undersized raster), evaluation at the failing input: on a 3 x 3
all-background raster with `min_size = (5, 5)` the first call of `next` returns
the whole raster, a non-null rectangle narrower and lower than the minimum. -/
theorem undersized_raster_first_result :
    ((MaxWhitespaceFinder.new (whiteImage 3 3) ⟨5, 5⟩).next ObstacleMode.AUTO_OBSTACLES 1).1
        = QRect.ofXYWH 0 0 3 3 ∧
      (QRect.ofXYWH 0 0 3 3).isNull = false ∧ (QRect.ofXYWH 0 0 3 3).width < 5 := by
  decide

/-! ## Resuming after a budget cutoff -/

theorem nextLoop_empty (mode : ObstacleMode) (n : Nat) (s : MaxWhitespaceFinder) (k : Nat)
    (h : s.m_queuedRegions = []) : nextLoop mode n s k = ⟨QRect.null, s, k⟩ := by
  cases n with
  | zero => simp [nextLoop]
  | succ m =>
    unfold nextLoop
    rw [h]
    simp [PriorityStorage.top]

theorem PriorityStorage.pop_singleton (g : Region) : PriorityStorage.pop [g] = [] := by
  simp [PriorityStorage.pop, PriorityStorage.top]

theorem NullOnlyAlone_not_null_of_mem_pop {s : MaxWhitespaceFinder} (hs : NullOnlyAlone s)
    {g : Region} (hg : g ∈ s.popTop.m_queuedRegions) : g.m_bounds.isNull = false := by
  by_contra hn
  have hn : g.m_bounds.isNull = true := by simpa using hn
  have h1 := (hs.2.2 g (mem_popTop_queue hg) hn).1
  have : s.popTop.m_queuedRegions = [] := by
    unfold popTop
    simp only
    rw [h1]
    exact PriorityStorage.pop_singleton g
  rw [this] at hg
  simp at hg

theorem NullOnlyAlone_subdivide {s : MaxWhitespaceFinder} (hs : NullOnlyAlone s)
    (region : Region) (bounds pivot : QRect) :
    NullOnlyAlone (s.popTop.subdivide region bounds pivot) := by
  rw [subdivide_eq]
  refine ⟨hs.1, hs.2.1, ?_⟩
  intro g hg hn
  exfalso
  have hw : 1 ≤ s.popTop.m_minSize.width := hs.1
  have hh : 1 ≤ s.popTop.m_minSize.height := hs.2.1
  rcases List.mem_append.mp hg with hg | hg
  · rw [NullOnlyAlone_not_null_of_mem_pop hs hg] at hn
    exact Bool.false_ne_true hn
  · rcases mem_subdivideChildren hg with ⟨c, rfl⟩ | ⟨c, rfl⟩ | ⟨c, rfl⟩ | ⟨c, rfl⟩ <;>
      simp only [newRegion_bounds, QRect.isNull, QRect.setBottom, QRect.setTop, QRect.setLeft,
        QRect.setRight, Bool.and_eq_true, beq_iff_eq] at hn <;>
      omega

theorem NullOnlyAlone_register {s : MaxWhitespaceFinder} (hs : NullOnlyAlone s)
    (mode : ObstacleMode) (b : QRect) : NullOnlyAlone (s.popTop.registerResult mode b) := by
  refine ⟨?_, ?_, ?_⟩
  · rw [registerResult_minSize]; exact hs.1
  · rw [registerResult_minSize]; exact hs.2.1
  · rw [registerResult_queue]
    intro g hg hn
    rw [NullOnlyAlone_not_null_of_mem_pop hs hg] at hn
    exact absurd hn Bool.false_ne_true

theorem NullOnlyAlone_next {s : MaxWhitespaceFinder} (hs : NullOnlyAlone s)
    (mode : ObstacleMode) (n : Int) : NullOnlyAlone (s.next mode n).2 := by
  refine next_induction mode NullOnlyAlone (fun _ u => NullOnlyAlone u) ?_ ?_ ?_ ?_ n s hs
  · intro u hu; exact hu
  · intro u t hu _ _
    exact NullOnlyAlone_subdivide hu _ _ _
  · intro u t hu _ _ _
    exact NullOnlyAlone_subdivide hu _ _ _
  · intro u t hu _ _ _
    exact NullOnlyAlone_register hu mode _

theorem addObstacle_queue_single {s : MaxWhitespaceFinder} {t : Region} (o : QRect)
    (h : s.m_queuedRegions = [t]) : (s.addObstacle o).m_queuedRegions = [t.addObstacle o] := by
  unfold MaxWhitespaceFinder.addObstacle
  rw [h]

theorem addObstacle_queue_other {s : MaxWhitespaceFinder} (o : QRect)
    (h : ∀ t, s.m_queuedRegions ≠ [t]) : (s.addObstacle o).m_queuedRegions = s.m_queuedRegions := by
  unfold MaxWhitespaceFinder.addObstacle
  split
  · rename_i t ht
    exact absurd ht (h t)
  · rfl

theorem NullOnlyAlone_addObstacle {s : MaxWhitespaceFinder} (hs : NullOnlyAlone s)
    (o : QRect) : NullOnlyAlone (s.addObstacle o) := by
  refine ⟨by rw [addObstacle_minSize]; exact hs.1, by rw [addObstacle_minSize]; exact hs.2.1, ?_⟩
  intro g hg hn
  by_cases h : ∃ t, s.m_queuedRegions = [t]
  · obtain ⟨t, ht⟩ := h
    rw [addObstacle_queue_single o ht] at hg ⊢
    have hg : g = t.addObstacle o := List.mem_singleton.mp hg
    subst hg
    have := hs.2.2 t (by rw [ht]; simp) hn
    exact ⟨rfl, this.2⟩
  · have h : ∀ t, s.m_queuedRegions ≠ [t] := fun t ht => h ⟨t, ht⟩
    rw [addObstacle_queue_other o h] at hg ⊢
    exact hs.2.2 g hg hn

theorem NullOnlyAlone_new (img : BinaryImage) (min_size : QSize)
    (hw : 1 ≤ min_size.width) (hh : 1 ≤ min_size.height) :
    NullOnlyAlone (MaxWhitespaceFinder.new img min_size) := by
  refine ⟨hw, hh, ?_⟩
  intro g hg hn
  simp only [MaxWhitespaceFinder.new, PriorityStorage.push, List.nil_append,
    List.mem_singleton] at hg
  subst hg
  refine ⟨rfl, ?_⟩
  simp only [Region.new, BinaryImage.rect, QRect.ofXYWH, QRect.isNull, Bool.and_eq_true,
    beq_iff_eq] at hn ⊢
  simp only [QRect.null, QRect.mk.injEq, true_and]
  omega

theorem NullOnlyAlone_runCalls (calls : List Call) {s : MaxWhitespaceFinder}
    (hs : NullOnlyAlone s) : NullOnlyAlone (runCalls s calls).1 :=
  (runCalls_induction NullOnlyAlone (fun _ => True)
    (fun _ o h => NullOnlyAlone_addObstacle h o)
    (fun _ mode n h => ⟨NullOnlyAlone_next h mode n, trivial⟩) calls s hs).1

theorem nextLoop_succ_none {mode : ObstacleMode} {n : Nat} {s : MaxWhitespaceFinder} {k : Nat}
    (h : PriorityStorage.top s.m_queuedRegions = none) :
    nextLoop mode (n + 1) s k = ⟨QRect.null, s, k⟩ := by
  rw [nextLoop, h]

theorem nextLoop_succ_obstacles {mode : ObstacleMode} {n : Nat} {s : MaxWhitespaceFinder}
    {k : Nat} {t : Region} (h : PriorityStorage.top s.m_queuedRegions = some t)
    (c1 : (t.addNewObstacles s.m_newObstacles).m_obstacles ≠ []) :
    nextLoop mode (n + 1) s k = nextLoop mode n
      (s.popTop.subdivideUsingObstacles (t.addNewObstacles s.m_newObstacles)) (k + 1) := by
  rw [nextLoop, h]
  simp only
  have c1 : (t.addNewObstacles s.popTop.m_newObstacles).m_obstacles ≠ [] := c1
  rw [if_pos c1]
  rfl

theorem nextLoop_succ_raster {mode : ObstacleMode} {n : Nat} {s : MaxWhitespaceFinder}
    {k : Nat} {t : Region} (h : PriorityStorage.top s.m_queuedRegions = some t)
    (c1 : (t.addNewObstacles s.m_newObstacles).m_obstacles = [])
    (c2 : s.m_integralImg.sum t.m_bounds ≠ 0) :
    nextLoop mode (n + 1) s k = nextLoop mode n
      (s.popTop.subdivideUsingRaster (t.addNewObstacles s.m_newObstacles)) (k + 1) := by
  rw [nextLoop, h]
  simp only
  have c1 : ¬ (t.addNewObstacles s.popTop.m_newObstacles).m_obstacles ≠ [] := not_not.mpr c1
  have c2 : s.popTop.m_integralImg.sum (t.addNewObstacles s.popTop.m_newObstacles).m_bounds ≠ 0 :=
    c2
  rw [if_neg c1, if_pos c2]
  rfl

theorem nextLoop_succ_result {mode : ObstacleMode} {n : Nat} {s : MaxWhitespaceFinder}
    {k : Nat} {t : Region} (h : PriorityStorage.top s.m_queuedRegions = some t)
    (c1 : (t.addNewObstacles s.m_newObstacles).m_obstacles = [])
    (c2 : s.m_integralImg.sum t.m_bounds = 0) :
    nextLoop mode (n + 1) s k =
      ⟨t.m_bounds, s.popTop.registerResult mode t.m_bounds, k + 1⟩ := by
  rw [nextLoop, h]
  simp only
  have c1 : ¬ (t.addNewObstacles s.popTop.m_newObstacles).m_obstacles ≠ [] := not_not.mpr c1
  have c2 : ¬ s.popTop.m_integralImg.sum
      (t.addNewObstacles s.popTop.m_newObstacles).m_bounds ≠ 0 := not_not.mpr c2
  rw [if_neg c1, if_neg c2]
  rfl

theorem nextLoop_resume (mode : ObstacleMode) (a b : Nat) (s : MaxWhitespaceFinder)
    (k k2 k3 : Nat) (hs : NullOnlyAlone s)
    (hnull : (nextLoop mode a s k).rect.isNull = true) :
    (nextLoop mode b (nextLoop mode a s k).state k2).rect = (nextLoop mode (a + b) s k3).rect ∧
    (nextLoop mode b (nextLoop mode a s k).state k2).state =
      (nextLoop mode (a + b) s k3).state := by
  induction a generalizing s k k3 with
  | zero =>
    simp only [nextLoop, Nat.zero_add]
    exact nextLoop_rect_state mode b s k2 k3
  | succ a ih =>
    have e : a + 1 + b = (a + b) + 1 := by omega
    rw [e]
    cases ht : PriorityStorage.top s.m_queuedRegions with
    | none =>
      rw [nextLoop_succ_none ht, nextLoop_succ_none ht]
      have hq := (PriorityStorage.top_eq_none_iff _).mp ht
      rw [nextLoop_empty mode b s k2 hq]
      exact ⟨rfl, rfl⟩
    | some t =>
      by_cases c1 : (t.addNewObstacles s.m_newObstacles).m_obstacles = []
      · by_cases c2 : s.m_integralImg.sum t.m_bounds = 0
        · rw [nextLoop_succ_result ht c1 c2] at hnull ⊢
          rw [nextLoop_succ_result ht c1 c2]
          have hn : t.m_bounds.isNull = true := hnull
          have h1 := hs.2.2 t (PriorityStorage.top_mem ht) hn
          have hq : (s.popTop.registerResult mode t.m_bounds).m_queuedRegions = [] := by
            rw [registerResult_queue]
            unfold popTop
            simp only
            rw [h1.1]
            exact PriorityStorage.pop_singleton t
          simp only
          rw [nextLoop_empty mode b _ k2 hq]
          exact ⟨h1.2.symm, rfl⟩
        · rw [nextLoop_succ_raster ht c1 c2] at hnull ⊢
          rw [nextLoop_succ_raster ht c1 c2]
          exact ih _ _ _ (NullOnlyAlone_subdivide hs _ _ _) hnull
      · rw [nextLoop_succ_obstacles ht c1] at hnull ⊢
        rw [nextLoop_succ_obstacles ht c1]
        exact ih _ _ _ (NullOnlyAlone_subdivide hs _ _ _) hnull

/-! ## Geometry and rectangle sums -/

theorem shiftRight_one (a : Int) : a >>> (1 : Nat) = a / 2 := by
  have := Int.shiftRight_eq_div_pow a 1
  simpa using this

theorem tdiv_two_bounds (a b : Int) (h : a ≤ b) :
    a ≤ Int.tdiv (a + b) 2 ∧ Int.tdiv (a + b) 2 ≤ b := by
  by_cases hs : 0 ≤ a + b
  · rw [Int.tdiv_eq_ediv hs (by decide)]
    omega
  · have e := Int.neg_tdiv (-(a + b)) 2
    rw [neg_neg] at e
    rw [e, Int.tdiv_eq_ediv (by omega) (by decide)]
    omega

theorem center_covers (r : QRect) (h : r.Valid) : r.Covers r.center.x r.center.y := by
  have hx := tdiv_two_bounds r.x1 r.x2 h.1
  have hy := tdiv_two_bounds r.y1 r.y2 h.2
  exact ⟨hx.1, hx.2, hy.1, hy.2⟩

theorem middleRect_x1 (o i : QRect) : (middleRect o i).x1 = o.x1 + (i.x1 - o.x1 + 1) / 2 := by
  simp [middleRect, QRect.ofXYWH, QRect.setRight, QRect.setBottom, QRect.left, shiftRight_one]

theorem middleRect_y1 (o i : QRect) : (middleRect o i).y1 = o.y1 + (i.y1 - o.y1 + 1) / 2 := by
  simp [middleRect, QRect.ofXYWH, QRect.setRight, QRect.setBottom, QRect.top, shiftRight_one]

theorem middleRect_x2 (o i : QRect) : (middleRect o i).x2 = o.x2 - (o.x2 - i.x2) / 2 := by
  simp [middleRect, QRect.ofXYWH, QRect.setRight, QRect.setBottom, QRect.right, shiftRight_one]

theorem middleRect_y2 (o i : QRect) : (middleRect o i).y2 = o.y2 - (o.y2 - i.y2) / 2 := by
  simp [middleRect, QRect.ofXYWH, QRect.setRight, QRect.setBottom, QRect.bottom, shiftRight_one]

theorem IntegralImage.sum_ne_zero_iff (ii : IntegralImage) (r : QRect) :
    ii.sum r ≠ 0 ↔ ∃ x y, r.Covers x y ∧ ii.img.pixel x y ≠ 0 := by
  rw [Ne, IntegralImage.sum_eq_zero_iff]
  push_neg
  rfl

theorem BinaryImage.pixel_le_one (img : BinaryImage) (x y : Int) : img.pixel x y ≤ 1 := by
  unfold BinaryImage.pixel
  split_ifs
  · exact Nat.and_le_right
  · exact Nat.zero_le _

theorem sum_range_le (f : Nat → Nat) (c n : Nat) (h : ∀ i, i < n → f i ≤ c) :
    ((List.range n).map f).sum ≤ n * c := by
  induction n with
  | zero => simp
  | succ n ih =>
    rw [List.range_succ, List.map_append, List.sum_append]
    have h1 := ih (fun i hi => h i (by omega))
    have h2 := h n (by omega)
    simp only [List.map_cons, List.map_nil, List.sum_cons, List.sum_nil, Nat.add_zero]
    rw [Nat.succ_mul]
    omega

theorem sum_range_eq_max (f : Nat → Nat) (c n : Nat) (h : ∀ i, i < n → f i ≤ c)
    (he : ((List.range n).map f).sum = n * c) : ∀ i, i < n → f i = c := by
  induction n with
  | zero => intro i hi; omega
  | succ n ih =>
    rw [List.range_succ, List.map_append, List.sum_append] at he
    simp only [List.map_cons, List.map_nil, List.sum_cons, List.sum_nil, Nat.add_zero] at he
    rw [Nat.succ_mul] at he
    have h1 := sum_range_le f c n (fun i hi => h i (by omega))
    have h2 := h n (by omega)
    have e1 : ((List.range n).map f).sum = n * c := by omega
    have e2 : f n = c := by omega
    intro i hi
    by_cases hin : i = n
    · rw [hin]; exact e2
    · exact ih (fun i hi => h i (by omega)) e1 i (by omega)

theorem IntegralImage.allBlack_of_sum_eq_area (ii : IntegralImage) (r : QRect) (hv : r.Valid)
    (h : (ii.sum r : Int) = r.width * r.height) : ii.AllBlack r := by
  have hw : (0 : Int) ≤ r.width := by unfold QRect.width; have := hv.1; omega
  have hh : (0 : Int) ≤ r.height := by unfold QRect.height; have := hv.2; omega
  have hrow : ∀ j : Nat, ((List.range r.width.toNat).map fun (i : Nat) =>
      ii.img.pixel (r.x1 + (i : Int)) (r.y1 + (j : Int))).sum ≤ r.width.toNat * 1 :=
    fun j => sum_range_le _ 1 _ (fun i _ => BinaryImage.pixel_le_one _ _ _)
  have hsum : ii.sum r = r.height.toNat * (r.width.toNat * 1) := by
    have e : ((r.height.toNat * (r.width.toNat * 1) : Nat) : Int) = r.width * r.height := by
      push_cast
      rw [Int.toNat_of_nonneg hw, Int.toNat_of_nonneg hh]
      ring
    rw [← e] at h
    exact_mod_cast h
  have hrows := sum_range_eq_max _ _ _ (fun j _ => hrow j) hsum
  intro x y hc
  obtain ⟨hx1, hx2, hy1, hy2⟩ := hc
  have hj := hrows (y - r.y1).toNat (by unfold QRect.height; omega)
  have hi := sum_range_eq_max _ 1 _ (fun i _ => BinaryImage.pixel_le_one _ _ _) hj
    (x - r.x1).toNat (by unfold QRect.width; omega)
  have e1 : r.x1 + ((x - r.x1).toNat : Int) = x := by omega
  have e2 : r.y1 + ((y - r.y1).toNat : Int) = y := by omega
  rw [e1, e2] at hi
  omega

/-! ## The bisection loops -/

theorem findLoop_spec (ii : IntegralImage) (budget : Nat) (outer inner : QRect)
    (hin : inner.Inside outer) (hv : inner.Valid)
    (ho : ii.sum outer ≠ 0) (hi : ii.sum inner = 0)
    (hb : bisectBudget outer inner ≤ budget) :
    (findLoop ii budget outer inner).2.Inside (findLoop ii budget outer inner).1 ∧
    (findLoop ii budget outer inner).2.Valid ∧
    ii.sum (findLoop ii budget outer inner).1 ≠ 0 ∧
    ii.sum (findLoop ii budget outer inner).2 = 0 ∧
    (findLoop ii budget outer inner).1.Inside outer ∧
    (findLoop ii budget outer inner).1.width - (findLoop ii budget outer inner).2.width ≤ 1 ∧
    (findLoop ii budget outer inner).1.height - (findLoop ii budget outer inner).2.height ≤ 1 := by
  induction budget generalizing outer inner with
  | zero =>
    simp only [findLoop]
    refine ⟨hin, hv, ho, hi, ⟨le_refl _, le_refl _, le_refl _, le_refl _⟩, ?_, ?_⟩ <;>
      (unfold bisectBudget at hb; omega)
  | succ n ih =>
    unfold findLoop
    simp only
    split_ifs with c1 c2
    · exact ⟨hin, hv, ho, hi, ⟨le_refl _, le_refl _, le_refl _, le_refl _⟩, c1.1, c1.2⟩
    · obtain ⟨a1, a2, a3, a4⟩ := hin
      obtain ⟨v1, v2⟩ := hv
      have m1 := middleRect_x1 outer inner
      have m2 := middleRect_x2 outer inner
      have m3 := middleRect_y1 outer inner
      have m4 := middleRect_y2 outer inner
      have := ih outer (middleRect outer inner)
        (by unfold QRect.Inside; omega) (by unfold QRect.Valid; omega) ho c2
        (by unfold bisectBudget QRect.width QRect.height at *; omega)
      exact this
    · obtain ⟨a1, a2, a3, a4⟩ := hin
      obtain ⟨v1, v2⟩ := hv
      have m1 := middleRect_x1 outer inner
      have m2 := middleRect_x2 outer inner
      have m3 := middleRect_y1 outer inner
      have m4 := middleRect_y2 outer inner
      have := ih (middleRect outer inner) inner
        (by unfold QRect.Inside; omega) (by unfold QRect.Valid; omega) c2 hi
        (by unfold bisectBudget QRect.width QRect.height at *; omega)
      obtain ⟨b1, b2, b3, b4, b5, b6, b7⟩ := this
      refine ⟨b1, b2, b3, b4, ?_, b6, b7⟩
      unfold QRect.Inside at b5 ⊢
      omega

/-! ## Foreground-pixel localisation -/

theorem good_point {ii : IntegralImage} {r : QRect} {px py : Int}
    (hp : r.Covers px py) (hb : ii.img.pixel px py ≠ 0) (qx qy : Int)
    (e : qx = px ∧ qy = py) : r.Covers qx qy ∧ ii.img.pixel qx qy ≠ 0 := by
  rw [e.1, e.2]; exact ⟨hp, hb⟩

theorem findBlackPixelCloseToCenterRec_spec (ii : IntegralImage) (d : Nat) :
    ∀ (r : QRect), r.Valid → ii.sum r ≠ 0 →
      (2 ≤ d ∨ (1 ≤ d ∧ (r.x1 = r.x2 ∨ r.y1 = r.y2))) →
      r.Covers (findBlackPixelCloseToCenterRec ii d r).x (findBlackPixelCloseToCenterRec ii d r).y ∧
      ii.img.pixel (findBlackPixelCloseToCenterRec ii d r).x
        (findBlackPixelCloseToCenterRec ii d r).y ≠ 0 := by
  induction d with
  | zero => intro r _ _ hd; omega
  | succ d ih =>
    intro r hv hs hd
    unfold findBlackPixelCloseToCenterRec
    simp only
    have hc := center_covers r hv
    by_cases c0 : ii.sum (QRect.ofXYWH r.center.x r.center.y 1 1) ≠ 0
    · rw [if_pos c0]
      refine ⟨hc, ?_⟩
      obtain ⟨x, y, hxy, hp⟩ := (IntegralImage.sum_ne_zero_iff _ _).mp c0
      have e : x = r.center.x ∧ y = r.center.y := by
        simp only [QRect.Covers, QRect.ofXYWH] at hxy
        omega
      rw [← e.1, ← e.2]; exact hp
    · rw [if_neg c0]
      have c0 : ii.sum (QRect.ofXYWH r.center.x r.center.y 1 1) = 0 := not_not.mp c0
      have L := findLoop_spec ii (bisectBudget r (QRect.ofXYWH r.center.x r.center.y 1 1)) r
        (QRect.ofXYWH r.center.x r.center.y 1 1)
        (by simp only [QRect.Inside, QRect.ofXYWH, QRect.Covers] at hc ⊢; omega)
        (by simp only [QRect.Valid, QRect.ofXYWH]; omega) hs c0 (le_refl _)
      generalize findLoop ii (bisectBudget r (QRect.ofXYWH r.center.x r.center.y 1 1)) r
        (QRect.ofXYWH r.center.x r.center.y 1 1) = lp at L ⊢
      obtain ⟨outer, inner⟩ := lp
      simp only at L ⊢
      obtain ⟨l1, l2, l3, l4, l5, l6, l7⟩ := L
      obtain ⟨px, py, hp, hblack⟩ := (IntegralImage.sum_ne_zero_iff _ _).mp l3
      have hnotin : ¬ inner.Covers px py :=
        fun h => hblack ((IntegralImage.sum_eq_zero_iff _ _).mp l4 px py h)
      have hL : ii.sum (outer.setRight outer.x1) ≠ 0 ∨
          ¬ (outer.x1 ≤ px ∧ px ≤ outer.x1 ∧ outer.y1 ≤ py ∧ py ≤ outer.y2) := by
        by_cases c : ii.sum (outer.setRight outer.x1) = 0
        · exact Or.inr fun h => hblack ((IntegralImage.sum_eq_zero_iff _ _).mp c px py h)
        · exact Or.inl c
      have hR : ii.sum (outer.setLeft outer.x2) ≠ 0 ∨
          ¬ (outer.x2 ≤ px ∧ px ≤ outer.x2 ∧ outer.y1 ≤ py ∧ py ≤ outer.y2) := by
        by_cases c : ii.sum (outer.setLeft outer.x2) = 0
        · exact Or.inr fun h => hblack ((IntegralImage.sum_eq_zero_iff _ _).mp c px py h)
        · exact Or.inl c
      have hT : ii.sum (outer.setBottom outer.y1) ≠ 0 ∨
          ¬ (outer.x1 ≤ px ∧ px ≤ outer.x2 ∧ outer.y1 ≤ py ∧ py ≤ outer.y1) := by
        by_cases c : ii.sum (outer.setBottom outer.y1) = 0
        · exact Or.inr fun h => hblack ((IntegralImage.sum_eq_zero_iff _ _).mp c px py h)
        · exact Or.inl c
      have hB : (outer.x1 ≤ px ∧ px ≤ outer.x2 ∧ outer.y2 ≤ py ∧ py ≤ outer.y2) →
          ii.sum (outer.setTop outer.y2) ≠ 0 :=
        fun h => (IntegralImage.sum_ne_zero_iff _ _).mpr ⟨px, py, h, hblack⟩
      have hpr : r.Covers px py := by
        simp only [QRect.Covers, QRect.Inside] at hp l5 ⊢
        omega
      simp only [QRect.Inside, QRect.Valid, QRect.Covers, QRect.width,
        QRect.height] at l1 l2 l5 l6 l7 hp hnotin hv
      simp only [QRect.left, QRect.right, QRect.top, QRect.bottom, QRect.width, QRect.height,
        QRect.topLeft, QRect.topRight, QRect.bottomLeft]
      have pos : (px = outer.x1 ∧ outer.x1 ≠ inner.x1) ∨ (px = outer.x2 ∧ outer.x2 ≠ inner.x2) ∨
          (py = outer.y1 ∧ outer.y1 ≠ inner.y1) ∨ (py = outer.y2 ∧ outer.y2 ≠ inner.y2) := by
        clear hL hR hT hB hd ih hv l5
        omega
      have thinx : r.x1 = r.x2 →
          outer.x1 = inner.x1 ∧ outer.x2 = inner.x2 ∧ outer.x1 = outer.x2 := by
        clear hL hR hT hB hd ih pos hnotin hp
        omega
      have thiny : r.y1 = r.y2 →
          outer.y1 = inner.y1 ∧ outer.y2 = inner.y2 ∧ outer.y1 = outer.y2 := by
        clear hL hR hT hB hd ih pos hnotin hp
        omega
      by_cases h1 : outer.x1 ≠ inner.x1 ∧ outer.y2 - outer.y1 + 1 = 1
      · rw [if_pos h1]
        by_cases h2 : ii.sum (outer.setRight outer.x1) ≠ 0
        · rw [if_pos h2]
          refine good_point hpr hblack outer.x1 outer.y1 ?_
          clear hL hR hT hB hd ih pos thinx thiny l5 hv
          omega
        · rw [if_neg h2]
          refine good_point hpr hblack outer.x2 outer.y1 ?_
          clear hR hT hB hd ih pos thinx thiny l5 hv
          omega
      rw [if_neg h1]
      by_cases h3 : outer.x1 ≠ inner.x1 ∧ ii.sum (outer.setRight outer.x1) ≠ 0
      · rw [if_pos h3]
        have hd1 : 1 ≤ d := by
          clear hL hR hT hB ih pos hnotin hp l5 hv
          omega
        have := ih (outer.setRight outer.x1)
          (by simp only [QRect.Valid, QRect.setRight]; omega) h3.2
          (Or.inr ⟨hd1, Or.inl rfl⟩)
        simp only [QRect.Covers, QRect.setRight] at this ⊢
        refine ⟨?_, this.2⟩
        clear hL hR hT hB hd ih pos hnotin thinx thiny h1 h3
        omega
      rw [if_neg h3]
      by_cases h4 : outer.x2 ≠ inner.x2 ∧ outer.y2 - outer.y1 + 1 = 1
      · rw [if_pos h4]
        by_cases h5 : ii.sum (outer.setLeft outer.x2) ≠ 0
        · rw [if_pos h5]
          refine good_point hpr hblack outer.x2 outer.y1 ?_
          clear hL hR hT hB hd ih pos thinx thiny l5 hv h1 h3
          omega
        · rw [if_neg h5]
          refine good_point hpr hblack outer.x1 outer.y1 ?_
          clear hL hT hB hd ih pos thinx thiny l5 hv h1 h3
          omega
      rw [if_neg h4]
      by_cases h6 : outer.x2 ≠ inner.x2 ∧ ii.sum (outer.setLeft outer.x2) ≠ 0
      · rw [if_pos h6]
        have hd1 : 1 ≤ d := by
          clear hL hR hT hB ih pos hnotin hp l5 hv h1 h3
          omega
        have := ih (outer.setLeft outer.x2)
          (by simp only [QRect.Valid, QRect.setLeft]; omega) h6.2
          (Or.inr ⟨hd1, Or.inl rfl⟩)
        simp only [QRect.Covers, QRect.setLeft] at this ⊢
        refine ⟨?_, this.2⟩
        clear hL hR hT hB hd ih pos hnotin thinx thiny h1 h3 h4 h6
        omega
      rw [if_neg h6]
      by_cases h7 : outer.y1 ≠ inner.y1 ∧ outer.x2 - outer.x1 + 1 = 1
      · rw [if_pos h7]
        by_cases h8 : ii.sum (outer.setBottom outer.y1) ≠ 0
        · rw [if_pos h8]
          refine good_point hpr hblack outer.x1 outer.y1 ?_
          clear hL hR hT hB hd ih pos thinx thiny l5 hv h1 h3 h4 h6
          omega
        · rw [if_neg h8]
          refine good_point hpr hblack outer.x1 outer.y2 ?_
          clear hL hR hB hd ih pos thinx thiny l5 hv h1 h3 h4 h6
          omega
      rw [if_neg h7]
      by_cases h9 : outer.y1 ≠ inner.y1 ∧ ii.sum (outer.setBottom outer.y1) ≠ 0
      · rw [if_pos h9]
        have hd1 : 1 ≤ d := by
          clear hL hR hT hB ih pos hnotin hp l5 hv h1 h3 h4 h6
          omega
        have := ih (outer.setBottom outer.y1)
          (by simp only [QRect.Valid, QRect.setBottom]; omega) h9.2
          (Or.inr ⟨hd1, Or.inr rfl⟩)
        simp only [QRect.Covers, QRect.setBottom] at this ⊢
        refine ⟨?_, this.2⟩
        clear hL hR hT hB hd ih pos hnotin thinx thiny h1 h3 h4 h6 h7 h9
        omega
      rw [if_neg h9]
      by_cases h10 : outer.x2 - outer.x1 + 1 = 1
      · rw [if_pos h10]
        refine good_point hpr hblack outer.x1 outer.y2 ?_
        clear hL hR hT hB hd ih pos thinx thiny l5 hv h1 h3 h4 h6 h9
        omega
      rw [if_neg h10]
      have hbot : py = outer.y2 := by
        rcases pos with ⟨e, n⟩ | ⟨e, n⟩ | ⟨e, n⟩ | ⟨e, n⟩
        · exfalso
          clear hR hT hB hd ih thinx thiny l5 hv h1 h4 h6 h7 h9 h10 hnotin l1 l2 l6 l7
          omega
        · exfalso
          clear hL hT hB hd ih thinx thiny l5 hv h1 h3 h4 h7 h9 h10 hnotin l1 l2 l6 l7
          omega
        · exfalso
          clear hL hR hB hd ih thinx thiny l5 hv h1 h3 h4 h6 h7 h10 hnotin l1 l2 l6 l7
          omega
        · exact e
      have hd1 : 1 ≤ d := by
        rcases hd with hd | ⟨_, hd | hd⟩
        · omega
        · exfalso
          clear hL hR hT hB ih pos hnotin hp l5 hv h1 h3 h4 h6 h7 h9
          omega
        · exfalso
          have t := thiny hd
          rcases pos with ⟨e, n⟩ | ⟨e, n⟩ | ⟨e, n⟩ | ⟨e, n⟩
          · clear hR hT hB ih thinx thiny l5 hv h4 h6 h7 h9 h10 hnotin
            omega
          · clear hL hT hB ih thinx thiny l5 hv h1 h3 h7 h9 h10 hnotin
            omega
          · omega
          · omega
      have hsum : ii.sum (outer.setTop outer.y2) ≠ 0 := hB (by omega)
      have := ih (outer.setTop outer.y2)
        (by simp only [QRect.Valid, QRect.setTop]; omega) hsum
        (Or.inr ⟨hd1, Or.inr rfl⟩)
      simp only [QRect.Covers, QRect.setTop] at this ⊢
      refine ⟨?_, this.2⟩
      clear hL hR hT hB hd ih pos hnotin thinx thiny h1 h3 h4 h6 h7 h9 h10 hbot
      omega

theorem findBlackPixelCloseToCenter_spec (ii : IntegralImage) (r : QRect) (hv : r.Valid)
    (hs : ii.sum r ≠ 0) :
    r.Covers (findBlackPixelCloseToCenter ii r).x (findBlackPixelCloseToCenter ii r).y ∧
    ii.img.pixel (findBlackPixelCloseToCenter ii r).x (findBlackPixelCloseToCenter ii r).y ≠ 0 :=
  findBlackPixelCloseToCenterRec_spec ii 2 r hv hs (Or.inl (le_refl 2))

/-! ## Foreground-box extension -/

theorem extendLoop_spec (ii : IntegralImage) (budget : Nat) (outer inner : QRect)
    (hin : inner.Inside outer) (hv : inner.Valid) (hb : ii.AllBlack inner)
    (hbud : bisectBudget outer inner ≤ budget) :
    (extendLoop ii budget outer inner).2.Valid ∧
    ii.AllBlack (extendLoop ii budget outer inner).2 ∧
    inner.Inside (extendLoop ii budget outer inner).2 ∧
    (extendLoop ii budget outer inner).2.Inside (extendLoop ii budget outer inner).1 ∧
    (extendLoop ii budget outer inner).1.Inside outer ∧
    (extendLoop ii budget outer inner).1.width - (extendLoop ii budget outer inner).2.width ≤ 1 ∧
    (extendLoop ii budget outer inner).1.height - (extendLoop ii budget outer inner).2.height ≤ 1 := by
  induction budget generalizing outer inner with
  | zero =>
    simp only [extendLoop]
    refine ⟨hv, hb, ⟨le_refl _, le_refl _, le_refl _, le_refl _⟩, hin,
      ⟨le_refl _, le_refl _, le_refl _, le_refl _⟩, ?_, ?_⟩ <;>
      (unfold bisectBudget at hbud; omega)
  | succ n ih =>
    unfold extendLoop
    simp only
    split_ifs with c1 c2
    · exact ⟨hv, hb, ⟨le_refl _, le_refl _, le_refl _, le_refl _⟩, hin,
        ⟨le_refl _, le_refl _, le_refl _, le_refl _⟩, c1.1, c1.2⟩
    · obtain ⟨a1, a2, a3, a4⟩ := hin
      obtain ⟨v1, v2⟩ := hv
      have m1 := middleRect_x1 outer inner
      have m2 := middleRect_x2 outer inner
      have m3 := middleRect_y1 outer inner
      have m4 := middleRect_y2 outer inner
      have hmv : (middleRect outer inner).Valid := by unfold QRect.Valid; omega
      have := ih outer (middleRect outer inner)
        (by unfold QRect.Inside; omega) hmv
        (IntegralImage.allBlack_of_sum_eq_area ii _ hmv c2)
        (by unfold bisectBudget QRect.width QRect.height at *; omega)
      obtain ⟨b1, b2, b3, b4, b5, b6, b7⟩ := this
      refine ⟨b1, b2, ?_, b4, b5, b6, b7⟩
      unfold QRect.Inside at b3 ⊢
      omega
    · obtain ⟨a1, a2, a3, a4⟩ := hin
      obtain ⟨v1, v2⟩ := hv
      have m1 := middleRect_x1 outer inner
      have m2 := middleRect_x2 outer inner
      have m3 := middleRect_y1 outer inner
      have m4 := middleRect_y2 outer inner
      have := ih (middleRect outer inner) inner
        (by unfold QRect.Inside; omega) ⟨v1, v2⟩ hb
        (by unfold bisectBudget QRect.width QRect.height at *; omega)
      obtain ⟨b1, b2, b3, b4, b5, b6, b7⟩ := this
      refine ⟨b1, b2, b3, b4, ?_, b6, b7⟩
      unfold QRect.Inside at b5 ⊢
      omega

theorem extendBlackPixelToBlackBox_spec (ii : IntegralImage) (pixel : QPoint) (bounds : QRect)
    (hc : bounds.Covers pixel.x pixel.y) (hp : ii.img.pixel pixel.x pixel.y ≠ 0) :
    (extendBlackPixelToBlackBox ii pixel bounds).Valid ∧
    (extendBlackPixelToBlackBox ii pixel bounds).Inside bounds ∧
    (extendBlackPixelToBlackBox ii pixel bounds).Covers pixel.x pixel.y ∧
    ii.AllBlack (extendBlackPixelToBlackBox ii pixel bounds) := by
  have hbv : bounds.Valid := by
    simp only [QRect.Covers] at hc
    unfold QRect.Valid
    omega
  unfold extendBlackPixelToBlackBox
  simp only
  split_ifs with c
  · exact ⟨hbv, ⟨le_refl _, le_refl _, le_refl _, le_refl _⟩, hc,
      IntegralImage.allBlack_of_sum_eq_area ii _ hbv c⟩
  · have L := extendLoop_spec ii (bisectBudget bounds (QRect.ofXYWH pixel.x pixel.y 1 1)) bounds
      (QRect.ofXYWH pixel.x pixel.y 1 1)
      (by simp only [QRect.Inside, QRect.ofXYWH, QRect.Covers] at hc ⊢; omega)
      (by simp only [QRect.Valid, QRect.ofXYWH]; omega)
      (by
        intro x y hxy
        have e : x = pixel.x ∧ y = pixel.y := by
          simp only [QRect.Covers, QRect.ofXYWH] at hxy
          omega
        rw [e.1, e.2]; exact hp)
      (le_refl _)
    obtain ⟨b1, b2, b3, b4, b5, _, _⟩ := L
    refine ⟨b1, ?_, ?_, b2⟩
    · unfold QRect.Inside at b4 b5 ⊢
      omega
    · simp only [QRect.Inside, QRect.ofXYWH, QRect.Covers] at b3 ⊢
      omega

/-- The pivot that `subdivideUsingRaster` computes for a region with foreground
pixels is a non-empty rectangle of foreground pixels inside the bounds. -/
theorem raster_pivot_spec (ii : IntegralImage) (bounds : QRect) (hv : bounds.Valid)
    (hs : ii.sum bounds ≠ 0) :
    (extendBlackPixelToBlackBox ii (findBlackPixelCloseToCenter ii bounds) bounds).Valid ∧
    (extendBlackPixelToBlackBox ii (findBlackPixelCloseToCenter ii bounds) bounds).Inside bounds ∧
    ii.AllBlack (extendBlackPixelToBlackBox ii (findBlackPixelCloseToCenter ii bounds) bounds) := by
  have h1 := findBlackPixelCloseToCenter_spec ii bounds hv hs
  have h2 := extendBlackPixelToBlackBox_spec ii _ bounds h1.1 h1.2
  exact ⟨h2.1, h2.2.1, h2.2.2.2⟩

theorem valid_of_sum_ne_zero (ii : IntegralImage) (r : QRect) (hs : ii.sum r ≠ 0) : r.Valid := by
  obtain ⟨x, y, hc, _⟩ := (IntegralImage.sum_ne_zero_iff ii r).mp hs
  simp only [QRect.Covers] at hc
  unfold QRect.Valid
  omega

/-! ## Clipping and pivot selection -/

theorem intersected_valid {a b : QRect} (h : (a.intersected b).isEmpty = false) :
    (a.intersected b).Valid := by
  simp only [QRect.isEmpty, Bool.or_eq_false_iff, decide_eq_false_iff_not, not_lt] at h
  exact ⟨by omega, by omega⟩

theorem intersected_inside_left {a b : QRect} (h : (a.intersected b).isEmpty = false)
    (hx : a.x1 ≤ a.x2 + 1) (hy : a.y1 ≤ a.y2 + 1) : (a.intersected b).Inside a := by
  have e1 : (if a.x2 - a.x1 + 1 < 0 then a.x2 else a.x1) = a.x1 := if_neg (by omega)
  have e2 : (if a.x2 - a.x1 + 1 < 0 then a.x1 else a.x2) = a.x2 := if_neg (by omega)
  have e3 : (if a.y2 - a.y1 + 1 < 0 then a.y2 else a.y1) = a.y1 := if_neg (by omega)
  have e4 : (if a.y2 - a.y1 + 1 < 0 then a.y1 else a.y2) = a.y2 := if_neg (by omega)
  revert h
  unfold QRect.intersected
  simp only [e1, e2, e3, e4]
  generalize (if b.x2 - b.x1 + 1 < 0 then b.x2 else b.x1) = l2
  generalize (if b.x2 - b.x1 + 1 < 0 then b.x1 else b.x2) = r2
  generalize (if b.y2 - b.y1 + 1 < 0 then b.y2 else b.y1) = t2
  generalize (if b.y2 - b.y1 + 1 < 0 then b.y1 else b.y2) = b2
  intro h
  split_ifs at h ⊢ <;>
    simp only [QRect.isEmpty, QRect.null, QRect.Inside, Bool.or_eq_false_iff,
      decide_eq_false_iff_not, not_lt, gt_iff_lt] at h ⊢ <;> omega

theorem intersected_inside_right {a b : QRect} (h : (a.intersected b).isEmpty = false)
    (hx : b.x1 ≤ b.x2 + 1) (hy : b.y1 ≤ b.y2 + 1) : (a.intersected b).Inside b := by
  have e1 : (if b.x2 - b.x1 + 1 < 0 then b.x2 else b.x1) = b.x1 := if_neg (by omega)
  have e2 : (if b.x2 - b.x1 + 1 < 0 then b.x1 else b.x2) = b.x2 := if_neg (by omega)
  have e3 : (if b.y2 - b.y1 + 1 < 0 then b.y2 else b.y1) = b.y1 := if_neg (by omega)
  have e4 : (if b.y2 - b.y1 + 1 < 0 then b.y1 else b.y2) = b.y2 := if_neg (by omega)
  revert h
  unfold QRect.intersected
  simp only [e1, e2, e3, e4]
  generalize (if a.x2 - a.x1 + 1 < 0 then a.x2 else a.x1) = l1
  generalize (if a.x2 - a.x1 + 1 < 0 then a.x1 else a.x2) = r1
  generalize (if a.y2 - a.y1 + 1 < 0 then a.y2 else a.y1) = t1
  generalize (if a.y2 - a.y1 + 1 < 0 then a.y1 else a.y2) = b1
  intro h
  split_ifs at h ⊢ <;>
    simp only [QRect.isEmpty, QRect.null, QRect.Inside, Bool.or_eq_false_iff,
      decide_eq_false_iff_not, not_lt, gt_iff_lt] at h ⊢ <;> omega

theorem intersected_covers {a b : QRect} {x y : Int} (ha : a.Covers x y) (hb : b.Covers x y) :
    (a.intersected b).isEmpty = false ∧ (a.intersected b).Covers x y := by
  simp only [QRect.Covers] at ha hb
  have hna : a.isNull = false := by
    simp only [QRect.isNull, Bool.and_eq_false_iff, beq_eq_false_iff_ne, ne_eq]
    left; omega
  have hnb : b.isNull = false := by
    simp only [QRect.isNull, Bool.and_eq_false_iff, beq_eq_false_iff_ne, ne_eq]
    left; omega
  have e1 : (if a.x2 - a.x1 + 1 < 0 then a.x2 else a.x1) = a.x1 := if_neg (by omega)
  have e2 : (if a.x2 - a.x1 + 1 < 0 then a.x1 else a.x2) = a.x2 := if_neg (by omega)
  have e3 : (if a.y2 - a.y1 + 1 < 0 then a.y2 else a.y1) = a.y1 := if_neg (by omega)
  have e4 : (if a.y2 - a.y1 + 1 < 0 then a.y1 else a.y2) = a.y2 := if_neg (by omega)
  have f1 : (if b.x2 - b.x1 + 1 < 0 then b.x2 else b.x1) = b.x1 := if_neg (by omega)
  have f2 : (if b.x2 - b.x1 + 1 < 0 then b.x1 else b.x2) = b.x2 := if_neg (by omega)
  have f3 : (if b.y2 - b.y1 + 1 < 0 then b.y2 else b.y1) = b.y1 := if_neg (by omega)
  have f4 : (if b.y2 - b.y1 + 1 < 0 then b.y1 else b.y2) = b.y2 := if_neg (by omega)
  unfold QRect.intersected
  simp only [hna, hnb, Bool.or_self, Bool.false_eq_true, if_false, e1, e2, e3, e4, f1, f2, f3, f4]
  split_ifs <;>
    simp only [QRect.isEmpty, QRect.Covers, Bool.or_eq_false_iff, decide_eq_false_iff_not,
      not_lt, gt_iff_lt] <;> omega

theorem toInt32_le (z : Int) : toInt32 z ≤ INT_MAX := by
  unfold toInt32 INT_MAX
  omega

theorem pivot_fold_mem (center : QPoint) (l : List QRect) (best : QRect × Int) :
    (l.foldl (pivotStep center) best).1 ∈ l ∨ l.foldl (pivotStep center) best = best := by
  induction l generalizing best with
  | nil => right; rfl
  | cons o rest ih =>
    simp only [List.foldl_cons]
    rcases ih (pivotStep center best o) with h | h
    · left; exact List.mem_cons_of_mem _ h
    · rw [h]
      unfold pivotStep
      simp only
      split_ifs
      · left; simp
      · right; rfl

theorem findPivotObstacle_mem (region : Region) (h : region.m_obstacles ≠ []) :
    findPivotObstacle region ∈ region.m_obstacles := by
  unfold findPivotObstacle
  cases hl : region.m_obstacles with
  | nil => exact absurd hl h
  | cons o rest =>
    simp only [List.foldl_cons]
    have hstep : pivotStep region.m_bounds.center (QRect.null, INT_MAX) o =
        (o, toInt32 ((region.m_bounds.center.sub o.center).x * (region.m_bounds.center.sub o.center).x
          + (region.m_bounds.center.sub o.center).y * (region.m_bounds.center.sub o.center).y)) := by
      unfold pivotStep
      simp only
      rw [if_pos (toInt32_le _)]
    rw [hstep]
    rcases pivot_fold_mem region.m_bounds.center rest (o, toInt32
        ((region.m_bounds.center.sub o.center).x * (region.m_bounds.center.sub o.center).x
          + (region.m_bounds.center.sub o.center).y * (region.m_bounds.center.sub o.center).y))
      with h1 | h1
    · exact List.mem_cons_of_mem _ h1
    · rw [h1]; simp

/-! ## The invariant of the automatic mode -/

theorem QRect.Inside.covers {a b : QRect} (h : a.Inside b) {x y : Int} (hc : a.Covers x y) :
    b.Covers x y := by
  simp only [QRect.Inside, QRect.Covers] at h hc ⊢
  omega

theorem QRect.Inside.trans {a b c : QRect} (h1 : a.Inside b) (h2 : b.Inside c) : a.Inside c := by
  simp only [QRect.Inside] at h1 h2 ⊢
  omega

theorem QRect.Inside.refl (a : QRect) : a.Inside a :=
  ⟨le_refl _, le_refl _, le_refl _, le_refl _⟩

theorem QRect.Inside.area_le {a b : QRect} (h : a.Inside b) (hv : a.Valid) : a.area ≤ b.area := by
  simp only [QRect.Inside, QRect.Valid] at h hv
  unfold QRect.area QRect.width QRect.height
  exact mul_le_mul (by omega) (by omega) (by omega) (by omega)

theorem toInt32_of_range {z : Int} (h0 : 0 ≤ z) (h1 : z ≤ INT_MAX) : toInt32 z = z := by
  unfold toInt32
  unfold INT_MAX at h1
  omega

theorem area_range {r : QRect} {img : BinaryImage}
    (hd : r.x1 ≤ r.x2 + 1 ∧ r.y1 ≤ r.y2 + 1) (hi : r.Inside img.rect) :
    0 ≤ r.area ∧ r.area ≤ (img.width : Int) * (img.height : Int) := by
  simp only [QRect.Inside, BinaryImage.rect, QRect.ofXYWH] at hi
  unfold QRect.area QRect.width QRect.height
  have hw0 : 0 ≤ r.x2 - r.x1 + 1 := by omega
  have hh0 : 0 ≤ r.y2 - r.y1 + 1 := by omega
  have hw1 : r.x2 - r.x1 + 1 ≤ (img.width : Int) := by omega
  have hh1 : r.y2 - r.y1 + 1 ≤ (img.height : Int) := by omega
  exact ⟨mul_nonneg hw0 hh0, mul_le_mul hw1 hh1 hh0 (by omega)⟩

theorem toInt32_area {r : QRect} {img : BinaryImage}
    (hd : r.x1 ≤ r.x2 + 1 ∧ r.y1 ≤ r.y2 + 1) (hi : r.Inside img.rect)
    (harea : (img.width : Int) * (img.height : Int) ≤ INT_MAX) :
    toInt32 r.area = r.area :=
  toInt32_of_range (area_range hd hi).1 (le_trans (area_range hd hi).2 harea)

theorem not_meets_sides {q p : QRect} (hq : q.Valid) (hp : p.Valid) (h : ¬ q.Meets p) :
    q.y2 < p.y1 ∨ p.y2 < q.y1 ∨ q.x2 < p.x1 ∨ p.x2 < q.x1 := by
  by_contra hn
  apply h
  simp only [QRect.Valid] at hq hp
  refine ⟨if q.x1 ≤ p.x1 then p.x1 else q.x1, if q.y1 ≤ p.y1 then p.y1 else q.y1, ?_, ?_⟩ <;>
    simp only [QRect.Covers] <;> split_ifs <;> omega

theorem mem_addNewObstacles {t : Region} {l : List QRect} {o : QRect} :
    o ∈ (t.addNewObstacles l).m_obstacles ↔
      o ∈ t.m_obstacles ∨
      ∃ b ∈ l.drop t.m_knownNewObstacles, o = b.intersected t.m_bounds ∧ o.isEmpty = false := by
  simp only [Region.addNewObstacles, List.mem_append, List.mem_filter, List.mem_map,
    Bool.not_eq_true', Bool.not_eq_eq_eq_not, Bool.not_true]
  constructor
  · rintro (h | ⟨⟨b, hb, rfl⟩, he⟩)
    · exact Or.inl h
    · exact Or.inr ⟨b, hb, rfl, he⟩
  · rintro (h | ⟨b, hb, rfl, he⟩)
    · exact Or.inl h
    · exact Or.inr ⟨⟨b, hb, rfl⟩, he⟩

theorem mem_newRegion_obstacles {s : MaxWhitespaceFinder} {region : Region} {b o : QRect} :
    o ∈ (s.newRegion region b).m_obstacles ↔
      ∃ p ∈ region.m_obstacles, o = p.intersected b ∧ o.isEmpty = false := by
  rw [newRegion_obstacles]
  simp only [List.mem_filter, List.mem_map, Bool.not_eq_true', Bool.not_eq_eq_eq_not,
    Bool.not_true]
  constructor
  · rintro ⟨⟨p, hp, rfl⟩, he⟩
    exact ⟨p, hp, rfl, he⟩
  · rintro ⟨p, hp, rfl, he⟩
    exact ⟨⟨p, hp, rfl⟩, he⟩

theorem merged_obstacles {img : BinaryImage} {min_size : QSize} {obs res : List QRect}
    {s : MaxWhitespaceFinder} (h : AutoInv img min_size obs res s) {t : Region}
    (ht : t ∈ s.m_queuedRegions) :
    ∀ o ∈ (t.addNewObstacles s.m_newObstacles).m_obstacles,
      o.Valid ∧ o.Inside t.m_bounds ∧ ∃ b ∈ obs ++ res, o.Inside b := by
  intro o ho
  rcases mem_addNewObstacles.mp ho with ho | ⟨b, hb, rfl, he⟩
  · exact h.obst t ht o ho
  · have hb := h.newobs b (List.mem_of_mem_drop hb)
    have hd := h.dims t ht
    refine ⟨intersected_valid he, intersected_inside_right he hd.1 hd.2, b, ?_,
      intersected_inside_left he hb.2.1 hb.2.2⟩
    exact List.mem_append_right _ hb.1

theorem merged_known {img : BinaryImage} {min_size : QSize} {obs res : List QRect}
    {s : MaxWhitespaceFinder} (h : AutoInv img min_size obs res s) {t : Region}
    (ht : t ∈ s.m_queuedRegions) :
    ∀ b ∈ s.m_newObstacles, ∀ x y, t.m_bounds.Covers x y → b.Covers x y →
      ∃ o ∈ (t.addNewObstacles s.m_newObstacles).m_obstacles, o.Covers x y := by
  intro b hb x y hx hbx
  rw [← List.take_append_drop t.m_knownNewObstacles s.m_newObstacles] at hb
  rcases List.mem_append.mp hb with hb | hb
  · obtain ⟨o, ho, hc⟩ := (h.known t ht).2 b hb x y hx hbx
    exact ⟨o, mem_addNewObstacles.mpr (Or.inl ho), hc⟩
  · have hi := intersected_covers hbx hx
    exact ⟨b.intersected t.m_bounds, mem_addNewObstacles.mpr (Or.inr ⟨b, hb, rfl, hi.1⟩), hi.2⟩

theorem child_bounds_facts (s : MaxWhitespaceFinder) (region : Region) (bounds pivot : QRect)
    {c : Region} (hc : c ∈ subdivideChildren s region bounds pivot)
    (hd : bounds.x1 ≤ bounds.x2 + 1 ∧ bounds.y1 ≤ bounds.y2 + 1)
    (hpv : pivot.Valid) (hpi : pivot.Inside bounds) :
    (c.m_bounds.x1 ≤ c.m_bounds.x2 + 1 ∧ c.m_bounds.y1 ≤ c.m_bounds.y2 + 1) ∧
    c.m_bounds.Inside bounds ∧
    c.m_knownNewObstacles = s.m_newObstacles.length ∧
    (∀ o, o ∈ c.m_obstacles ↔
      ∃ p ∈ region.m_obstacles, o = p.intersected c.m_bounds ∧ o.isEmpty = false) := by
  simp only [QRect.Valid, QRect.Inside] at hpv hpi
  rcases mem_subdivideChildren hc with ⟨k, rfl⟩ | ⟨k, rfl⟩ | ⟨k, rfl⟩ | ⟨k, rfl⟩ <;>
    refine ⟨?_, ?_, rfl, fun o => mem_newRegion_obstacles⟩ <;>
    simp only [newRegion_bounds, QRect.setBottom, QRect.setTop, QRect.setLeft, QRect.setRight,
      QRect.Inside] <;> omega

theorem child_covers_candidate (s : MaxWhitespaceFinder) (region : Region)
    (bounds pivot : QRect) {q : QRect}
    (hqv : q.Valid) (hqw : s.m_minSize.width ≤ q.width) (hqh : s.m_minSize.height ≤ q.height)
    (hqi : q.Inside bounds) (hpv : pivot.Valid) (hm : ¬ q.Meets pivot) :
    ∃ c ∈ subdivideChildren s region bounds pivot, q.Inside c.m_bounds := by
  have hside := not_meets_sides hqv hpv hm
  simp only [QRect.Valid, QRect.Inside, QRect.width, QRect.height] at hqv hqw hqh hqi hpv
  unfold subdivideChildren
  simp only [QRect.top, QRect.bottom, QRect.left, QRect.right, ge_iff_le, List.mem_append]
  rcases hside with h | h | h | h
  · refine ⟨s.newRegion region (bounds.setBottom (pivot.y1 - 1)), ?_, ?_⟩
    · left; left; left
      rw [if_pos (by omega)]; simp
    · simp only [newRegion_bounds, QRect.setBottom, QRect.Inside]; omega
  · refine ⟨s.newRegion region (bounds.setTop (pivot.y2 + 1)), ?_, ?_⟩
    · left; left; right
      rw [if_pos (by omega)]; simp
    · simp only [newRegion_bounds, QRect.setTop, QRect.Inside]; omega
  · refine ⟨s.newRegion region (bounds.setRight (pivot.x1 - 1)), ?_, ?_⟩
    · left; right
      rw [if_pos (by omega)]; simp
    · simp only [newRegion_bounds, QRect.setRight, QRect.Inside]; omega
  · refine ⟨s.newRegion region (bounds.setLeft (pivot.x2 + 1)), ?_, ?_⟩
    · right
      rw [if_pos (by omega)]; simp
    · simp only [newRegion_bounds, QRect.setLeft, QRect.Inside]; omega

theorem Candidate.valid {img : BinaryImage} {min_size : QSize} {obs res : List QRect}
    {q : QRect} (h : Candidate img min_size obs res q)
    (hw : 1 ≤ min_size.width) (hh : 1 ≤ min_size.height) : q.Valid := by
  have h1 := h.2.1
  have h2 := h.2.2.1
  simp only [QRect.width, QRect.height] at h1 h2
  unfold QRect.Valid
  omega

theorem AutoInv_subdivide {img : BinaryImage} {min_size : QSize} {obs res : List QRect}
    {s : MaxWhitespaceFinder} (h : AutoInv img min_size obs res s) {t : Region}
    (ht : PriorityStorage.top s.m_queuedRegions = some t) (pivot : QRect)
    (hpv : pivot.Valid) (hpi : pivot.Inside t.m_bounds)
    (hpq : ∀ q, Candidate img min_size obs res q → ¬ q.Meets pivot) :
    AutoInv img min_size obs res
      (s.popTop.subdivide (t.addNewObstacles s.m_newObstacles) t.m_bounds pivot) := by
  rw [subdivide_eq]
  have htm := PriorityStorage.top_mem ht
  have hfacts := fun (c : Region) hc => child_bounds_facts s.popTop
    (t.addNewObstacles s.m_newObstacles) t.m_bounds pivot (c := c) hc (h.dims t htm) hpv hpi
  refine ⟨h.img_eq, h.min_eq, h.min_w, h.min_h, ?_, ?_, h.newobs, h.registered, ?_, ?_, ?_, ?_⟩
  · intro g hg
    rcases List.mem_append.mp hg with hg | hg
    · exact h.dims g (mem_popTop_queue hg)
    · exact (hfacts g hg).1
  · intro g hg o ho
    rcases List.mem_append.mp hg with hg | hg
    · exact h.obst g (mem_popTop_queue hg) o ho
    · obtain ⟨hd, _, _, hobs⟩ := hfacts g hg
      obtain ⟨p, hp, rfl, he⟩ := (hobs o).mp ho
      obtain ⟨pv, _, b, hb, hpb⟩ := merged_obstacles h htm p hp
      have hpd : p.x1 ≤ p.x2 + 1 ∧ p.y1 ≤ p.y2 + 1 := by
        simp only [QRect.Valid] at pv; omega
      exact ⟨intersected_valid he, intersected_inside_right he hd.1 hd.2, b, hb,
        (intersected_inside_left he hpd.1 hpd.2).trans hpb⟩
  · intro g hg
    rcases List.mem_append.mp hg with hg | hg
    · exact h.known g (mem_popTop_queue hg)
    · obtain ⟨_, hin, hk, hobs⟩ := hfacts g hg
      refine ⟨by rw [hk], ?_⟩
      intro b hb x y hx hbx
      have hb : b ∈ s.m_newObstacles := List.mem_of_mem_take hb
      obtain ⟨o, ho, hc⟩ := merged_known h htm b hb x y (hin.covers hx) hbx
      have hi := intersected_covers hc hx
      exact ⟨o.intersected g.m_bounds, (hobs _).mpr ⟨o, ho, rfl, hi.1⟩, hi.2⟩
  · intro g hg b hb x y hx hbx
    rcases List.mem_append.mp hg with hg | hg
    · exact h.tracked g (mem_popTop_queue hg) b hb x y hx hbx
    · obtain ⟨_, hin, _, hobs⟩ := hfacts g hg
      obtain ⟨o, ho, hc⟩ := h.tracked t htm b hb x y (hin.covers hx) hbx
      have hi := intersected_covers hc hx
      exact ⟨o.intersected g.m_bounds,
        (hobs _).mpr ⟨o, mem_addNewObstacles.mpr (Or.inl ho), rfl, hi.1⟩, hi.2⟩
  · intro q hq
    obtain ⟨g, hg, hqg⟩ := h.cover q hq
    rcases PriorityStorage.mem_top_or_pop ht hg with rfl | hg
    · have hqv := hq.valid h.min_w h.min_h
      have hm : s.popTop.m_minSize = min_size := h.min_eq
      obtain ⟨c, hc, hqc⟩ := child_covers_candidate s.popTop
        (g.addNewObstacles s.m_newObstacles) g.m_bounds pivot
        hqv (by rw [hm]; exact hq.2.1) (by rw [hm]; exact hq.2.2.1) hqg hpv (hpq q hq)
      exact ⟨c, List.mem_append_right _ hc, hqc⟩
    · exact ⟨g, List.mem_append_left _ hg, hqg⟩
  · intro g hg
    rcases List.mem_append.mp hg with hg | hg
    · exact h.inside g (mem_popTop_queue hg)
    · exact (hfacts g hg).2.1.trans (h.inside t htm)

theorem QRect.Meets.valid_left {a b : QRect} (h : a.Meets b) : a.Valid := by
  obtain ⟨x, y, ha, _⟩ := h
  simp only [QRect.Covers] at ha
  unfold QRect.Valid
  omega

theorem QRect.Meets.mono_right {a b c : QRect} (h : a.Meets b) (hbc : b.Inside c) :
    a.Meets c := by
  obtain ⟨x, y, ha, hb⟩ := h
  exact ⟨x, y, ha, hbc.covers hb⟩

theorem QRect.Meets.of_inside {a b : QRect} (h : a.Inside b) (hv : a.Valid) : a.Meets b := by
  refine ⟨a.x1, a.y1, ?_, ?_⟩ <;>
    simp only [QRect.Covers, QRect.Inside, QRect.Valid] at h hv ⊢ <;> omega

theorem Candidate.weaken {img : BinaryImage} {min_size : QSize} {obs res : List QRect}
    {q : QRect} (r : QRect) (h : Candidate img min_size obs (res ++ [r]) q) :
    Candidate img min_size obs res q := by
  refine ⟨h.1, h.2.1, h.2.2.1, h.2.2.2.1, ?_⟩
  intro o ho
  apply h.2.2.2.2 o
  rcases List.mem_append.mp ho with ho | ho
  · exact List.mem_append_left _ ho
  · exact List.mem_append_right _ (List.mem_append_left _ ho)

theorem AutoInv_append_invalid {img : BinaryImage} {min_size : QSize} {obs res : List QRect}
    {s : MaxWhitespaceFinder} (h : AutoInv img min_size obs res s) (r : QRect)
    (hr : ¬ r.Valid) : AutoInv img min_size obs (res ++ [r]) s := by
  refine ⟨h.img_eq, h.min_eq, h.min_w, h.min_h, h.dims, ?_, ?_, ?_, h.known, h.tracked, ?_,
    h.inside⟩
  · intro g hg o ho
    obtain ⟨a, b, c, hc, d⟩ := h.obst g hg o ho
    refine ⟨a, b, c, ?_, d⟩
    rcases List.mem_append.mp hc with hc | hc
    · exact List.mem_append_left _ hc
    · exact List.mem_append_right _ (List.mem_append_left _ hc)
  · intro b hb
    have := h.newobs b hb
    exact ⟨List.mem_append_left _ this.1, this.2⟩
  · intro r' hr'
    rcases List.mem_append.mp hr' with hr' | hr'
    · exact h.registered r' hr'
    · rw [List.mem_singleton.mp hr']
      exact Or.inr hr
  · intro q hq
    exact h.cover q (hq.weaken r)

theorem null_not_valid : ¬ QRect.null.Valid := by
  simp [QRect.Valid, QRect.null]

theorem AutoInv_result {img : BinaryImage} {min_size : QSize} {obs res : List QRect}
    {s : MaxWhitespaceFinder} (h : AutoInv img min_size obs res s) {t : Region}
    (ht : PriorityStorage.top s.m_queuedRegions = some t)
    (hobs : (t.addNewObstacles s.m_newObstacles).m_obstacles = [])
    (hsum : s.m_integralImg.sum t.m_bounds = 0) :
    AutoInv img min_size obs (res ++ [t.m_bounds])
      (s.popTop.registerResult ObstacleMode.AUTO_OBSTACLES t.m_bounds) ∧
    ResultOK img min_size obs res t.m_bounds := by
  have htm := PriorityStorage.top_mem ht
  have hreg : s.popTop.registerResult ObstacleMode.AUTO_OBSTACLES t.m_bounds =
      { s.popTop with m_newObstacles := s.m_newObstacles ++ [t.m_bounds] } := by
    simp [registerResult, popTop]
  rw [hreg]
  constructor
  · refine ⟨h.img_eq, h.min_eq, h.min_w, h.min_h, ?_, ?_, ?_, ?_, ?_, ?_, ?_,
      fun g hg => h.inside g (mem_popTop_queue hg)⟩
    · intro g hg
      exact h.dims g (mem_popTop_queue hg)
    · intro g hg o ho
      obtain ⟨a, b, c, hc, d⟩ := h.obst g (mem_popTop_queue hg) o ho
      refine ⟨a, b, c, ?_, d⟩
      rcases List.mem_append.mp hc with hc | hc
      · exact List.mem_append_left _ hc
      · exact List.mem_append_right _ (List.mem_append_left _ hc)
    · intro b hb
      rcases List.mem_append.mp hb with hb | hb
      · have := h.newobs b hb
        exact ⟨List.mem_append_left _ this.1, this.2⟩
      · rw [List.mem_singleton.mp hb]
        exact ⟨List.mem_append_right _ (List.mem_singleton.mpr rfl), h.dims t htm⟩
    · intro r hr
      rcases List.mem_append.mp hr with hr | hr
      · rcases h.registered r hr with h1 | h1
        · exact Or.inl (List.mem_append_left _ h1)
        · exact Or.inr h1
      · exact Or.inl (List.mem_append_right _ hr)
    · intro g hg
      have hk := h.known g (mem_popTop_queue hg)
      refine ⟨?_, ?_⟩
      · show g.m_knownNewObstacles ≤ (s.m_newObstacles ++ [t.m_bounds]).length
        rw [List.length_append]
        exact Nat.le_add_right_of_le hk.1
      · show ∀ b ∈ (s.m_newObstacles ++ [t.m_bounds]).take g.m_knownNewObstacles, _
        rw [List.take_append_of_le_length hk.1]
        exact hk.2
    · intro g hg
      exact h.tracked g (mem_popTop_queue hg)
    · intro q hq
      obtain ⟨g, hg, hqg⟩ := h.cover q (hq.weaken _)
      rcases PriorityStorage.mem_top_or_pop ht hg with rfl | hg
      · exfalso
        have hqv := (hq.weaken _).valid h.min_w h.min_h
        exact hq.2.2.2.2 g.m_bounds
          (List.mem_append_right _ (List.mem_append_right _ (List.mem_singleton.mpr rfl)))
          (QRect.Meets.of_inside hqg hqv)
      · exact ⟨g, hg, hqg⟩
  · refine ⟨by rw [← h.img_eq]; exact hsum, ?_, ?_, ?_⟩
    · intro b hb hm
      rcases h.registered b hb with h1 | h1
      · obtain ⟨x, y, hbx, htx⟩ := hm
        obtain ⟨o, ho, _⟩ := merged_known h htm b h1 x y htx hbx
        rw [hobs] at ho
        simp at ho
      · exact h1 hm.valid_left
    · intro b hb hm
      obtain ⟨x, y, hbx, htx⟩ := hm
      obtain ⟨o, ho, _⟩ := h.tracked t htm b hb x y htx hbx
      have ho : o ∈ (t.addNewObstacles s.m_newObstacles).m_obstacles :=
        mem_addNewObstacles.mpr (Or.inl ho)
      rw [hobs] at ho
      simp at ho
    · intro _ harea q hq
      obtain ⟨g, hg, hqg⟩ := h.cover q hq
      have h1 := PriorityStorage.top_area_le ht hg
      rw [toInt32_area (h.dims g hg) (h.inside g hg) harea,
        toInt32_area (h.dims t htm) (h.inside t htm) harea] at h1
      exact le_trans (hqg.area_le (hq.valid h.min_w h.min_h)) h1

theorem AutoInv_next {img : BinaryImage} {min_size : QSize} {obs res : List QRect}
    {s : MaxWhitespaceFinder} (h : AutoInv img min_size obs res s) (n : Int) :
    AutoInv img min_size obs (res ++ [(s.next ObstacleMode.AUTO_OBSTACLES n).1])
      (s.next ObstacleMode.AUTO_OBSTACLES n).2 ∧
    ResultOK img min_size obs res (s.next ObstacleMode.AUTO_OBSTACLES n).1 := by
  refine next_induction ObstacleMode.AUTO_OBSTACLES (AutoInv img min_size obs res)
    (fun r u => AutoInv img min_size obs (res ++ [r]) u ∧ ResultOK img min_size obs res r)
    ?_ ?_ ?_ ?_ n s h
  · intro u hu
    refine ⟨AutoInv_append_invalid hu _ null_not_valid, IntegralImage.sum_null _, ?_, ?_, ?_⟩
    · intro b _ hm
      obtain ⟨x, y, _, hc⟩ := hm
      simp only [QRect.Covers, QRect.null] at hc
      omega
    · intro b _ hm
      obtain ⟨x, y, _, hc⟩ := hm
      simp only [QRect.Covers, QRect.null] at hc
      omega
    · intro hn
      simp [QRect.isNull, QRect.null] at hn
  · intro u t hu ht hne
    have hp := findPivotObstacle_mem (t.addNewObstacles u.m_newObstacles) hne
    obtain ⟨pv, pi, b, hb, pb⟩ := merged_obstacles hu (PriorityStorage.top_mem ht) _ hp
    exact AutoInv_subdivide hu ht _ pv pi
      (fun q hq hm => hq.2.2.2.2 b hb (hm.mono_right pb))
  · intro u t hu ht _ hsum
    have hii : u.popTop.m_integralImg = ⟨img⟩ := hu.img_eq
    have hsum : (IntegralImage.mk img).sum t.m_bounds ≠ 0 := by
      rw [← hu.img_eq]; exact hsum
    obtain ⟨pv, pi, pb⟩ := raster_pivot_spec ⟨img⟩ t.m_bounds
      (valid_of_sum_ne_zero _ _ hsum) hsum
    unfold subdivideUsingRaster
    simp only [hii]
    refine AutoInv_subdivide hu ht _ pv pi ?_
    intro q hq hm
    obtain ⟨x, y, hqx, hpx⟩ := hm
    exact pb x y hpx ((IntegralImage.sum_eq_zero_iff _ _).mp hq.2.2.2.1 x y hqx)
  · intro u t hu ht hobs hsum
    exact AutoInv_result hu ht hobs hsum

/-! ## Runs in automatic mode -/

theorem intersected_of_inside {o b : QRect} (hv : o.Valid) (hi : o.Inside b) :
    o.intersected b = o := by
  simp only [QRect.Valid, QRect.Inside] at hv hi
  have hna : o.isNull = false := by
    simp only [QRect.isNull, Bool.and_eq_false_iff, beq_eq_false_iff_ne, ne_eq]
    left; omega
  have hnb : b.isNull = false := by
    simp only [QRect.isNull, Bool.and_eq_false_iff, beq_eq_false_iff_ne, ne_eq]
    left; omega
  have e1 : (if o.x2 - o.x1 + 1 < 0 then o.x2 else o.x1) = o.x1 := if_neg (by omega)
  have e2 : (if o.x2 - o.x1 + 1 < 0 then o.x1 else o.x2) = o.x2 := if_neg (by omega)
  have e3 : (if o.y2 - o.y1 + 1 < 0 then o.y2 else o.y1) = o.y1 := if_neg (by omega)
  have e4 : (if o.y2 - o.y1 + 1 < 0 then o.y1 else o.y2) = o.y2 := if_neg (by omega)
  have f1 : (if b.x2 - b.x1 + 1 < 0 then b.x2 else b.x1) = b.x1 := if_neg (by omega)
  have f2 : (if b.x2 - b.x1 + 1 < 0 then b.x1 else b.x2) = b.x2 := if_neg (by omega)
  have f3 : (if b.y2 - b.y1 + 1 < 0 then b.y2 else b.y1) = b.y1 := if_neg (by omega)
  have f4 : (if b.y2 - b.y1 + 1 < 0 then b.y1 else b.y2) = b.y2 := if_neg (by omega)
  unfold QRect.intersected
  simp only [hna, hnb, Bool.or_self, Bool.false_eq_true, if_false, e1, e2, e3, e4, f1, f2, f3, f4]
  rw [if_neg (by omega), if_neg (by omega)]
  cases o
  simp only [QRect.mk.injEq] at *
  refine ⟨?_, ?_, ?_, ?_⟩ <;> split_ifs <;> omega

theorem valid_not_isEmpty {o : QRect} (hv : o.Valid) : o.isEmpty = false := by
  simp only [QRect.Valid] at hv
  simp only [QRect.isEmpty, Bool.or_eq_false_iff, decide_eq_false_iff_not, not_lt, gt_iff_lt]
  omega

theorem Region.addObstacle_of_inside (g : Region) {o : QRect} (hv : o.Valid)
    (hi : o.Inside g.m_bounds) :
    g.addObstacle o = ⟨g.m_knownNewObstacles, g.m_bounds, g.m_obstacles ++ [o]⟩ := by
  unfold Region.addObstacle
  simp [intersected_of_inside hv hi, valid_not_isEmpty hv]

theorem runCalls_addObstacles (s : MaxWhitespaceFinder) (g : Region) (obs : List QRect)
    (rest : List Call) (hq : s.m_queuedRegions = [g])
    (hobs : ∀ o ∈ obs, o.Valid ∧ o.Inside g.m_bounds) :
    runCalls s (obs.map Call.addObstacle ++ rest) =
      runCalls { s with m_queuedRegions :=
        [⟨g.m_knownNewObstacles, g.m_bounds, g.m_obstacles ++ obs⟩] } rest := by
  induction obs generalizing s g with
  | nil =>
    simp only [List.map_nil, List.nil_append, List.append_nil]
    congr 1
    cases s
    simp only at hq
    subst hq
    rfl
  | cons o obs ih =>
    have e : runCalls s ((o :: obs).map Call.addObstacle ++ rest) =
        runCalls (s.addObstacle o) (obs.map Call.addObstacle ++ rest) := rfl
    have ho := hobs o (List.mem_cons_self _ _)
    have e2 := Region.addObstacle_of_inside g ho.1 ho.2
    rw [e, ih (s.addObstacle o) (g.addObstacle o) (addObstacle_queue_single o hq)
      (fun o' ho' => by rw [e2]; exact hobs o' (List.mem_cons_of_mem _ ho'))]
    congr 1
    unfold MaxWhitespaceFinder.addObstacle
    rw [hq]
    simp [e2]

theorem runCalls_seeded (img : BinaryImage) (min_size : QSize) (obs : List QRect)
    (rest : List Call) (hobs : ∀ o ∈ obs, o.Valid ∧ o.Inside img.rect) :
    runCalls (MaxWhitespaceFinder.new img min_size) (obs.map Call.addObstacle ++ rest) =
      runCalls (seeded img min_size obs) rest := by
  rw [runCalls_addObstacles _ (Region.new 0 img.rect) obs rest rfl hobs]
  rfl

theorem AutoInv_seeded (img : BinaryImage) (min_size : QSize) (obs : List QRect)
    (hw : 1 ≤ min_size.width) (hh : 1 ≤ min_size.height)
    (hobs : ∀ o ∈ obs, o.Valid ∧ o.Inside img.rect) :
    AutoInv img min_size obs [] (seeded img min_size obs) := by
  refine ⟨rfl, rfl, hw, hh, ?_, ?_, ?_, ?_, ?_, ?_, ?_, ?_⟩
  · intro g hg
    simp only [seeded, List.mem_singleton] at hg
    subst hg
    simp only [BinaryImage.rect, QRect.ofXYWH]
    omega
  · intro g hg o ho
    simp only [seeded, List.mem_singleton] at hg
    subst hg
    exact ⟨(hobs o ho).1, (hobs o ho).2, o, by simpa using ho, QRect.Inside.refl o⟩
  · intro b hb
    simp [seeded] at hb
  · intro r hr
    simp at hr
  · intro g hg
    simp only [seeded, List.mem_singleton] at hg
    subst hg
    simp [seeded]
  · intro g hg b hb x y _ hbx
    simp only [seeded, List.mem_singleton] at hg
    subst hg
    exact ⟨b, hb, hbx⟩
  · intro q hq
    exact ⟨⟨0, img.rect, obs⟩, by simp [seeded], hq.1⟩
  · intro g hg
    simp only [seeded, List.mem_singleton] at hg
    subst hg
    exact QRect.Inside.refl _

theorem auto_run (img : BinaryImage) (min_size : QSize) (obs : List QRect)
    (budgets : List Int) (res : List QRect) (s : MaxWhitespaceFinder)
    (h : AutoInv img min_size obs res s) :
    AutoInv img min_size obs
      (res ++ (runCalls s (budgets.map (Call.next ObstacleMode.AUTO_OBSTACLES))).2)
      (runCalls s (budgets.map (Call.next ObstacleMode.AUTO_OBSTACLES))).1 ∧
    ∀ pre r post,
      (runCalls s (budgets.map (Call.next ObstacleMode.AUTO_OBSTACLES))).2 = pre ++ r :: post →
      ResultOK img min_size obs (res ++ pre) r := by
  induction budgets generalizing res s with
  | nil =>
    simp only [List.map_nil, runCalls, List.append_nil]
    refine ⟨h, ?_⟩
    intro pre r post hp
    simp at hp
  | cons n rest ih =>
    simp only [List.map_cons, runCalls]
    have hstep := AutoInv_next h n
    have hrest := ih (res ++ [(s.next ObstacleMode.AUTO_OBSTACLES n).1])
      (s.next ObstacleMode.AUTO_OBSTACLES n).2 hstep.1
    constructor
    · have := hrest.1
      rw [List.append_assoc] at this
      exact this
    · intro pre r post hp
      cases pre with
      | nil =>
        simp only [List.nil_append, List.cons.injEq] at hp
        rw [List.append_nil, ← hp.1]
        exact hstep.2
      | cons a pre =>
        simp only [List.cons_append, List.cons.injEq] at hp
        have := hrest.2 pre r post hp.2
        rw [List.append_assoc, hp.1] at this
        exact this

theorem pairwise_of_splits {α : Type} (R : α → α → Prop) (l : List α)
    (h : ∀ pre r post, l = pre ++ r :: post → ∀ b ∈ pre, R b r) : l.Pairwise R := by
  induction l with
  | nil => exact List.Pairwise.nil
  | cons a l ih =>
    refine List.Pairwise.cons ?_ (ih ?_)
    · intro b hb
      obtain ⟨pre, post, rfl⟩ := List.append_of_mem hb
      exact h (a :: pre) b post rfl a (List.mem_cons_self _ _)
    · intro pre r post hl b hb
      exact h (a :: pre) r post (by rw [hl]; rfl) b (List.mem_cons_of_mem _ hb)

theorem QRect.Meets.symm {a b : QRect} (h : a.Meets b) : b.Meets a := by
  obtain ⟨x, y, ha, hb⟩ := h
  exact ⟨x, y, hb, ha⟩

/-- C1 (largest-first optimality), amended: for every raster whose number of
pixels `width * height` does not exceed `INT_MAX`, every `min_size >= (1, 1)`
and all non-empty caller obstacles inside the raster added before the first
call, each non-null rectangle `r` returned by `next` in mode `AUTO_OBSTACLES`
(after the rectangles `pre` returned earlier) has area at least the area of
every rectangle `q` inside the raster that is at least `min_size` wide and
high, covers no foreground pixel, meets no caller obstacle and meets no
rectangle returned earlier; and `r` itself covers no foreground pixel and
meets neither a caller obstacle nor an earlier result. -/
theorem auto_result_is_largest (img : BinaryImage) (min_size : QSize) (obs : List QRect)
    (budgets : List Int) (harea : (img.width : Int) * (img.height : Int) ≤ INT_MAX)
    (hw : 1 ≤ min_size.width) (hh : 1 ≤ min_size.height)
    (hobs : ∀ o ∈ obs, o.Valid ∧ o.Inside img.rect)
    (pre : List QRect) (r : QRect) (post : List QRect)
    (hres : (runCalls (MaxWhitespaceFinder.new img min_size)
      (obs.map Call.addObstacle ++ budgets.map (Call.next ObstacleMode.AUTO_OBSTACLES))).2
        = pre ++ r :: post)
    (hnn : r.isNull = false) :
    (∀ q : QRect, q.Inside img.rect → min_size.width ≤ q.width → min_size.height ≤ q.height →
      (∀ x y, q.Covers x y → img.pixel x y = 0) → (∀ o ∈ obs, ¬ q.Meets o) →
      (∀ b ∈ pre, ¬ q.Meets b) → q.area ≤ r.area) ∧
    (∀ x y, r.Covers x y → img.pixel x y = 0) ∧ (∀ o ∈ obs, ¬ r.Meets o) ∧
    (∀ b ∈ pre, ¬ r.Meets b) := by
  rw [runCalls_seeded img min_size obs _ hobs] at hres
  have h := (auto_run img min_size obs budgets [] _
    (AutoInv_seeded img min_size obs hw hh hobs)).2 pre r post hres
  rw [List.nil_append] at h
  obtain ⟨h1, h2, h3, h4⟩ := h
  refine ⟨?_, (IntegralImage.sum_eq_zero_iff ⟨img⟩ r).mp h1, fun o ho hm => h3 o ho hm.symm,
    fun b hb hm => h2 b hb hm.symm⟩
  intro q hq1 hq2 hq3 hq4 hq5 hq6
  refine h4 hnn harea q ⟨hq1, hq2, hq3, (IntegralImage.sum_eq_zero_iff ⟨img⟩ q).mpr hq4, ?_⟩
  intro o ho
  rcases List.mem_append.mp ho with ho | ho
  · exact hq5 o ho
  · exact hq6 o ho

theorem auto_result_is_largest_witness :
    (((whiteImage 10 10).width : Int) * ((whiteImage 10 10).height : Int) ≤ INT_MAX ∧
      (1 : Int) ≤ 1 ∧ (1 : Int) ≤ 1 ∧
      (∀ o ∈ [QRect.ofXYWH 4 4 2 2], o.Valid ∧ o.Inside (whiteImage 10 10).rect)) ∧
    (runCalls (MaxWhitespaceFinder.new (whiteImage 10 10) ⟨1, 1⟩)
      ([QRect.ofXYWH 4 4 2 2].map Call.addObstacle ++
        [100, 100].map (Call.next ObstacleMode.AUTO_OBSTACLES))).2
        = [QRect.ofXYWH 0 0 10 4] ++ QRect.ofXYWH 0 6 10 4 :: [] ∧
    (QRect.ofXYWH 0 6 10 4).isNull = false ∧
    ((∀ q : QRect, q.Inside (whiteImage 10 10).rect → (1 : Int) ≤ q.width → (1 : Int) ≤ q.height →
      (∀ x y, q.Covers x y → (whiteImage 10 10).pixel x y = 0) →
      (∀ o ∈ [QRect.ofXYWH 4 4 2 2], ¬ q.Meets o) →
      (∀ b ∈ [QRect.ofXYWH 0 0 10 4], ¬ q.Meets b) → q.area ≤ (QRect.ofXYWH 0 6 10 4).area) ∧
    (∀ x y, (QRect.ofXYWH 0 6 10 4).Covers x y → (whiteImage 10 10).pixel x y = 0) ∧
    (∀ o ∈ [QRect.ofXYWH 4 4 2 2], ¬ (QRect.ofXYWH 0 6 10 4).Meets o) ∧
    (∀ b ∈ [QRect.ofXYWH 0 0 10 4], ¬ (QRect.ofXYWH 0 6 10 4).Meets b)) :=
  ⟨by decide, by decide, by decide,
    auto_result_is_largest (whiteImage 10 10) ⟨1, 1⟩ [QRect.ofXYWH 4 4 2 2] [100, 100]
      (by decide) (by decide) (by decide) (by decide) [QRect.ofXYWH 0 0 10 4]
      (QRect.ofXYWH 0 6 10 4) []
      (by decide) (by decide)⟩

/-- C4 (disjointness): for every raster and every `min_size >= (1, 1)`, with no
caller obstacle, no two rectangles returned by successive calls of `next` in
mode `AUTO_OBSTACLES` (whatever the budgets) have a pixel in common. -/
theorem auto_results_disjoint (img : BinaryImage) (min_size : QSize) (budgets : List Int)
    (hw : 1 ≤ min_size.width) (hh : 1 ≤ min_size.height) :
    List.Pairwise (fun a b => ¬ a.Meets b)
      (runCalls (MaxWhitespaceFinder.new img min_size)
        (budgets.map (Call.next ObstacleMode.AUTO_OBSTACLES))).2 := by
  have e := runCalls_seeded img min_size [] (budgets.map (Call.next ObstacleMode.AUTO_OBSTACLES))
    (by simp)
  simp only [List.map_nil, List.nil_append] at e
  rw [e]
  apply pairwise_of_splits
  intro pre r post hres b hb
  have h := (auto_run img min_size [] budgets [] _
    (AutoInv_seeded img min_size [] hw hh (by simp))).2 pre r post hres
  rw [List.nil_append] at h
  exact h.2.1 b hb

theorem auto_results_disjoint_witness :
    ((1 : Int) ≤ 1 ∧ (1 : Int) ≤ 1) ∧
    List.Pairwise (fun a b => ¬ a.Meets b)
      (runCalls (MaxWhitespaceFinder.new blobImage ⟨1, 1⟩)
        ([100, 100, 100, 100, 100].map (Call.next ObstacleMode.AUTO_OBSTACLES))).2 :=
  ⟨by decide, auto_results_disjoint blobImage ⟨1, 1⟩ [100, 100, 100, 100, 100]
    (by decide) (by decide)⟩

theorem whiteImage_pixel (w h : Nat) (x y : Int) : (whiteImage w h).pixel x y = 0 := by
  unfold BinaryImage.pixel BinaryImage.bit
  split_ifs
  · have e : ∀ i, (whiteImage w h).data.getD i 0 = 0 := by
      intro i
      simp only [whiteImage, List.getD_eq_getElem?_getD]
      by_cases hi : i < h * ((w + 31) / 32)
      · simp [List.getElem?_replicate, hi]
      · simp [List.getElem?_replicate, hi]
    rw [e]
    simp
  · rfl

theorem runCalls_empty_frontier (s : MaxWhitespaceFinder) (later : List (ObstacleMode × Int))
    (h : s.m_queuedRegions = []) :
    (runCalls s (later.map fun p => Call.next p.1 p.2)).2 =
      List.replicate later.length QRect.null := by
  induction later with
  | nil => rfl
  | cons p rest ih =>
    simp only [List.map_cons, runCalls, List.length_cons, List.replicate_succ]
    have e : s.next p.1 p.2 = (QRect.null, s) := by
      unfold MaxWhitespaceFinder.next nextCounted
      rw [nextLoop_empty _ _ _ _ h]
    rw [e]
    simp only
    rw [ih]

/-- C12 (all-background raster): for every raster without foreground pixel,
every `min_size`, no obstacles, either mode and `max_iterations >= 1`, the first
call of `next` returns the full rectangle `(0, 0, W, H)` of the raster, and
every later call of `next` (any mode, any budget) returns the null
rectangle. -/
theorem all_background_single_result (img : BinaryImage) (min_size : QSize)
    (mode : ObstacleMode) (max_iterations : Int) (later : List (ObstacleMode × Int))
    (hwhite : ∀ x y, img.pixel x y = 0) (hbudget : 1 ≤ max_iterations) :
    (runCalls (MaxWhitespaceFinder.new img min_size)
      (Call.next mode max_iterations :: later.map fun p => Call.next p.1 p.2)).2 =
      QRect.ofXYWH 0 0 img.width img.height :: List.replicate later.length QRect.null := by
  obtain ⟨m, hm⟩ : ∃ m : Nat, max_iterations.toNat = m + 1 := ⟨max_iterations.toNat - 1, by omega⟩
  have htop : PriorityStorage.top (MaxWhitespaceFinder.new img min_size).m_queuedRegions =
      some (Region.new 0 img.rect) := by
    simp [MaxWhitespaceFinder.new, PriorityStorage.push, PriorityStorage.top]
  have hsum : (MaxWhitespaceFinder.new img min_size).m_integralImg.sum
      (Region.new 0 img.rect).m_bounds = 0 :=
    (IntegralImage.sum_eq_zero_iff _ _).mpr (fun x y _ => hwhite x y)
  have hobs : ((Region.new 0 img.rect).addNewObstacles
      (MaxWhitespaceFinder.new img min_size).m_newObstacles).m_obstacles = [] := by
    simp [Region.addNewObstacles, Region.new, MaxWhitespaceFinder.new]
  have e : (MaxWhitespaceFinder.new img min_size).next mode max_iterations =
      (img.rect, (MaxWhitespaceFinder.new img min_size).popTop.registerResult mode img.rect) := by
    unfold MaxWhitespaceFinder.next nextCounted
    rw [hm, nextLoop_succ_result htop hobs hsum]
    rfl
  simp only [runCalls]
  rw [e]
  simp only
  rw [runCalls_empty_frontier]
  · rfl
  · rw [registerResult_queue]
    simp [popTop, MaxWhitespaceFinder.new, PriorityStorage.push, PriorityStorage.pop,
      PriorityStorage.top]

theorem all_background_single_result_witness :
    ((∀ x y, (whiteImage 10 10).pixel x y = 0) ∧ (1 : Int) ≤ 1000) ∧
    (runCalls (MaxWhitespaceFinder.new (whiteImage 10 10) ⟨1, 1⟩)
      (Call.next ObstacleMode.AUTO_OBSTACLES 1000 ::
        [(ObstacleMode.AUTO_OBSTACLES, (1000 : Int))].map fun p => Call.next p.1 p.2)).2 =
      QRect.ofXYWH 0 0 (whiteImage 10 10).width (whiteImage 10 10).height ::
        List.replicate [(ObstacleMode.AUTO_OBSTACLES, (1000 : Int))].length QRect.null :=
  ⟨⟨whiteImage_pixel 10 10, by decide⟩,
    all_background_single_result (whiteImage 10 10) ⟨1, 1⟩ ObstacleMode.AUTO_OBSTACLES 1000
      [(ObstacleMode.AUTO_OBSTACLES, 1000)] (whiteImage_pixel 10 10) (by decide)⟩

/-! ## The all-foreground raster -/

theorem sum_range_const (f : Nat → Nat) (c n : Nat) (h : ∀ i, i < n → f i = c) :
    ((List.range n).map f).sum = n * c := by
  induction n with
  | zero => simp
  | succ n ih =>
    rw [List.range_succ, List.map_append, List.sum_append, ih (fun i hi => h i (by omega))]
    simp only [List.map_cons, List.map_nil, List.sum_cons, List.sum_nil, Nat.add_zero]
    rw [h n (by omega), Nat.succ_mul]

theorem IntegralImage.sum_eq_area_of_allBlack (ii : IntegralImage) (r : QRect)
    (hx : r.x1 ≤ r.x2 + 1) (hy : r.y1 ≤ r.y2 + 1) (h : ii.AllBlack r) :
    (ii.sum r : Int) = r.width * r.height := by
  have hw : (0 : Int) ≤ r.width := by unfold QRect.width; omega
  have hh : (0 : Int) ≤ r.height := by unfold QRect.height; omega
  have hpix : ∀ i j : Nat, i < r.width.toNat → j < r.height.toNat →
      ii.img.pixel (r.x1 + (i : Int)) (r.y1 + (j : Int)) = 1 := by
    intro i j hi hj
    have h1 := h (r.x1 + (i : Int)) (r.y1 + (j : Int))
      (by unfold QRect.width QRect.height at *; unfold QRect.Covers; omega)
    have h2 := BinaryImage.pixel_le_one ii.img (r.x1 + (i : Int)) (r.y1 + (j : Int))
    omega
  have hrow : ∀ j : Nat, j < r.height.toNat →
      ((List.range r.width.toNat).map fun (i : Nat) =>
        ii.img.pixel (r.x1 + (i : Int)) (r.y1 + (j : Int))).sum = r.width.toNat * 1 :=
    fun j hj => sum_range_const _ 1 _ (fun i hi => hpix i j hi hj)
  have hsum : ii.sum r = r.height.toNat * (r.width.toNat * 1) := by
    unfold IntegralImage.sum
    exact sum_range_const _ _ _ hrow
  rw [hsum]
  push_cast
  rw [Int.toNat_of_nonneg hw, Int.toNat_of_nonneg hh]
  ring

theorem extendBlackPixelToBlackBox_of_allBlack (ii : IntegralImage) (pixel : QPoint)
    (bounds : QRect) (hx : bounds.x1 ≤ bounds.x2 + 1) (hy : bounds.y1 ≤ bounds.y2 + 1)
    (h : ii.AllBlack bounds) : extendBlackPixelToBlackBox ii pixel bounds = bounds := by
  unfold extendBlackPixelToBlackBox
  simp only
  rw [if_pos (IntegralImage.sum_eq_area_of_allBlack ii bounds hx hy h)]

theorem subdivideChildren_whole (s : MaxWhitespaceFinder) (region : Region) (bounds : QRect)
    (hw : 1 ≤ s.m_minSize.width) (hh : 1 ≤ s.m_minSize.height) :
    subdivideChildren s region bounds bounds = [] := by
  unfold subdivideChildren
  simp only [QRect.top, QRect.bottom, QRect.left, QRect.right, ge_iff_le]
  rw [if_neg (by omega), if_neg (by omega), if_neg (by omega), if_neg (by omega)]
  rfl

theorem BlackInv_next (img : BinaryImage) (hw : 0 < img.width) (hh : 0 < img.height)
    (hblack : ∀ x y, img.rect.Covers x y → img.pixel x y ≠ 0)
    (s : MaxWhitespaceFinder) (hs : BlackInv img s) (mode : ObstacleMode) (n : Int) :
    (s.next mode n).1 = QRect.null ∧ BlackInv img (s.next mode n).2 := by
  have hsum : (IntegralImage.mk img).sum img.rect ≠ 0 := by
    rw [IntegralImage.sum_ne_zero_iff]
    refine ⟨0, 0, ?_, hblack 0 0 ?_⟩ <;>
      simp only [BinaryImage.rect, QRect.ofXYWH, QRect.Covers] <;> omega
  have htop : ∀ u t, BlackInv img u → PriorityStorage.top u.m_queuedRegions = some t →
      t = Region.new 0 img.rect ∧ u.popTop.m_queuedRegions = [] ∧
      (t.addNewObstacles u.m_newObstacles).m_obstacles = [] := by
    intro u t hu ht
    rcases hu.2.2.2.2 with hq | hq
    · rw [hq] at ht
      simp [PriorityStorage.top] at ht
    · rw [hq] at ht
      simp only [PriorityStorage.top, Option.some.injEq] at ht
      subst ht
      refine ⟨rfl, ?_, ?_⟩
      · unfold popTop
        simp only
        rw [hq]
        exact PriorityStorage.pop_singleton _
      · rw [hu.2.2.2.1]
        simp [Region.addNewObstacles, Region.new]
  refine next_induction mode (BlackInv img) (fun r u => r = QRect.null ∧ BlackInv img u)
    ?_ ?_ ?_ ?_ n s hs
  · intro u hu
    exact ⟨rfl, hu⟩
  · intro u t hu ht hne
    exact absurd (htop u t hu ht).2.2 hne
  · intro u t hu ht _ _
    obtain ⟨rfl, hq, _⟩ := htop u t hu ht
    have hii : u.popTop.m_integralImg = ⟨img⟩ := hu.1
    have hall : (IntegralImage.mk img).AllBlack img.rect := hblack
    have hpivot : extendBlackPixelToBlackBox u.popTop.m_integralImg
        (findBlackPixelCloseToCenter u.popTop.m_integralImg img.rect) img.rect = img.rect := by
      rw [hii]
      exact extendBlackPixelToBlackBox_of_allBlack _ _ _
        (by simp only [BinaryImage.rect, QRect.ofXYWH]; omega)
        (by simp only [BinaryImage.rect, QRect.ofXYWH]; omega) hall
    rw [subdivideUsingRaster_eq]
    refine ⟨hu.1, hu.2.1, hu.2.2.1, hu.2.2.2.1, Or.inl ?_⟩
    show u.popTop.m_queuedRegions ++ subdivideChildren u.popTop _ img.rect
      (extendBlackPixelToBlackBox u.popTop.m_integralImg
        (findBlackPixelCloseToCenter u.popTop.m_integralImg img.rect) img.rect) = []
    rw [hpivot, hq, subdivideChildren_whole u.popTop _ _ hu.2.1 hu.2.2.1]
    rfl
  · intro u t hu ht _ hz
    obtain ⟨rfl, _, _⟩ := htop u t hu ht
    rw [hu.1] at hz
    exact absurd hz hsum

/-- C14, as amended (all-foreground raster): for every non-empty raster in
which every pixel is foreground and every `min_size >= (1, 1)`, with no
obstacles, every call of `next` (any mode, any budget) returns the null
rectangle. -/
theorem all_foreground_no_result (img : BinaryImage) (min_size : QSize)
    (calls : List (ObstacleMode × Int))
    (hw : 0 < img.width) (hh : 0 < img.height)
    (hblack : ∀ x y, img.rect.Covers x y → img.pixel x y ≠ 0)
    (hmw : 1 ≤ min_size.width) (hmh : 1 ≤ min_size.height) :
    ∀ r ∈ (runCalls (MaxWhitespaceFinder.new img min_size)
      (calls.map fun p => Call.next p.1 p.2)).2, r = QRect.null := by
  have key : ∀ (l : List (ObstacleMode × Int)) (s : MaxWhitespaceFinder), BlackInv img s →
      ∀ r ∈ (runCalls s (l.map fun p => Call.next p.1 p.2)).2, r = QRect.null := by
    intro l
    induction l with
    | nil => intro s _ r hr; simp [runCalls] at hr
    | cons p rest ih =>
      intro s hs r hr
      simp only [List.map_cons, runCalls, List.mem_cons] at hr
      have h1 := BlackInv_next img hw hh hblack s hs p.1 p.2
      rcases hr with hr | hr
      · rw [hr]; exact h1.1
      · exact ih _ h1.2 r hr
  exact key calls _ ⟨rfl, hmw, hmh, rfl, Or.inr rfl⟩

theorem all_foreground_no_result_witness :
    ((0 < blackPixelImage.width ∧ 0 < blackPixelImage.height) ∧
      (∀ x y, blackPixelImage.rect.Covers x y → blackPixelImage.pixel x y ≠ 0) ∧
      (1 : Int) ≤ 1 ∧ (1 : Int) ≤ 1) ∧
    ∀ r ∈ (runCalls (MaxWhitespaceFinder.new blackPixelImage ⟨1, 1⟩)
      ([(ObstacleMode.AUTO_OBSTACLES, (1000 : Int)), (ObstacleMode.MANUAL_OBSTACLES, 5)].map
        fun p => Call.next p.1 p.2)).2, r = QRect.null :=
  have hb : ∀ x y, blackPixelImage.rect.Covers x y → blackPixelImage.pixel x y ≠ 0 := by
    intro x y h
    have e : x = 0 ∧ y = 0 := by
      simp only [BinaryImage.rect, QRect.ofXYWH, QRect.Covers, blackPixelImage] at h
      omega
    rw [e.1, e.2]
    decide
  ⟨⟨by decide, hb, by decide, by decide⟩,
    all_foreground_no_result blackPixelImage ⟨1, 1⟩
      [(ObstacleMode.AUTO_OBSTACLES, 1000), (ObstacleMode.MANUAL_OBSTACLES, 5)]
      (by decide) (by decide) hb (by decide) (by decide)⟩

/-- C14, counterexample to the claim as stated (every `min_size`): on the 1 x 1
raster whose pixel is foreground, with `min_size = (0, 0)`, the first call of
`next` returns `QRect(0, 0, 1, 0)`, which is not the null rectangle: the pivot
is the whole raster and `subdivide` still pushes the four children of height or
width 0. -/
theorem all_foreground_min_zero_result :
    (∀ x y, blackPixelImage.rect.Covers x y → blackPixelImage.pixel x y ≠ 0) ∧
    ((MaxWhitespaceFinder.new blackPixelImage ⟨0, 0⟩).next
      ObstacleMode.AUTO_OBSTACLES 1000).1 = QRect.ofXYWH 0 0 1 0 ∧
    (QRect.ofXYWH 0 0 1 0).isNull = false ∧ QRect.ofXYWH 0 0 1 0 ≠ QRect.null := by
  refine ⟨?_, by decide, by decide, by decide⟩
  intro x y h
  have e : x = 0 ∧ y = 0 := by
    simp only [BinaryImage.rect, QRect.ofXYWH, QRect.Covers, blackPixelImage] at h
    omega
  rw [e.1, e.2]
  decide

/-! ## The depth of the strip recursion -/

set_option maxHeartbeats 4000000 in
theorem findBlackPixelCloseToCenterRec_depth (ii : IntegralImage) (d : Nat) :
    ∀ (e : Nat) (r : QRect), r.Valid → ii.sum r ≠ 0 →
      (2 ≤ d ∨ (1 ≤ d ∧ (r.x1 = r.x2 ∨ r.y1 = r.y2))) →
      (2 ≤ e ∨ (1 ≤ e ∧ (r.x1 = r.x2 ∨ r.y1 = r.y2))) →
      findBlackPixelCloseToCenterRec ii d r = findBlackPixelCloseToCenterRec ii e r := by
  induction d with
  | zero => intro e r _ _ hd; omega
  | succ d ih =>
    intro e r hv hs hd he
    cases e with
    | zero => omega
    | succ e =>
    unfold findBlackPixelCloseToCenterRec
    simp only
    have hc := center_covers r hv
    by_cases c0 : ii.sum (QRect.ofXYWH r.center.x r.center.y 1 1) ≠ 0
    · simp only [if_pos c0]
    · simp only [if_neg c0]
      have c0 : ii.sum (QRect.ofXYWH r.center.x r.center.y 1 1) = 0 := not_not.mp c0
      have L := findLoop_spec ii (bisectBudget r (QRect.ofXYWH r.center.x r.center.y 1 1)) r
        (QRect.ofXYWH r.center.x r.center.y 1 1)
        (by simp only [QRect.Inside, QRect.ofXYWH, QRect.Covers] at hc ⊢; omega)
        (by simp only [QRect.Valid, QRect.ofXYWH]; omega) hs c0 (le_refl _)
      generalize findLoop ii (bisectBudget r (QRect.ofXYWH r.center.x r.center.y 1 1)) r
        (QRect.ofXYWH r.center.x r.center.y 1 1) = lp at L ⊢
      obtain ⟨outer, inner⟩ := lp
      simp only at L ⊢
      obtain ⟨l1, l2, l3, l4, l5, l6, l7⟩ := L
      obtain ⟨px, py, hp, hblack⟩ := (IntegralImage.sum_ne_zero_iff _ _).mp l3
      have hnotin : ¬ inner.Covers px py :=
        fun h => hblack ((IntegralImage.sum_eq_zero_iff _ _).mp l4 px py h)
      have hL : ii.sum (outer.setRight outer.x1) ≠ 0 ∨
          ¬ (outer.x1 ≤ px ∧ px ≤ outer.x1 ∧ outer.y1 ≤ py ∧ py ≤ outer.y2) := by
        by_cases c : ii.sum (outer.setRight outer.x1) = 0
        · exact Or.inr fun h => hblack ((IntegralImage.sum_eq_zero_iff _ _).mp c px py h)
        · exact Or.inl c
      have hR : ii.sum (outer.setLeft outer.x2) ≠ 0 ∨
          ¬ (outer.x2 ≤ px ∧ px ≤ outer.x2 ∧ outer.y1 ≤ py ∧ py ≤ outer.y2) := by
        by_cases c : ii.sum (outer.setLeft outer.x2) = 0
        · exact Or.inr fun h => hblack ((IntegralImage.sum_eq_zero_iff _ _).mp c px py h)
        · exact Or.inl c
      have hT : ii.sum (outer.setBottom outer.y1) ≠ 0 ∨
          ¬ (outer.x1 ≤ px ∧ px ≤ outer.x2 ∧ outer.y1 ≤ py ∧ py ≤ outer.y1) := by
        by_cases c : ii.sum (outer.setBottom outer.y1) = 0
        · exact Or.inr fun h => hblack ((IntegralImage.sum_eq_zero_iff _ _).mp c px py h)
        · exact Or.inl c
      have hB : (outer.x1 ≤ px ∧ px ≤ outer.x2 ∧ outer.y2 ≤ py ∧ py ≤ outer.y2) →
          ii.sum (outer.setTop outer.y2) ≠ 0 :=
        fun h => (IntegralImage.sum_ne_zero_iff _ _).mpr ⟨px, py, h, hblack⟩
      simp only [QRect.Inside, QRect.Valid, QRect.Covers, QRect.width,
        QRect.height] at l1 l2 l5 l6 l7 hp hnotin hv
      simp only [QRect.left, QRect.right, QRect.top, QRect.bottom, QRect.width, QRect.height,
        QRect.topLeft, QRect.topRight, QRect.bottomLeft]
      have pos : (px = outer.x1 ∧ outer.x1 ≠ inner.x1) ∨ (px = outer.x2 ∧ outer.x2 ≠ inner.x2) ∨
          (py = outer.y1 ∧ outer.y1 ≠ inner.y1) ∨ (py = outer.y2 ∧ outer.y2 ≠ inner.y2) := by
        clear hL hR hT hB hd he ih hv l5
        omega
      have thinx : r.x1 = r.x2 →
          outer.x1 = inner.x1 ∧ outer.x2 = inner.x2 ∧ outer.x1 = outer.x2 := by
        clear hL hR hT hB hd he ih pos hnotin hp
        omega
      have thiny : r.y1 = r.y2 →
          outer.y1 = inner.y1 ∧ outer.y2 = inner.y2 ∧ outer.y1 = outer.y2 := by
        clear hL hR hT hB hd he ih pos hnotin hp
        omega
      by_cases h1 : outer.x1 ≠ inner.x1 ∧ outer.y2 - outer.y1 + 1 = 1
      · rw [if_pos h1, if_pos h1]
      rw [if_neg h1, if_neg h1]
      by_cases h3 : outer.x1 ≠ inner.x1 ∧ ii.sum (outer.setRight outer.x1) ≠ 0
      · rw [if_pos h3, if_pos h3]
        have hnt : ¬ (r.x1 = r.x2 ∨ r.y1 = r.y2) := by
          clear hL hR hT hB ih pos hnotin hp l5 hv hd he
          omega
        exact ih e (outer.setRight outer.x1)
          (by simp only [QRect.Valid, QRect.setRight]; omega) h3.2
          (Or.inr ⟨by rcases hd with h | ⟨_, h⟩; omega; exact absurd h hnt, Or.inl rfl⟩)
          (Or.inr ⟨by rcases he with h | ⟨_, h⟩; omega; exact absurd h hnt, Or.inl rfl⟩)
      rw [if_neg h3, if_neg h3]
      by_cases h4 : outer.x2 ≠ inner.x2 ∧ outer.y2 - outer.y1 + 1 = 1
      · rw [if_pos h4, if_pos h4]
      rw [if_neg h4, if_neg h4]
      by_cases h6 : outer.x2 ≠ inner.x2 ∧ ii.sum (outer.setLeft outer.x2) ≠ 0
      · rw [if_pos h6, if_pos h6]
        have hnt : ¬ (r.x1 = r.x2 ∨ r.y1 = r.y2) := by
          clear hL hR hT hB ih pos hnotin hp l5 hv hd he h1 h3
          omega
        exact ih e (outer.setLeft outer.x2)
          (by simp only [QRect.Valid, QRect.setLeft]; omega) h6.2
          (Or.inr ⟨by rcases hd with h | ⟨_, h⟩; omega; exact absurd h hnt, Or.inl rfl⟩)
          (Or.inr ⟨by rcases he with h | ⟨_, h⟩; omega; exact absurd h hnt, Or.inl rfl⟩)
      rw [if_neg h6, if_neg h6]
      by_cases h7 : outer.y1 ≠ inner.y1 ∧ outer.x2 - outer.x1 + 1 = 1
      · rw [if_pos h7, if_pos h7]
      rw [if_neg h7, if_neg h7]
      by_cases h9 : outer.y1 ≠ inner.y1 ∧ ii.sum (outer.setBottom outer.y1) ≠ 0
      · rw [if_pos h9, if_pos h9]
        have hnt : ¬ (r.x1 = r.x2 ∨ r.y1 = r.y2) := by
          clear hL hR hT hB ih pos hnotin hp l5 hv hd he h1 h3 h4 h6
          omega
        exact ih e (outer.setBottom outer.y1)
          (by simp only [QRect.Valid, QRect.setBottom]; omega) h9.2
          (Or.inr ⟨by rcases hd with h | ⟨_, h⟩; omega; exact absurd h hnt, Or.inr rfl⟩)
          (Or.inr ⟨by rcases he with h | ⟨_, h⟩; omega; exact absurd h hnt, Or.inr rfl⟩)
      rw [if_neg h9, if_neg h9]
      by_cases h10 : outer.x2 - outer.x1 + 1 = 1
      · rw [if_pos h10, if_pos h10]
      rw [if_neg h10, if_neg h10]
      have hbot : py = outer.y2 := by
        rcases pos with ⟨e, n⟩ | ⟨e, n⟩ | ⟨e, n⟩ | ⟨e, n⟩
        · exfalso
          clear hR hT hB hd he ih thinx thiny l5 hv h1 h4 h6 h7 h9 h10 hnotin l1 l2 l6 l7
          omega
        · exfalso
          clear hL hT hB hd he ih thinx thiny l5 hv h1 h3 h4 h7 h9 h10 hnotin l1 l2 l6 l7
          omega
        · exfalso
          clear hL hR hB hd he ih thinx thiny l5 hv h1 h3 h4 h6 h7 h10 hnotin l1 l2 l6 l7
          omega
        · exact e
      have hnt : ¬ (r.x1 = r.x2 ∨ r.y1 = r.y2) := by
        rintro (h | h)
        · clear hL hR hT hB ih pos hnotin hp l5 hv h1 h3 h4 h6 h7 h9 hd he
          omega
        · have t := thiny h
          rcases pos with ⟨e, n⟩ | ⟨e, n⟩ | ⟨e, n⟩ | ⟨e, n⟩
          · clear hR hT hB ih thinx thiny l5 hv h4 h6 h7 h9 h10 hnotin hd he
            omega
          · clear hL hT hB ih thinx thiny l5 hv h1 h3 h7 h9 h10 hnotin hd he
            omega
          · omega
          · omega
      have hsum : ii.sum (outer.setTop outer.y2) ≠ 0 := hB (by omega)
      exact ih e (outer.setTop outer.y2)
        (by simp only [QRect.Valid, QRect.setTop]; omega) hsum
        (Or.inr ⟨by rcases hd with h | ⟨_, h⟩; omega; exact absurd h hnt, Or.inr rfl⟩)
        (Or.inr ⟨by rcases he with h | ⟨_, h⟩; omega; exact absurd h hnt, Or.inr rfl⟩)

/-! ## Contracts of the two raster searches -/

/-- C15: for a rectangle `r` inside the raster whose sum is non-zero,
`findBlackPixelCloseToCenter` returns a point that lies in `r` and is a
foreground pixel of the raster; the recursion of the source never needs more
than the two levels the model gives it, as every larger depth returns the same
point. -/
theorem black_pixel_localization (ii : IntegralImage) (r : QRect)
    (_hin : r.Inside ii.img.rect) (hs : ii.sum r ≠ 0) :
    r.Covers (findBlackPixelCloseToCenter ii r).x (findBlackPixelCloseToCenter ii r).y ∧
    ii.img.pixel (findBlackPixelCloseToCenter ii r).x (findBlackPixelCloseToCenter ii r).y ≠ 0 ∧
    ∀ d, 2 ≤ d → findBlackPixelCloseToCenterRec ii d r = findBlackPixelCloseToCenter ii r := by
  have hv := valid_of_sum_ne_zero ii r hs
  have h := findBlackPixelCloseToCenter_spec ii r hv hs
  exact ⟨h.1, h.2, fun d hd =>
    findBlackPixelCloseToCenterRec_depth ii d 2 r hv hs (Or.inl hd) (Or.inl (le_refl 2))⟩

theorem black_pixel_localization_witness :
    (QRect.ofXYWH 0 0 10 10).Inside (IntegralImage.mk blobImage).img.rect ∧
    (IntegralImage.mk blobImage).sum (QRect.ofXYWH 0 0 10 10) ≠ 0 ∧
    (QRect.ofXYWH 0 0 10 10).Covers
      (findBlackPixelCloseToCenter ⟨blobImage⟩ (QRect.ofXYWH 0 0 10 10)).x
      (findBlackPixelCloseToCenter ⟨blobImage⟩ (QRect.ofXYWH 0 0 10 10)).y ∧
    blobImage.pixel
      (findBlackPixelCloseToCenter ⟨blobImage⟩ (QRect.ofXYWH 0 0 10 10)).x
      (findBlackPixelCloseToCenter ⟨blobImage⟩ (QRect.ofXYWH 0 0 10 10)).y ≠ 0 :=
  ⟨by decide, by decide,
    (black_pixel_localization ⟨blobImage⟩ (QRect.ofXYWH 0 0 10 10) (by decide) (by decide)).1,
    (black_pixel_localization ⟨blobImage⟩ (QRect.ofXYWH 0 0 10 10) (by decide) (by decide)).2.1⟩

theorem extendLoop_outer_sum (ii : IntegralImage) (budget : Nat) :
    ∀ (outer inner : QRect), (ii.sum outer : Int) ≠ outer.width * outer.height →
      (ii.sum (extendLoop ii budget outer inner).1 : Int) ≠
        (extendLoop ii budget outer inner).1.width * (extendLoop ii budget outer inner).1.height := by
  induction budget with
  | zero => intro outer inner ho; exact ho
  | succ budget ih =>
    intro outer inner ho
    unfold extendLoop
    simp only
    split_ifs with c1 c2
    · exact ho
    · exact ih outer _ ho
    · exact ih _ inner c2

/-- C17 (counterexample): on the 10 x 10 raster whose foreground is the 2 x 2
block at (4,4), `extendBlackPixelToBlackBox` called with the foreground pixel
(5,5) and the whole raster as bounds returns the single pixel (5,5), although
the block (4,4,2,2) strictly contains it, lies inside the bounds and is
entirely foreground. -/
theorem black_box_not_maximal :
    (QRect.ofXYWH 0 0 10 10).Inside blobImage.rect ∧
    (QRect.ofXYWH 0 0 10 10).Covers 5 5 ∧ blobImage.pixel 5 5 ≠ 0 ∧
    extendBlackPixelToBlackBox ⟨blobImage⟩ ⟨5, 5⟩ (QRect.ofXYWH 0 0 10 10) =
      QRect.ofXYWH 5 5 1 1 ∧
    (QRect.ofXYWH 5 5 1 1).Inside (QRect.ofXYWH 4 4 2 2) ∧
    QRect.ofXYWH 5 5 1 1 ≠ QRect.ofXYWH 4 4 2 2 ∧
    (QRect.ofXYWH 4 4 2 2).Inside (QRect.ofXYWH 0 0 10 10) ∧
    (∀ x y, (QRect.ofXYWH 4 4 2 2).Covers x y → blobImage.pixel x y ≠ 0) :=
  ⟨by decide, by decide, by decide, by decide, by decide, by decide, by decide,
    IntegralImage.allBlack_of_sum_eq_area ⟨blobImage⟩ (QRect.ofXYWH 4 4 2 2) (by decide)
      (by decide)⟩

/-- C17 (amended): for a rectangle `bounds` inside the raster and a foreground
pixel `p` of it, `extendBlackPixelToBlackBox` returns `bounds` itself when every
pixel of `bounds` is foreground; otherwise the result `R` is enclosed by a
rectangle `O` inside `bounds`, at most one column wider and one row higher than
`R`, that holds a background pixel. -/
theorem black_box_near_maximal (ii : IntegralImage) (pixel : QPoint) (bounds : QRect)
    (_hin : bounds.Inside ii.img.rect)
    (hc : bounds.Covers pixel.x pixel.y) (hp : ii.img.pixel pixel.x pixel.y ≠ 0) :
    ((∀ x y, bounds.Covers x y → ii.img.pixel x y ≠ 0) →
      extendBlackPixelToBlackBox ii pixel bounds = bounds) ∧
    (¬ (∀ x y, bounds.Covers x y → ii.img.pixel x y ≠ 0) →
      ∃ O : QRect, (extendBlackPixelToBlackBox ii pixel bounds).Inside O ∧ O.Inside bounds ∧
        O.width - (extendBlackPixelToBlackBox ii pixel bounds).width ≤ 1 ∧
        O.height - (extendBlackPixelToBlackBox ii pixel bounds).height ≤ 1 ∧
        ∃ x y, O.Covers x y ∧ ii.img.pixel x y = 0) := by
  have hbv : bounds.Valid := by
    simp only [QRect.Covers] at hc
    unfold QRect.Valid
    omega
  refine ⟨fun h => extendBlackPixelToBlackBox_of_allBlack ii pixel bounds
    (by have := hbv.1; omega) (by have := hbv.2; omega) h, fun hnb => ?_⟩
  have c : ¬ (ii.sum bounds : Int) = bounds.width * bounds.height :=
    fun c => hnb (IntegralImage.allBlack_of_sum_eq_area ii _ hbv c)
  unfold extendBlackPixelToBlackBox
  simp only
  rw [if_neg c]
  have L := extendLoop_spec ii (bisectBudget bounds (QRect.ofXYWH pixel.x pixel.y 1 1)) bounds
    (QRect.ofXYWH pixel.x pixel.y 1 1)
    (by simp only [QRect.Inside, QRect.ofXYWH, QRect.Covers] at hc ⊢; omega)
    (by simp only [QRect.Valid, QRect.ofXYWH]; omega)
    (by
      intro x y hxy
      have e : x = pixel.x ∧ y = pixel.y := by
        simp only [QRect.Covers, QRect.ofXYWH] at hxy
        omega
      rw [e.1, e.2]; exact hp)
    (le_refl _)
  have S := extendLoop_outer_sum ii (bisectBudget bounds (QRect.ofXYWH pixel.x pixel.y 1 1))
    bounds (QRect.ofXYWH pixel.x pixel.y 1 1) c
  generalize extendLoop ii (bisectBudget bounds (QRect.ofXYWH pixel.x pixel.y 1 1)) bounds
    (QRect.ofXYWH pixel.x pixel.y 1 1) = lp at L S ⊢
  obtain ⟨b1, _, _, b4, b5, b6, b7⟩ := L
  refine ⟨lp.1, b4, b5, b6, b7, ?_⟩
  by_contra hne
  push_neg at hne
  refine S (IntegralImage.sum_eq_area_of_allBlack ii lp.1 ?_ ?_ hne) <;>
    simp only [QRect.Valid, QRect.Inside] at b1 b4 <;> omega

theorem black_box_near_maximal_witness :
    (QRect.ofXYWH 0 0 10 10).Inside (IntegralImage.mk blobImage).img.rect ∧
    (QRect.ofXYWH 0 0 10 10).Covers 5 5 ∧ blobImage.pixel 5 5 ≠ 0 ∧
    ¬ (∀ x y, (QRect.ofXYWH 0 0 10 10).Covers x y → blobImage.pixel x y ≠ 0) ∧
    ∃ O : QRect,
      (extendBlackPixelToBlackBox ⟨blobImage⟩ ⟨5, 5⟩ (QRect.ofXYWH 0 0 10 10)).Inside O ∧
      O.Inside (QRect.ofXYWH 0 0 10 10) ∧
      O.width - (extendBlackPixelToBlackBox ⟨blobImage⟩ ⟨5, 5⟩ (QRect.ofXYWH 0 0 10 10)).width
        ≤ 1 ∧
      O.height - (extendBlackPixelToBlackBox ⟨blobImage⟩ ⟨5, 5⟩ (QRect.ofXYWH 0 0 10 10)).height
        ≤ 1 ∧
      ∃ x y, O.Covers x y ∧ blobImage.pixel x y = 0 :=
  have hnb : ¬ (∀ x y, (QRect.ofXYWH 0 0 10 10).Covers x y → blobImage.pixel x y ≠ 0) :=
    fun h => h 0 0 (by decide) (by decide)
  ⟨by decide, by decide, by decide, hnb,
    (black_box_near_maximal ⟨blobImage⟩ ⟨5, 5⟩ (QRect.ofXYWH 0 0 10 10)
      (by decide) (by decide) (by decide)).2 hnb⟩

/-! ## The children of a subdivision -/

theorem mem_subdivideChildren_iff {s : MaxWhitespaceFinder} {region : Region}
    {bounds pivot : QRect} {c : Region} :
    c ∈ subdivideChildren s region bounds pivot ↔
    (s.m_minSize.height ≤ pivot.y1 - bounds.y1 ∧
        c = s.newRegion region (bounds.setBottom (pivot.y1 - 1))) ∨
    (s.m_minSize.height ≤ bounds.y2 - pivot.y2 ∧
        c = s.newRegion region (bounds.setTop (pivot.y2 + 1))) ∨
    (s.m_minSize.width ≤ pivot.x1 - bounds.x1 ∧
        c = s.newRegion region (bounds.setRight (pivot.x1 - 1))) ∨
    (s.m_minSize.width ≤ bounds.x2 - pivot.x2 ∧
        c = s.newRegion region (bounds.setLeft (pivot.x2 + 1))) := by
  refine ⟨mem_subdivideChildren, fun h => ?_⟩
  unfold subdivideChildren
  simp only [QRect.top, QRect.bottom, QRect.left, QRect.right, ge_iff_le, List.mem_append]
  rcases h with ⟨k, rfl⟩ | ⟨k, rfl⟩ | ⟨k, rfl⟩ | ⟨k, rfl⟩
  · left; left; left
    rw [if_pos k]; exact List.mem_singleton.mpr rfl
  · left; left; right
    rw [if_pos k]; exact List.mem_singleton.mpr rfl
  · left; right
    rw [if_pos k]; exact List.mem_singleton.mpr rfl
  · right
    rw [if_pos k]; exact List.mem_singleton.mpr rfl

theorem QRect.coords_of_eq {a b : QRect} (h : a = b) :
    a.x1 = b.x1 ∧ a.y1 = b.y1 ∧ a.x2 = b.x2 ∧ a.y2 = b.y2 := by
  subst h
  exact ⟨rfl, rfl, rfl, rfl⟩

theorem child_side_iff (s : MaxWhitespaceFinder) (region : Region) (bounds pivot : QRect)
    (hpv : pivot.Valid) (hpi : pivot.Inside bounds) :
    ((∃ c ∈ subdivideChildren s region bounds pivot,
        c.m_bounds = bounds.setBottom (pivot.top - 1)) ↔
      s.m_minSize.height ≤ pivot.top - bounds.top) ∧
    ((∃ c ∈ subdivideChildren s region bounds pivot,
        c.m_bounds = bounds.setTop (pivot.bottom + 1)) ↔
      s.m_minSize.height ≤ bounds.bottom - pivot.bottom) ∧
    ((∃ c ∈ subdivideChildren s region bounds pivot,
        c.m_bounds = bounds.setRight (pivot.left - 1)) ↔
      s.m_minSize.width ≤ pivot.left - bounds.left) ∧
    ((∃ c ∈ subdivideChildren s region bounds pivot,
        c.m_bounds = bounds.setLeft (pivot.right + 1)) ↔
      s.m_minSize.width ≤ bounds.right - pivot.right) := by
  simp only [QRect.Valid, QRect.Inside] at hpv hpi
  simp only [QRect.top, QRect.bottom, QRect.left, QRect.right]
  refine ⟨⟨?_, fun k => ⟨_, mem_subdivideChildren_iff.mpr (Or.inl ⟨k, rfl⟩), rfl⟩⟩,
    ⟨?_, fun k => ⟨_, mem_subdivideChildren_iff.mpr (Or.inr (Or.inl ⟨k, rfl⟩)), rfl⟩⟩,
    ⟨?_, fun k => ⟨_, mem_subdivideChildren_iff.mpr (Or.inr (Or.inr (Or.inl ⟨k, rfl⟩))), rfl⟩⟩,
    ⟨?_, fun k => ⟨_, mem_subdivideChildren_iff.mpr (Or.inr (Or.inr (Or.inr ⟨k, rfl⟩))), rfl⟩⟩⟩ <;>
  · rintro ⟨c, hc, e⟩
    rcases mem_subdivideChildren hc with ⟨k, rfl⟩ | ⟨k, rfl⟩ | ⟨k, rfl⟩ | ⟨k, rfl⟩ <;>
    · have q := QRect.coords_of_eq e
      simp only [newRegion_bounds, QRect.setBottom, QRect.setTop, QRect.setLeft,
        QRect.setRight] at q
      omega

/-- C19: for `min_size >= (1, 1)` and a non-empty pivot inside `bounds`,
`subdivide` appends to the frontier children whose bounds are non-empty, lie
inside `bounds`, lie entirely above, below, left of or right of the pivot (so
share no pixel with it) and have a strictly smaller area than `bounds`; the
child of a side is there exactly when the gap between the pivot and that edge
of `bounds` is at least the minimum height (above, below) or the minimum width
(left, right). -/
theorem subdivide_children_proper (s : MaxWhitespaceFinder) (region : Region)
    (bounds pivot : QRect) (hw : 1 ≤ s.m_minSize.width) (hh : 1 ≤ s.m_minSize.height)
    (hpv : pivot.Valid) (hpi : pivot.Inside bounds) :
    (s.subdivide region bounds pivot).m_queuedRegions =
      s.m_queuedRegions ++ subdivideChildren s region bounds pivot ∧
    (∀ c ∈ subdivideChildren s region bounds pivot,
      c.m_bounds.Valid ∧ c.m_bounds.Inside bounds ∧
      (c.m_bounds.y2 < pivot.y1 ∨ pivot.y2 < c.m_bounds.y1 ∨
        c.m_bounds.x2 < pivot.x1 ∨ pivot.x2 < c.m_bounds.x1) ∧
      ¬ c.m_bounds.Meets pivot ∧ c.m_bounds.area < bounds.area) ∧
    ((∃ c ∈ subdivideChildren s region bounds pivot,
        c.m_bounds = bounds.setBottom (pivot.top - 1)) ↔
      s.m_minSize.height ≤ pivot.top - bounds.top) ∧
    ((∃ c ∈ subdivideChildren s region bounds pivot,
        c.m_bounds = bounds.setTop (pivot.bottom + 1)) ↔
      s.m_minSize.height ≤ bounds.bottom - pivot.bottom) ∧
    ((∃ c ∈ subdivideChildren s region bounds pivot,
        c.m_bounds = bounds.setRight (pivot.left - 1)) ↔
      s.m_minSize.width ≤ pivot.left - bounds.left) ∧
    ((∃ c ∈ subdivideChildren s region bounds pivot,
        c.m_bounds = bounds.setLeft (pivot.right + 1)) ↔
      s.m_minSize.width ≤ bounds.right - pivot.right) := by
  refine ⟨by rw [subdivide_eq], fun c hc => ?_, child_side_iff s region bounds pivot hpv hpi⟩
  have hside : c.m_bounds.Valid ∧ c.m_bounds.Inside bounds ∧
      (c.m_bounds.y2 < pivot.y1 ∨ pivot.y2 < c.m_bounds.y1 ∨
        c.m_bounds.x2 < pivot.x1 ∨ pivot.x2 < c.m_bounds.x1) ∧
      ((c.m_bounds.width < bounds.width ∧ c.m_bounds.height = bounds.height) ∨
        (c.m_bounds.width = bounds.width ∧ c.m_bounds.height < bounds.height)) := by
    simp only [QRect.Valid, QRect.Inside] at hpv hpi
    rcases mem_subdivideChildren hc with ⟨k, rfl⟩ | ⟨k, rfl⟩ | ⟨k, rfl⟩ | ⟨k, rfl⟩ <;>
      simp only [newRegion_bounds, QRect.setBottom, QRect.setTop, QRect.setLeft, QRect.setRight,
        QRect.Inside, QRect.Valid, QRect.width, QRect.height, true_and, and_true] <;> omega
  obtain ⟨hv, hi, hs, ha⟩ := hside
  refine ⟨hv, hi, hs, ?_, ?_⟩
  · rintro ⟨x, y, h1, h2⟩
    simp only [QRect.Covers] at h1 h2
    omega
  · have hcw : 0 < c.m_bounds.width := by unfold QRect.width; have := hv.1; omega
    have hch : 0 < c.m_bounds.height := by unfold QRect.height; have := hv.2; omega
    unfold QRect.area
    rcases ha with ⟨a, b⟩ | ⟨a, b⟩
    · rw [b]; exact mul_lt_mul_of_pos_right a (by omega)
    · rw [a]; exact mul_lt_mul_of_pos_left b (by omega)

theorem subdivide_children_proper_witness :
    (1 : Int) ≤ (new (whiteImage 10 10) ⟨1, 1⟩).m_minSize.width ∧
    (QRect.ofXYWH 4 4 2 2).Valid ∧ (QRect.ofXYWH 4 4 2 2).Inside (QRect.ofXYWH 0 0 10 10) ∧
    (((new (whiteImage 10 10) ⟨1, 1⟩).subdivide (Region.new 0 (QRect.ofXYWH 0 0 10 10))
        (QRect.ofXYWH 0 0 10 10) (QRect.ofXYWH 4 4 2 2)).m_queuedRegions.map fun c => c.m_bounds) =
      [QRect.ofXYWH 0 0 10 10, QRect.ofXYWH 0 0 10 4, QRect.ofXYWH 0 6 10 4,
        QRect.ofXYWH 0 0 4 10, QRect.ofXYWH 6 0 4 10] ∧
    ∀ c ∈ subdivideChildren (new (whiteImage 10 10) ⟨1, 1⟩)
        (Region.new 0 (QRect.ofXYWH 0 0 10 10)) (QRect.ofXYWH 0 0 10 10) (QRect.ofXYWH 4 4 2 2),
      c.m_bounds.area < (QRect.ofXYWH 0 0 10 10).area :=
  ⟨by decide, by decide, by decide, by decide, fun c hc =>
    ((subdivide_children_proper (new (whiteImage 10 10) ⟨1, 1⟩)
      (Region.new 0 (QRect.ofXYWH 0 0 10 10)) (QRect.ofXYWH 0 0 10 10) (QRect.ofXYWH 4 4 2 2)
      (by decide) (by decide) (by decide) (by decide)).2.1 c hc).2.2.2.2⟩

/-- C20: for `min_size >= (1, 1)` and a non-empty pivot inside `bounds`, every
rectangle `q` inside `bounds` that is at least `min_size` wide and high and
shares no pixel with the pivot lies inside the bounds of one of the children
that `subdivide` appends to the frontier; with `min_size = (1, 1)` the pixels
of `bounds` are exactly those of the pivot and of the children. -/
theorem subdivide_keeps_candidates (s : MaxWhitespaceFinder) (region : Region)
    (bounds pivot : QRect) (hw : 1 ≤ s.m_minSize.width) (hh : 1 ≤ s.m_minSize.height)
    (hpv : pivot.Valid) (hpi : pivot.Inside bounds) :
    (s.subdivide region bounds pivot).m_queuedRegions =
      s.m_queuedRegions ++ subdivideChildren s region bounds pivot ∧
    (∀ q : QRect, q.Inside bounds → s.m_minSize.width ≤ q.width →
      s.m_minSize.height ≤ q.height → ¬ q.Meets pivot →
      ∃ c ∈ subdivideChildren s region bounds pivot, q.Inside c.m_bounds) ∧
    (s.m_minSize.width = 1 → s.m_minSize.height = 1 →
      ∀ x y, bounds.Covers x y ↔
        (pivot.Covers x y ∨ ∃ c ∈ subdivideChildren s region bounds pivot,
          c.m_bounds.Covers x y)) := by
  have hcand : ∀ q : QRect, q.Inside bounds → s.m_minSize.width ≤ q.width →
      s.m_minSize.height ≤ q.height → ¬ q.Meets pivot →
      ∃ c ∈ subdivideChildren s region bounds pivot, q.Inside c.m_bounds := by
    intro q hqi hqw hqh hm
    have hqv : q.Valid := by
      unfold QRect.width at hqw
      unfold QRect.height at hqh
      unfold QRect.Valid
      omega
    exact child_covers_candidate s region bounds pivot hqv hqw hqh hqi hpv hm
  refine ⟨by rw [subdivide_eq], hcand, fun ew eh x y => ⟨fun hb => ?_, fun h => ?_⟩⟩
  · by_cases hp : pivot.Covers x y
    · exact Or.inl hp
    · right
      obtain ⟨c, hc, hin⟩ := hcand (QRect.ofXYWH x y 1 1)
        (by simp only [QRect.Inside, QRect.ofXYWH, QRect.Covers] at hb ⊢; omega)
        (by simp only [QRect.width, QRect.ofXYWH]; omega)
        (by simp only [QRect.height, QRect.ofXYWH]; omega)
        (by
          rintro ⟨a, b, h1, h2⟩
          apply hp
          simp only [QRect.Covers, QRect.ofXYWH] at h1 h2 ⊢
          omega)
      refine ⟨c, hc, ?_⟩
      simp only [QRect.Inside, QRect.ofXYWH, QRect.Covers] at hin ⊢
      omega
  · rcases h with hp | ⟨c, hc, hcov⟩
    · simp only [QRect.Inside, QRect.Covers] at hpi hp ⊢
      omega
    · simp only [QRect.Valid, QRect.Inside] at hpv hpi
      rcases mem_subdivideChildren hc with ⟨k, rfl⟩ | ⟨k, rfl⟩ | ⟨k, rfl⟩ | ⟨k, rfl⟩ <;>
        simp only [newRegion_bounds, QRect.setBottom, QRect.setTop, QRect.setLeft,
          QRect.setRight, QRect.Covers] at hcov ⊢ <;> omega

theorem subdivide_keeps_candidates_witness :
    (1 : Int) ≤ (new (whiteImage 10 10) ⟨1, 1⟩).m_minSize.width ∧
    (QRect.ofXYWH 4 4 2 2).Valid ∧ (QRect.ofXYWH 4 4 2 2).Inside (QRect.ofXYWH 0 0 10 10) ∧
    (QRect.ofXYWH 7 1 2 8).Inside (QRect.ofXYWH 0 0 10 10) ∧
    ∃ c ∈ subdivideChildren (new (whiteImage 10 10) ⟨1, 1⟩)
        (Region.new 0 (QRect.ofXYWH 0 0 10 10)) (QRect.ofXYWH 0 0 10 10) (QRect.ofXYWH 4 4 2 2),
      (QRect.ofXYWH 7 1 2 8).Inside c.m_bounds :=
  ⟨by decide, by decide, by decide, by decide,
    (subdivide_keeps_candidates (new (whiteImage 10 10) ⟨1, 1⟩)
      (Region.new 0 (QRect.ofXYWH 0 0 10 10)) (QRect.ofXYWH 0 0 10 10) (QRect.ofXYWH 4 4 2 2)
      (by decide) (by decide) (by decide) (by decide)).2.1 (QRect.ofXYWH 7 1 2 8)
      (by decide) (by decide) (by decide)
      (by
        rintro ⟨x, y, h1, h2⟩
        simp only [QRect.Covers, QRect.ofXYWH] at h1 h2
        omega)⟩

/-! ## Calls as runs of single iterations -/

theorem nextLoop_one_result (mode : ObstacleMode) (m : Nat) (s : MaxWhitespaceFinder) (k : Nat)
    (h : (nextLoop mode 1 s k).rect.isNull = false) :
    nextLoop mode (m + 1) s k = nextLoop mode 1 s k := by
  cases ht : PriorityStorage.top s.m_queuedRegions with
  | none =>
    rw [nextLoop_succ_none ht] at h
    have h : QRect.null.isNull = false := h
    exact absurd h (by decide)
  | some t =>
    by_cases c1 : (t.addNewObstacles s.m_newObstacles).m_obstacles = []
    · by_cases c2 : s.m_integralImg.sum t.m_bounds = 0
      · rw [nextLoop_succ_result ht c1 c2]
        exact (nextLoop_succ_result ht c1 c2).symm
      · rw [nextLoop_succ_raster ht c1 c2] at h
        have h : QRect.null.isNull = false := h
        exact absurd h (by decide)
    · rw [nextLoop_succ_obstacles ht c1] at h
      have h : QRect.null.isNull = false := h
      exact absurd h (by decide)

theorem unitRun_add (mode : ObstacleMode) (i j : Nat) :
    ∀ c, unitRun mode (i + j) c = unitRun mode j (unitRun mode i c) := by
  induction i with
  | zero => intro c; simp [unitRun]
  | succ i ih =>
    intro c
    have e : i + 1 + j = (i + j) + 1 := by omega
    rw [e]
    simp only [unitRun]
    exact ih _

theorem nextLoop_as_units (mode : ObstacleMode) (m : Nat) :
    ∀ (s : MaxWhitespaceFinder) (acc : List QRect), NullOnlyAlone s →
      ∃ j, unitRun mode j (s, acc) =
        ((nextLoop mode m s 0).state, acc ++ nonNull [(nextLoop mode m s 0).rect]) := by
  induction m with
  | zero =>
    intro s acc _
    refine ⟨0, ?_⟩
    simp [unitRun, nextLoop, nonNull, QRect.isNull, QRect.null]
  | succ m ih =>
    intro s acc hs
    have e1 : s.next mode 1 = ((nextLoop mode 1 s 0).rect, (nextLoop mode 1 s 0).state) := rfl
    cases hnull : (nextLoop mode 1 s 0).rect.isNull with
    | true =>
      have hs2 : NullOnlyAlone (nextLoop mode 1 s 0).state := NullOnlyAlone_next hs mode 1
      obtain ⟨j, hj⟩ := ih (nextLoop mode 1 s 0).state acc hs2
      have hr := nextLoop_resume mode 1 m s 0 0 0 hs hnull
      have e : m + 1 = 1 + m := by omega
      refine ⟨j + 1, ?_⟩
      rw [e, ← hr.1, ← hr.2, ← hj]
      simp only [unitRun, unitStep, e1, nonNull, List.filter, hnull, Bool.not_true,
        List.append_nil]
    | false =>
      refine ⟨1, ?_⟩
      rw [nextLoop_one_result mode m s 0 hnull]
      simp only [unitRun, unitStep, e1]

theorem runCalls_as_units (mode : ObstacleMode) (budgets : List Int) :
    ∀ (s : MaxWhitespaceFinder) (acc : List QRect), NullOnlyAlone s →
      ∃ j, unitRun mode j (s, acc) =
        ((runCalls s (budgets.map (Call.next mode))).1,
          acc ++ nonNull (runCalls s (budgets.map (Call.next mode))).2) := by
  induction budgets with
  | nil =>
    intro s acc _
    exact ⟨0, by simp [unitRun, runCalls, nonNull]⟩
  | cons n rest ih =>
    intro s acc hs
    obtain ⟨j1, h1⟩ := nextLoop_as_units mode n.toNat s acc hs
    have hs2 : NullOnlyAlone (s.next mode n).2 := NullOnlyAlone_next hs mode n
    obtain ⟨j2, h2⟩ := ih (s.next mode n).2 (acc ++ nonNull [(s.next mode n).1]) hs2
    refine ⟨j1 + j2, ?_⟩
    have h1 : unitRun mode j1 (s, acc) = ((s.next mode n).2, acc ++ nonNull [(s.next mode n).1]) :=
      h1
    rw [unitRun_add, h1, h2]
    simp only [List.map_cons, runCalls, nonNull, List.append_assoc, ← List.filter_append,
      List.singleton_append]

theorem unitStep_empty (mode : ObstacleMode) (c : MaxWhitespaceFinder × List QRect)
    (h : c.1.m_queuedRegions = []) : unitStep mode c = c := by
  have e : c.1.next mode 1 = (QRect.null, c.1) := by
    unfold MaxWhitespaceFinder.next nextCounted
    rw [nextLoop_empty mode _ c.1 0 h]
  unfold unitStep
  rw [e]
  simp [nonNull, QRect.isNull, QRect.null]

theorem unitRun_empty (mode : ObstacleMode) (j : Nat) (c : MaxWhitespaceFinder × List QRect)
    (h : c.1.m_queuedRegions = []) : unitRun mode j c = c := by
  induction j with
  | zero => rfl
  | succ j ih =>
    simp only [unitRun]
    rw [unitStep_empty mode c h]
    exact ih

theorem unitRun_bounded (mode : ObstacleMode) (N : Nat) (c : MaxWhitespaceFinder × List QRect)
    (hN : (unitRun mode N c).1.m_queuedRegions = []) (j : Nat) :
    ∃ i, i ≤ N ∧ unitRun mode j c = unitRun mode i c := by
  by_cases h : j ≤ N
  · exact ⟨j, h, rfl⟩
  · refine ⟨N, le_refl N, ?_⟩
    have e : j = N + (j - N) := by omega
    rw [e, unitRun_add]
    exact unitRun_empty mode _ _ hN

/-! ## The single-obstacle scenario -/

set_option maxRecDepth 100000 in
theorem single_obstacle_units (mode : ObstacleMode) (j : Nat) :
    (∀ r ∈ (unitRun mode j
        ((new (whiteImage 10 10) ⟨1, 1⟩).addObstacle (QRect.ofXYWH 4 4 2 2), [])).2,
      (r.x2 < 4 ∨ 5 < r.x1 ∨ r.y2 < 4 ∨ 5 < r.y1) ∧ r.Inside (QRect.ofXYWH 0 0 10 10)) ∧
    ((unitRun mode j
        ((new (whiteImage 10 10) ⟨1, 1⟩).addObstacle (QRect.ofXYWH 4 4 2 2), [])).1.m_queuedRegions
        = [] →
      ∀ x ∈ List.range 10, ∀ y ∈ List.range 10,
        (QRect.ofXYWH 4 4 2 2).Covers (x : Int) (y : Int) ∨
        ∃ r ∈ (unitRun mode j
          ((new (whiteImage 10 10) ⟨1, 1⟩).addObstacle (QRect.ofXYWH 4 4 2 2), [])).2,
          r.Covers (x : Int) (y : Int)) := by
  cases mode with
  | AUTO_OBSTACLES =>
    obtain ⟨i, hi, e⟩ := unitRun_bounded ObstacleMode.AUTO_OBSTACLES 9
      ((new (whiteImage 10 10) ⟨1, 1⟩).addObstacle (QRect.ofXYWH 4 4 2 2), []) (by decide) j
    rw [e]
    have all : ∀ i, i ≤ 9 →
        (∀ r ∈ (unitRun ObstacleMode.AUTO_OBSTACLES i
            ((new (whiteImage 10 10) ⟨1, 1⟩).addObstacle (QRect.ofXYWH 4 4 2 2), [])).2,
          (r.x2 < 4 ∨ 5 < r.x1 ∨ r.y2 < 4 ∨ 5 < r.y1) ∧ r.Inside (QRect.ofXYWH 0 0 10 10)) ∧
        ((unitRun ObstacleMode.AUTO_OBSTACLES i
            ((new (whiteImage 10 10) ⟨1, 1⟩).addObstacle (QRect.ofXYWH 4 4 2 2),
              [])).1.m_queuedRegions = [] →
          ∀ x ∈ List.range 10, ∀ y ∈ List.range 10,
            (QRect.ofXYWH 4 4 2 2).Covers (x : Int) (y : Int) ∨
            ∃ r ∈ (unitRun ObstacleMode.AUTO_OBSTACLES i
              ((new (whiteImage 10 10) ⟨1, 1⟩).addObstacle (QRect.ofXYWH 4 4 2 2), [])).2,
              r.Covers (x : Int) (y : Int)) := by
      decide
    exact all i hi
  | MANUAL_OBSTACLES =>
    obtain ⟨i, hi, e⟩ := unitRun_bounded ObstacleMode.MANUAL_OBSTACLES 5
      ((new (whiteImage 10 10) ⟨1, 1⟩).addObstacle (QRect.ofXYWH 4 4 2 2), []) (by decide) j
    rw [e]
    have all : ∀ i, i ≤ 5 →
        (∀ r ∈ (unitRun ObstacleMode.MANUAL_OBSTACLES i
            ((new (whiteImage 10 10) ⟨1, 1⟩).addObstacle (QRect.ofXYWH 4 4 2 2), [])).2,
          (r.x2 < 4 ∨ 5 < r.x1 ∨ r.y2 < 4 ∨ 5 < r.y1) ∧ r.Inside (QRect.ofXYWH 0 0 10 10)) ∧
        ((unitRun ObstacleMode.MANUAL_OBSTACLES i
            ((new (whiteImage 10 10) ⟨1, 1⟩).addObstacle (QRect.ofXYWH 4 4 2 2),
              [])).1.m_queuedRegions = [] →
          ∀ x ∈ List.range 10, ∀ y ∈ List.range 10,
            (QRect.ofXYWH 4 4 2 2).Covers (x : Int) (y : Int) ∨
            ∃ r ∈ (unitRun ObstacleMode.MANUAL_OBSTACLES i
              ((new (whiteImage 10 10) ⟨1, 1⟩).addObstacle (QRect.ofXYWH 4 4 2 2), [])).2,
              r.Covers (x : Int) (y : Int)) := by
      decide
    exact all i hi

theorem mem_nonNull {l : List QRect} {r : QRect} :
    r ∈ nonNull l ↔ r ∈ l ∧ r.isNull = false := by
  simp [nonNull, List.mem_filter]

/-- C13: on the 10 x 10 all-background raster with `min_size = (1, 1)`, after
`addObstacle(QRect(4, 4, 2, 2))`, whatever the mode and the budgets of the
`next` calls that follow, no non-null rectangle returned shares a pixel with
the obstacle; and once the frontier is empty, the pixels of the raster are
exactly those of the obstacle and of the non-null rectangles returned. -/
theorem single_obstacle_scenario (mode : ObstacleMode) (budgets : List Int) :
    (∀ r ∈ (runCalls (new (whiteImage 10 10) ⟨1, 1⟩)
        (Call.addObstacle (QRect.ofXYWH 4 4 2 2) :: budgets.map (Call.next mode))).2,
      r.isNull = false → ¬ r.Meets (QRect.ofXYWH 4 4 2 2)) ∧
    ((runCalls (new (whiteImage 10 10) ⟨1, 1⟩)
        (Call.addObstacle (QRect.ofXYWH 4 4 2 2) :: budgets.map (Call.next mode))).1.m_queuedRegions
        = [] →
      ∀ x y, (QRect.ofXYWH 0 0 10 10).Covers x y ↔
        ((QRect.ofXYWH 4 4 2 2).Covers x y ∨
          ∃ r ∈ (runCalls (new (whiteImage 10 10) ⟨1, 1⟩)
            (Call.addObstacle (QRect.ofXYWH 4 4 2 2) :: budgets.map (Call.next mode))).2,
            r.isNull = false ∧ r.Covers x y)) := by
  have e : runCalls (new (whiteImage 10 10) ⟨1, 1⟩)
      (Call.addObstacle (QRect.ofXYWH 4 4 2 2) :: budgets.map (Call.next mode)) =
      runCalls ((new (whiteImage 10 10) ⟨1, 1⟩).addObstacle (QRect.ofXYWH 4 4 2 2))
        (budgets.map (Call.next mode)) := rfl
  rw [e]
  have hs : NullOnlyAlone ((new (whiteImage 10 10) ⟨1, 1⟩).addObstacle (QRect.ofXYWH 4 4 2 2)) :=
    NullOnlyAlone_addObstacle (NullOnlyAlone_new _ _ (by decide) (by decide)) _
  obtain ⟨j, hj⟩ := runCalls_as_units mode budgets _ [] hs
  have hu := single_obstacle_units mode j
  rw [hj] at hu
  simp only [List.nil_append] at hu
  generalize runCalls ((new (whiteImage 10 10) ⟨1, 1⟩).addObstacle (QRect.ofXYWH 4 4 2 2))
    (budgets.map (Call.next mode)) = out at hu ⊢
  obtain ⟨h1, h2⟩ := hu
  refine ⟨fun r hr hn => ?_, fun hq x y => ⟨fun hc => ?_, fun h => ?_⟩⟩
  · have := (h1 r (mem_nonNull.mpr ⟨hr, hn⟩)).1
    rintro ⟨x, y, c1, c2⟩
    simp only [QRect.Covers, QRect.ofXYWH] at c1 c2
    omega
  · simp only [QRect.Covers, QRect.ofXYWH] at hc
    have hx : ((x.toNat : Nat) : Int) = x := Int.toNat_of_nonneg (by omega)
    have hy : ((y.toNat : Nat) : Int) = y := Int.toNat_of_nonneg (by omega)
    have := h2 hq x.toNat (List.mem_range.mpr (by omega)) y.toNat (List.mem_range.mpr (by omega))
    rw [hx, hy] at this
    rcases this with h | ⟨r, hr, hc⟩
    · exact Or.inl h
    · exact Or.inr ⟨r, (mem_nonNull.mp hr).1, (mem_nonNull.mp hr).2, hc⟩
  · rcases h with h | ⟨r, hr, hn, hc⟩
    · simp only [QRect.Covers, QRect.ofXYWH] at h ⊢
      omega
    · have := (h1 r (mem_nonNull.mpr ⟨hr, hn⟩)).2
      simp only [QRect.Covers, QRect.Inside, QRect.ofXYWH] at this hc ⊢
      omega

set_option maxRecDepth 100000 in
theorem single_obstacle_scenario_witness :
    (runCalls (new (whiteImage 10 10) ⟨1, 1⟩)
      (Call.addObstacle (QRect.ofXYWH 4 4 2 2) ::
        [1000, 1000, 1000, 1000, 1000].map
          (Call.next ObstacleMode.MANUAL_OBSTACLES))).1.m_queuedRegions = [] ∧
    (runCalls (new (whiteImage 10 10) ⟨1, 1⟩)
      (Call.addObstacle (QRect.ofXYWH 4 4 2 2) ::
        [1000, 1000, 1000, 1000, 1000].map (Call.next ObstacleMode.MANUAL_OBSTACLES))).2 =
      [QRect.ofXYWH 0 0 10 4, QRect.ofXYWH 0 6 10 4, QRect.ofXYWH 0 0 4 10,
        QRect.ofXYWH 6 0 4 10, QRect.null] ∧
    ∀ x y, (QRect.ofXYWH 0 0 10 10).Covers x y ↔
      ((QRect.ofXYWH 4 4 2 2).Covers x y ∨
        ∃ r ∈ (runCalls (new (whiteImage 10 10) ⟨1, 1⟩)
          (Call.addObstacle (QRect.ofXYWH 4 4 2 2) ::
            [1000, 1000, 1000, 1000, 1000].map (Call.next ObstacleMode.MANUAL_OBSTACLES))).2,
          r.isNull = false ∧ r.Covers x y) :=
  ⟨by decide, by decide,
    (single_obstacle_scenario ObstacleMode.MANUAL_OBSTACLES [1000, 1000, 1000, 1000, 1000]).2
      (by decide)⟩

/-! ## Pivot selection -/

theorem pivotStep_eq (center : QPoint) (best : QRect × Int) (o : QRect) :
    pivotStep center best o =
      if toInt32 (sqDist center o) ≤ best.2 then (o, toInt32 (sqDist center o)) else best := rfl

theorem pivot_fold_split (center : QPoint) (l : List QRect) :
    ∀ best : QRect × Int,
      ((∀ o ∈ l, best.2 < toInt32 (sqDist center o)) ∧ l.foldl (pivotStep center) best = best) ∨
      ∃ pre p post, l = pre ++ p :: post ∧
        l.foldl (pivotStep center) best = (p, toInt32 (sqDist center p)) ∧
        toInt32 (sqDist center p) ≤ best.2 ∧
        (∀ o ∈ pre, toInt32 (sqDist center p) ≤ toInt32 (sqDist center o)) ∧
        (∀ o ∈ post, toInt32 (sqDist center p) < toInt32 (sqDist center o)) := by
  induction l with
  | nil => intro best; left; exact ⟨by simp, rfl⟩
  | cons o rest ih =>
    intro best
    simp only [List.foldl_cons]
    rw [pivotStep_eq]
    by_cases c : toInt32 (sqDist center o) ≤ best.2
    · rw [if_pos c]
      rcases ih (o, toInt32 (sqDist center o)) with ⟨h1, h2⟩ | ⟨pre, p, post, e, h2, h3, h4, h5⟩
      · right
        exact ⟨[], o, rest, rfl, h2, c, by simp, h1⟩
      · right
        refine ⟨o :: pre, p, post, by rw [e]; rfl, h2, le_trans h3 c, ?_, h5⟩
        intro x hx
        rcases List.mem_cons.mp hx with rfl | hx
        · exact h3
        · exact h4 x hx
    · rw [if_neg c]
      rcases ih best with ⟨h1, h2⟩ | ⟨pre, p, post, e, h2, h3, h4, h5⟩
      · left
        refine ⟨?_, h2⟩
        intro x hx
        rcases List.mem_cons.mp hx with rfl | hx
        · exact not_le.mp c
        · exact h1 x hx
      · right
        refine ⟨o :: pre, p, post, by rw [e]; rfl, h2, h3, ?_, h5⟩
        intro x hx
        rcases List.mem_cons.mp hx with rfl | hx
        · exact le_of_lt (lt_of_le_of_lt h3 (not_le.mp c))
        · exact h4 x hx

theorem findPivotObstacle_split (region : Region) (h : region.m_obstacles ≠ []) :
    ∃ pre post, region.m_obstacles = pre ++ findPivotObstacle region :: post ∧
      (∀ o ∈ pre, toInt32 (sqDist region.m_bounds.center (findPivotObstacle region)) ≤
        toInt32 (sqDist region.m_bounds.center o)) ∧
      (∀ o ∈ post, toInt32 (sqDist region.m_bounds.center (findPivotObstacle region)) <
        toInt32 (sqDist region.m_bounds.center o)) := by
  unfold findPivotObstacle
  simp only
  rcases pivot_fold_split region.m_bounds.center region.m_obstacles (QRect.null, INT_MAX) with
    ⟨h1, _⟩ | ⟨pre, p, post, e, h2, _, h4, h5⟩
  · exfalso
    cases hl : region.m_obstacles with
    | nil => exact h hl
    | cons o rest =>
      have := h1 o (by rw [hl]; simp)
      have := toInt32_le (sqDist region.m_bounds.center o)
      simp only at *
      omega
  · rw [h2]
    exact ⟨pre, post, e, h4, h5⟩

theorem sqDist_nonneg (center : QPoint) (o : QRect) : 0 ≤ sqDist center o := by
  unfold sqDist
  simp only
  have h1 := mul_self_nonneg (center.sub o.center).x
  have h2 := mul_self_nonneg (center.sub o.center).y
  omega

theorem toInt32_sqDist (center : QPoint) (o : QRect) (h : sqDist center o ≤ INT_MAX) :
    toInt32 (sqDist center o) = sqDist center o := by
  have := sqDist_nonneg center o
  unfold toInt32
  unfold INT_MAX at h
  omega

/-- C21 (counterexample): in the region with bounds `QRect(0, 0, 100000, 1)`,
whose centre is (49999, 0), the obstacle `QRect(49998, 0, 1, 1)` is at squared
distance 1 and the obstacle `QRect(3658, 0, 1, 1)` at squared distance
46341 * 46341 = 2147488281, which exceeds `INT_MAX` and is stored in the `int`
`distance` as -2147479015; `findPivotObstacle` returns the farther obstacle,
whichever comes first in the list. -/
theorem pivot_not_closest :
    findPivotObstacle ⟨0, QRect.ofXYWH 0 0 100000 1,
      [QRect.ofXYWH 3658 0 1 1, QRect.ofXYWH 49998 0 1 1]⟩ = QRect.ofXYWH 3658 0 1 1 ∧
    findPivotObstacle ⟨0, QRect.ofXYWH 0 0 100000 1,
      [QRect.ofXYWH 49998 0 1 1, QRect.ofXYWH 3658 0 1 1]⟩ = QRect.ofXYWH 3658 0 1 1 ∧
    sqDist (QRect.ofXYWH 0 0 100000 1).center (QRect.ofXYWH 49998 0 1 1) = 1 ∧
    sqDist (QRect.ofXYWH 0 0 100000 1).center (QRect.ofXYWH 3658 0 1 1) = 2147488281 ∧
    toInt32 (sqDist (QRect.ofXYWH 0 0 100000 1).center (QRect.ofXYWH 3658 0 1 1)) =
      -2147479015 ∧
    (∀ o ∈ [QRect.ofXYWH 3658 0 1 1, QRect.ofXYWH 49998 0 1 1],
      o.Valid ∧ o.Inside (QRect.ofXYWH 0 0 100000 1)) := by
  decide

/-- C21, amended: for a region with a non-empty obstacle list on which the `int`
expression `vec.x() * vec.x() + vec.y() * vec.y()` does not overflow,
`findPivotObstacle` returns an element of the list whose centre is at the least
squared distance from the centre of the bounds; every obstacle that comes
after it in the list is strictly farther, so among the obstacles at the least
distance it is the last one. -/
theorem pivot_is_closest_and_last (region : Region) (hne : region.m_obstacles ≠ [])
    (hrange : ∀ o ∈ region.m_obstacles, sqDist region.m_bounds.center o ≤ INT_MAX) :
    findPivotObstacle region ∈ region.m_obstacles ∧
    (∀ o ∈ region.m_obstacles,
      sqDist region.m_bounds.center (findPivotObstacle region) ≤
        sqDist region.m_bounds.center o) ∧
    ∃ pre post, region.m_obstacles = pre ++ findPivotObstacle region :: post ∧
      ∀ o ∈ post, sqDist region.m_bounds.center (findPivotObstacle region) <
        sqDist region.m_bounds.center o := by
  obtain ⟨pre, post, e, h1, h2⟩ := findPivotObstacle_split region hne
  have hm : findPivotObstacle region ∈ region.m_obstacles := by
    rw [e]; simp
  have hp := toInt32_sqDist _ _ (hrange _ hm)
  have hpost : ∀ o ∈ post, sqDist region.m_bounds.center (findPivotObstacle region) <
      sqDist region.m_bounds.center o := by
    intro o ho
    have hoo : o ∈ region.m_obstacles := by rw [e]; simp [ho]
    have := h2 o ho
    rw [hp, toInt32_sqDist _ _ (hrange _ hoo)] at this
    exact this
  refine ⟨hm, ?_, pre, post, e, hpost⟩
  intro o ho
  have ho2 := ho
  rw [e] at ho2
  rcases List.mem_append.mp ho2 with hpre | hrest
  · have := h1 o hpre
    rw [hp, toInt32_sqDist _ _ (hrange _ ho)] at this
    exact this
  · rcases List.mem_cons.mp hrest with rfl | hpo
    · exact le_refl _
    · exact le_of_lt (hpost o hpo)

theorem pivot_is_closest_and_last_witness :
    (Region.mk 0 (QRect.ofXYWH 0 0 10 10)
      [QRect.ofXYWH 0 0 2 2, QRect.ofXYWH 2 4 2 2, QRect.ofXYWH 6 4 2 2]).m_obstacles ≠ [] ∧
    findPivotObstacle (Region.mk 0 (QRect.ofXYWH 0 0 10 10)
      [QRect.ofXYWH 0 0 2 2, QRect.ofXYWH 2 4 2 2, QRect.ofXYWH 6 4 2 2]) =
      QRect.ofXYWH 6 4 2 2 ∧
    ∀ o ∈ [QRect.ofXYWH 0 0 2 2, QRect.ofXYWH 2 4 2 2, QRect.ofXYWH 6 4 2 2],
      sqDist (QRect.ofXYWH 0 0 10 10).center
        (findPivotObstacle (Region.mk 0 (QRect.ofXYWH 0 0 10 10)
          [QRect.ofXYWH 0 0 2 2, QRect.ofXYWH 2 4 2 2, QRect.ofXYWH 6 4 2 2])) ≤
        sqDist (QRect.ofXYWH 0 0 10 10).center o :=
  ⟨by decide, by decide,
    (pivot_is_closest_and_last (Region.mk 0 (QRect.ofXYWH 0 0 10 10)
      [QRect.ofXYWH 0 0 2 2, QRect.ofXYWH 2 4 2 2, QRect.ofXYWH 6 4 2 2])
      (by decide) (by decide)).2.1⟩

/-! ## The watermark of a child -/

/-- C25 (counterexample): on the 10 x 10 all-background raster with
`min_size = (1, 1)` and the obstacle `QRect(4, 4, 2, 2)`, after two results in
mode `AUTO_OBSTACLES` the region at the top of the frontier has bounds
`QRect(0, 0, 4, 10)` and watermark 0; the next iteration splits it, and its
child `QRect(0, 0, 4, 6)` has watermark 2, the number of registered results. -/
theorem child_watermark_differs :
    ((PriorityStorage.top (runCalls (new (whiteImage 10 10) ⟨1, 1⟩)
      [Call.addObstacle (QRect.ofXYWH 4 4 2 2), Call.next ObstacleMode.AUTO_OBSTACLES 1000,
        Call.next ObstacleMode.AUTO_OBSTACLES 1000]).1.m_queuedRegions).map
        fun g => (g.m_bounds, g.m_knownNewObstacles)) = some (QRect.ofXYWH 0 0 4 10, 0) ∧
    ((runCalls (new (whiteImage 10 10) ⟨1, 1⟩)
      [Call.addObstacle (QRect.ofXYWH 4 4 2 2), Call.next ObstacleMode.AUTO_OBSTACLES 1000,
        Call.next ObstacleMode.AUTO_OBSTACLES 1000,
        Call.next ObstacleMode.AUTO_OBSTACLES 1]).1.m_queuedRegions.map
        fun g => (g.m_bounds, g.m_knownNewObstacles)) =
      [(QRect.ofXYWH 6 0 4 10, 0), (QRect.ofXYWH 0 0 4 6, 2)] := by
  decide

/-- C25 (amended): every child region that `subdivide` appends to the frontier
has as watermark the number of global obstacles registered at that moment,
`m_newObstacles.size()`, whatever the watermark of the region it is split
from; and the region that `next` splits has been merged with all of these
obstacles before. -/
theorem child_watermark_is_current_count (s : MaxWhitespaceFinder) (region : Region)
    (bounds pivot : QRect) :
    (s.subdivide region bounds pivot).m_queuedRegions =
      s.m_queuedRegions ++ subdivideChildren s region bounds pivot ∧
    (s.subdivide region bounds pivot).m_newObstacles = s.m_newObstacles ∧
    (∀ c ∈ subdivideChildren s region bounds pivot,
      c.m_knownNewObstacles = s.m_newObstacles.length) ∧
    ∀ (mode : ObstacleMode) (n k : Nat) (t : Region),
      PriorityStorage.top s.m_queuedRegions = some t →
      (t.addNewObstacles s.m_newObstacles).m_obstacles ≠ [] →
      nextLoop mode (n + 1) s k = nextLoop mode n
        (s.popTop.subdivide (t.addNewObstacles s.m_newObstacles) t.m_bounds
          (findPivotObstacle (t.addNewObstacles s.m_newObstacles))) (k + 1) := by
  refine ⟨by rw [subdivide_eq], by rw [subdivide_eq], fun c hc => ?_, ?_⟩
  · rcases mem_subdivideChildren hc with ⟨_, rfl⟩ | ⟨_, rfl⟩ | ⟨_, rfl⟩ | ⟨_, rfl⟩ <;> rfl
  · intro mode n k t ht hne
    rw [nextLoop_succ_obstacles ht hne]
    rfl

theorem child_watermark_is_current_count_witness :
    ((subdivideChildren
        ((new (whiteImage 10 10) ⟨1, 1⟩).registerResult ObstacleMode.AUTO_OBSTACLES
          (QRect.ofXYWH 0 0 10 4))
        (Region.new 0 (QRect.ofXYWH 0 0 10 10)) (QRect.ofXYWH 0 0 10 10)
        (QRect.ofXYWH 4 4 2 2)).map fun c => c.m_knownNewObstacles) = [1, 1, 1, 1] ∧
    ∀ c ∈ subdivideChildren
        ((new (whiteImage 10 10) ⟨1, 1⟩).registerResult ObstacleMode.AUTO_OBSTACLES
          (QRect.ofXYWH 0 0 10 4))
        (Region.new 0 (QRect.ofXYWH 0 0 10 10)) (QRect.ofXYWH 0 0 10 10) (QRect.ofXYWH 4 4 2 2),
      c.m_knownNewObstacles = 1 :=
  ⟨by decide,
    (child_watermark_is_current_count
      ((new (whiteImage 10 10) ⟨1, 1⟩).registerResult ObstacleMode.AUTO_OBSTACLES
        (QRect.ofXYWH 0 0 10 4))
      (Region.new 0 (QRect.ofXYWH 0 0 10 10)) (QRect.ofXYWH 0 0 10 10)
      (QRect.ofXYWH 4 4 2 2)).2.2.1⟩

/-! ## The checked bisection loops -/

theorem QRect.contains_of_inside {r q : QRect} (hv : q.Valid) (hi : q.Inside r) :
    r.contains q = true := by
  simp only [QRect.Valid, QRect.Inside] at hv hi
  have n1 : r.isNull = false := by
    simp only [QRect.isNull, Bool.and_eq_false_iff, beq_eq_false_iff_ne]
    left; omega
  have n2 : q.isNull = false := by
    simp only [QRect.isNull, Bool.and_eq_false_iff, beq_eq_false_iff_ne]
    left; omega
  have c1 : ¬ (r.x2 - r.x1 + 1 < 0) := by omega
  have c2 : ¬ (q.x2 - q.x1 + 1 < 0) := by omega
  have c3 : ¬ (r.y2 - r.y1 + 1 < 0) := by omega
  have c4 : ¬ (q.y2 - q.y1 + 1 < 0) := by omega
  have c5 : ¬ (q.x1 < r.x1 ∨ q.x2 > r.x2) := by omega
  have c6 : ¬ (q.y1 < r.y1 ∨ q.y2 > r.y2) := by omega
  unfold QRect.contains
  simp only [n1, n2, Bool.or_self, Bool.false_eq_true, if_false, if_neg c1, if_neg c2,
    if_neg c3, if_neg c4, if_neg c5, if_neg c6]

theorem QRect.containsPoint_of_covers {r : QRect} {p : QPoint} (h : r.Covers p.x p.y) :
    r.containsPoint p = true := by
  simp only [QRect.Covers] at h
  have n1 : r.isNull = false := by
    simp only [QRect.isNull, Bool.and_eq_false_iff, beq_eq_false_iff_ne]
    left; omega
  have c1 : ¬ (r.x2 < r.x1 - 1) := by omega
  have c2 : ¬ (r.y2 < r.y1 - 1) := by omega
  have c3 : ¬ (p.x < r.x1 ∨ p.x > r.x2) := by omega
  have c4 : ¬ (p.y < r.y1 ∨ p.y > r.y2) := by omega
  unfold QRect.containsPoint
  simp only [n1, Bool.false_eq_true, if_false, if_neg c1, if_neg c2, if_neg c3, if_neg c4]

theorem middleRect_between (outer inner : QRect) (hin : inner.Inside outer) (hv : inner.Valid)
    (hc : ¬ (outer.width - inner.width ≤ 1 ∧ outer.height - inner.height ≤ 1)) :
    (middleRect outer inner).Valid ∧
    inner.Inside (middleRect outer inner) ∧ (middleRect outer inner).Inside outer ∧
    bisectBudget outer (middleRect outer inner) < bisectBudget outer inner ∧
    bisectBudget (middleRect outer inner) inner < bisectBudget outer inner := by
  obtain ⟨a1, a2, a3, a4⟩ := hin
  obtain ⟨v1, v2⟩ := hv
  have m1 := middleRect_x1 outer inner
  have m2 := middleRect_x2 outer inner
  have m3 := middleRect_y1 outer inner
  have m4 := middleRect_y2 outer inner
  refine ⟨?_, ?_, ?_, ?_, ?_⟩
  · unfold QRect.Valid; omega
  · unfold QRect.Inside; omega
  · unfold QRect.Inside; omega
  · unfold bisectBudget QRect.width QRect.height at *; omega
  · unfold bisectBudget QRect.width QRect.height at *; omega

theorem findLoopChecked_eq (ii : IntegralImage) (budget : Nat) :
    ∀ (outer inner : QRect), inner.Inside outer → inner.Valid →
      bisectBudget outer inner ≤ budget →
      findLoopChecked ii budget outer inner = Checked.ok (findLoop ii budget outer inner) := by
  induction budget with
  | zero =>
    intro outer inner _ _ hb
    simp only [findLoopChecked, findLoop]
    rw [if_pos (by unfold bisectBudget at hb; omega)]
  | succ n ih =>
    intro outer inner hin hv hb
    unfold findLoopChecked findLoop
    simp only
    by_cases c1 : outer.width - inner.width ≤ 1 ∧ outer.height - inner.height ≤ 1
    · rw [if_pos c1, if_pos c1]
    · rw [if_neg c1, if_neg c1]
      obtain ⟨mv, mi, mo, b1, b2⟩ := middleRect_between outer inner hin hv c1
      rw [if_neg (by rw [QRect.contains_of_inside mv mo]; decide),
        if_neg (by rw [QRect.contains_of_inside hv mi]; decide)]
      by_cases c2 : ii.sum (middleRect outer inner) = 0
      · rw [if_pos c2, if_pos c2]
        exact ih outer _ mo mv (by omega)
      · rw [if_neg c2, if_neg c2]
        exact ih _ inner mi hv (by omega)

theorem extendLoopChecked_eq (ii : IntegralImage) (budget : Nat) :
    ∀ (outer inner : QRect), inner.Inside outer → inner.Valid →
      bisectBudget outer inner ≤ budget →
      extendLoopChecked ii budget outer inner = Checked.ok (extendLoop ii budget outer inner) := by
  induction budget with
  | zero =>
    intro outer inner _ _ hb
    simp only [extendLoopChecked, extendLoop]
    rw [if_pos (by unfold bisectBudget at hb; omega)]
  | succ n ih =>
    intro outer inner hin hv hb
    unfold extendLoopChecked extendLoop
    simp only
    by_cases c1 : outer.width - inner.width ≤ 1 ∧ outer.height - inner.height ≤ 1
    · rw [if_pos c1, if_pos c1]
    · rw [if_neg c1, if_neg c1]
      obtain ⟨mv, mi, mo, b1, b2⟩ := middleRect_between outer inner hin hv c1
      rw [if_neg (by rw [QRect.contains_of_inside mv mo]; decide),
        if_neg (by rw [QRect.contains_of_inside hv mi]; decide)]
      by_cases c2 : (ii.sum (middleRect outer inner) : Int) =
          (middleRect outer inner).width * (middleRect outer inner).height
      · rw [if_pos c2, if_pos c2]
        exact ih outer _ mo mv (by omega)
      · rw [if_neg c2, if_neg c2]
        exact ih _ inner mi hv (by omega)

/-! ## The checked pixel search -/

set_option maxHeartbeats 4000000 in
theorem findBlackPixelCloseToCenterChecked_eq (ii : IntegralImage) (d : Nat) :
    ∀ (r : QRect), r.Valid → ii.sum r ≠ 0 →
      (2 ≤ d ∨ (1 ≤ d ∧ (r.x1 = r.x2 ∨ r.y1 = r.y2))) →
      findBlackPixelCloseToCenterChecked ii d r =
        Checked.ok (findBlackPixelCloseToCenterRec ii d r) := by
  induction d with
  | zero => intro r _ _ hd; omega
  | succ d ih =>
    intro r hv hs hd
    unfold findBlackPixelCloseToCenterChecked findBlackPixelCloseToCenterRec
    simp only
    rw [if_neg hs]
    have hc := center_covers r hv
    by_cases c0 : ii.sum (QRect.ofXYWH r.center.x r.center.y 1 1) ≠ 0
    · simp only [if_pos c0]
    · simp only [if_neg c0]
      have c0 : ii.sum (QRect.ofXYWH r.center.x r.center.y 1 1) = 0 := not_not.mp c0
      have hin0 : (QRect.ofXYWH r.center.x r.center.y 1 1).Inside r := by
        simp only [QRect.Inside, QRect.ofXYWH, QRect.Covers] at hc ⊢; omega
      have hv0 : (QRect.ofXYWH r.center.x r.center.y 1 1).Valid := by
        simp only [QRect.Valid, QRect.ofXYWH]; omega
      rw [findLoopChecked_eq ii _ r _ hin0 hv0 (le_refl _)]
      simp only
      have L := findLoop_spec ii (bisectBudget r (QRect.ofXYWH r.center.x r.center.y 1 1)) r
        (QRect.ofXYWH r.center.x r.center.y 1 1) hin0 hv0 hs c0 (le_refl _)
      generalize findLoop ii (bisectBudget r (QRect.ofXYWH r.center.x r.center.y 1 1)) r
        (QRect.ofXYWH r.center.x r.center.y 1 1) = lp at L ⊢
      obtain ⟨outer, inner⟩ := lp
      simp only at L ⊢
      obtain ⟨l1, l2, l3, l4, l5, l6, l7⟩ := L
      obtain ⟨px, py, hp, hblack⟩ := (IntegralImage.sum_ne_zero_iff _ _).mp l3
      have hnotin : ¬ inner.Covers px py :=
        fun h => hblack ((IntegralImage.sum_eq_zero_iff _ _).mp l4 px py h)
      have hL : ii.sum (outer.setRight outer.x1) ≠ 0 ∨
          ¬ (outer.x1 ≤ px ∧ px ≤ outer.x1 ∧ outer.y1 ≤ py ∧ py ≤ outer.y2) := by
        by_cases c : ii.sum (outer.setRight outer.x1) = 0
        · exact Or.inr fun h => hblack ((IntegralImage.sum_eq_zero_iff _ _).mp c px py h)
        · exact Or.inl c
      have hR : ii.sum (outer.setLeft outer.x2) ≠ 0 ∨
          ¬ (outer.x2 ≤ px ∧ px ≤ outer.x2 ∧ outer.y1 ≤ py ∧ py ≤ outer.y2) := by
        by_cases c : ii.sum (outer.setLeft outer.x2) = 0
        · exact Or.inr fun h => hblack ((IntegralImage.sum_eq_zero_iff _ _).mp c px py h)
        · exact Or.inl c
      have hT : ii.sum (outer.setBottom outer.y1) ≠ 0 ∨
          ¬ (outer.x1 ≤ px ∧ px ≤ outer.x2 ∧ outer.y1 ≤ py ∧ py ≤ outer.y1) := by
        by_cases c : ii.sum (outer.setBottom outer.y1) = 0
        · exact Or.inr fun h => hblack ((IntegralImage.sum_eq_zero_iff _ _).mp c px py h)
        · exact Or.inl c
      have hB : (outer.x1 ≤ px ∧ px ≤ outer.x2 ∧ outer.y2 ≤ py ∧ py ≤ outer.y2) →
          ii.sum (outer.setTop outer.y2) ≠ 0 :=
        fun h => (IntegralImage.sum_ne_zero_iff _ _).mpr ⟨px, py, h, hblack⟩
      simp only [QRect.Inside, QRect.Valid, QRect.Covers, QRect.width,
        QRect.height] at l1 l2 l5 l6 l7 hp hnotin hv
      simp only [QRect.left, QRect.right, QRect.top, QRect.bottom, QRect.width, QRect.height,
        QRect.topLeft, QRect.topRight, QRect.bottomLeft]
      have pos : (px = outer.x1 ∧ outer.x1 ≠ inner.x1) ∨ (px = outer.x2 ∧ outer.x2 ≠ inner.x2) ∨
          (py = outer.y1 ∧ outer.y1 ≠ inner.y1) ∨ (py = outer.y2 ∧ outer.y2 ≠ inner.y2) := by
        clear hL hR hT hB hd ih hv l5
        omega
      have thinx : r.x1 = r.x2 →
          outer.x1 = inner.x1 ∧ outer.x2 = inner.x2 ∧ outer.x1 = outer.x2 := by
        clear hL hR hT hB hd ih pos hnotin hp
        omega
      have thiny : r.y1 = r.y2 →
          outer.y1 = inner.y1 ∧ outer.y2 = inner.y2 ∧ outer.y1 = outer.y2 := by
        clear hL hR hT hB hd ih pos hnotin hp
        omega
      have key : ¬(outer.x1 ≠ inner.x1 ∧ ii.sum (outer.setRight outer.x1) ≠ 0) →
          ¬(outer.x2 ≠ inner.x2 ∧ ii.sum (outer.setLeft outer.x2) ≠ 0) →
          ¬(outer.y1 ≠ inner.y1 ∧ ii.sum (outer.setBottom outer.y1) ≠ 0) →
          py = outer.y2 ∧ outer.y2 ≠ inner.y2 := by
        intro h3 h6 h9
        rcases pos with ⟨e, n⟩ | ⟨e, n⟩ | ⟨e, n⟩ | ⟨e, n⟩
        · exfalso
          clear hR hT hB hd ih thinx thiny l5 hv h6 h9 hnotin l1 l2 l6 l7
          omega
        · exfalso
          clear hL hT hB hd ih thinx thiny l5 hv h3 h9 hnotin l1 l2 l6 l7
          omega
        · exfalso
          clear hL hR hB hd ih thinx thiny l5 hv h3 h6 hnotin l1 l2 l6 l7
          omega
        · exact ⟨e, n⟩
      by_cases h1 : outer.x1 ≠ inner.x1 ∧ outer.y2 - outer.y1 + 1 = 1
      · rw [if_pos h1, if_pos h1]
        by_cases h2 : ii.sum (outer.setRight outer.x1) ≠ 0
        · rw [if_pos h2, if_pos h2]
        · rw [if_neg h2, if_neg h2]
      rw [if_neg h1, if_neg h1]
      by_cases h3 : outer.x1 ≠ inner.x1 ∧ ii.sum (outer.setRight outer.x1) ≠ 0
      · rw [if_pos h3, if_pos h3]
        have hnt : ¬ (r.x1 = r.x2 ∨ r.y1 = r.y2) := by
          clear hL hR hT hB ih pos hnotin hp l5 hv hd key
          omega
        exact ih (outer.setRight outer.x1)
          (by simp only [QRect.Valid, QRect.setRight]; omega) h3.2
          (Or.inr ⟨by rcases hd with h | ⟨_, h⟩; omega; exact absurd h hnt, Or.inl rfl⟩)
      rw [if_neg h3, if_neg h3]
      by_cases h4 : outer.x2 ≠ inner.x2 ∧ outer.y2 - outer.y1 + 1 = 1
      · rw [if_pos h4, if_pos h4]
        by_cases h5 : ii.sum (outer.setLeft outer.x2) ≠ 0
        · rw [if_pos h5, if_pos h5]
        · rw [if_neg h5, if_neg h5]
      rw [if_neg h4, if_neg h4]
      by_cases h6 : outer.x2 ≠ inner.x2 ∧ ii.sum (outer.setLeft outer.x2) ≠ 0
      · rw [if_pos h6, if_pos h6]
        have hnt : ¬ (r.x1 = r.x2 ∨ r.y1 = r.y2) := by
          clear hL hR hT hB ih pos hnotin hp l5 hv hd h1 h3 key
          omega
        exact ih (outer.setLeft outer.x2)
          (by simp only [QRect.Valid, QRect.setLeft]; omega) h6.2
          (Or.inr ⟨by rcases hd with h | ⟨_, h⟩; omega; exact absurd h hnt, Or.inl rfl⟩)
      rw [if_neg h6, if_neg h6]
      by_cases h7 : outer.y1 ≠ inner.y1 ∧ outer.x2 - outer.x1 + 1 = 1
      · rw [if_pos h7, if_pos h7]
        by_cases h8 : ii.sum (outer.setBottom outer.y1) ≠ 0
        · rw [if_pos h8, if_pos h8]
        · rw [if_neg h8, if_neg h8]
      rw [if_neg h7, if_neg h7]
      by_cases h9 : outer.y1 ≠ inner.y1 ∧ ii.sum (outer.setBottom outer.y1) ≠ 0
      · rw [if_pos h9, if_pos h9]
        have hnt : ¬ (r.x1 = r.x2 ∨ r.y1 = r.y2) := by
          clear hL hR hT hB ih pos hnotin hp l5 hv hd h1 h3 h4 h6 key
          omega
        exact ih (outer.setBottom outer.y1)
          (by simp only [QRect.Valid, QRect.setBottom]; omega) h9.2
          (Or.inr ⟨by rcases hd with h | ⟨_, h⟩; omega; exact absurd h hnt, Or.inr rfl⟩)
      rw [if_neg h9, if_neg h9]
      have hbot := key h3 h6 h9
      have h11 : ii.sum (outer.setTop outer.y2) ≠ 0 := hB (by omega)
      rw [if_neg hbot.2, if_neg h11]
      by_cases h12 : outer.x2 - outer.x1 + 1 = 1
      · rw [if_pos h12, if_pos h12]
      rw [if_neg h12, if_neg h12]
      have hnt : ¬ (r.x1 = r.x2 ∨ r.y1 = r.y2) := by
        rintro (h | h)
        · clear hL hR hT hB ih pos hnotin hp l5 hv h1 h3 h4 h6 h7 h9 hd key
          omega
        · have t := thiny h
          exact hbot.2 (by omega)
      exact ih (outer.setTop outer.y2)
        (by simp only [QRect.Valid, QRect.setTop]; omega) h11
        (Or.inr ⟨by rcases hd with h | ⟨_, h⟩; omega; exact absurd h hnt, Or.inr rfl⟩)

/-! ## Termination of the bisection and the assertions of the searches -/

theorem findLoop_stable (ii : IntegralImage) (b1 : Nat) :
    ∀ (b2 : Nat) (outer inner : QRect), inner.Inside outer → inner.Valid →
      bisectBudget outer inner ≤ b1 → bisectBudget outer inner ≤ b2 →
      findLoop ii b1 outer inner = findLoop ii b2 outer inner := by
  induction b1 with
  | zero =>
    intro b2 outer inner _ _ h1 _
    cases b2 with
    | zero => rfl
    | succ b2 =>
      unfold findLoop
      simp only
      rw [if_pos (by unfold bisectBudget at h1; omega)]
  | succ b1 ih =>
    intro b2 outer inner hin hv h1 h2
    cases b2 with
    | zero =>
      unfold findLoop
      simp only
      rw [if_pos (by unfold bisectBudget at h2; omega)]
    | succ b2 =>
      unfold findLoop
      simp only
      by_cases c1 : outer.width - inner.width ≤ 1 ∧ outer.height - inner.height ≤ 1
      · rw [if_pos c1, if_pos c1]
      · rw [if_neg c1, if_neg c1]
        obtain ⟨mv, mi, mo, k1, k2⟩ := middleRect_between outer inner hin hv c1
        by_cases c2 : ii.sum (middleRect outer inner) = 0
        · rw [if_pos c2, if_pos c2]
          exact ih b2 outer _ mo mv (by omega) (by omega)
        · rw [if_neg c2, if_neg c2]
          exact ih b2 _ inner mi hv (by omega) (by omega)

theorem extendLoop_stable (ii : IntegralImage) (b1 : Nat) :
    ∀ (b2 : Nat) (outer inner : QRect), inner.Inside outer → inner.Valid →
      bisectBudget outer inner ≤ b1 → bisectBudget outer inner ≤ b2 →
      extendLoop ii b1 outer inner = extendLoop ii b2 outer inner := by
  induction b1 with
  | zero =>
    intro b2 outer inner _ _ h1 _
    cases b2 with
    | zero => rfl
    | succ b2 =>
      unfold extendLoop
      simp only
      rw [if_pos (by unfold bisectBudget at h1; omega)]
  | succ b1 ih =>
    intro b2 outer inner hin hv h1 h2
    cases b2 with
    | zero =>
      unfold extendLoop
      simp only
      rw [if_pos (by unfold bisectBudget at h2; omega)]
    | succ b2 =>
      unfold extendLoop
      simp only
      by_cases c1 : outer.width - inner.width ≤ 1 ∧ outer.height - inner.height ≤ 1
      · rw [if_pos c1, if_pos c1]
      · rw [if_neg c1, if_neg c1]
        obtain ⟨mv, mi, mo, k1, k2⟩ := middleRect_between outer inner hin hv c1
        by_cases c2 : (ii.sum (middleRect outer inner) : Int) =
            (middleRect outer inner).width * (middleRect outer inner).height
        · rw [if_pos c2, if_pos c2]
          exact ih b2 outer _ mo mv (by omega) (by omega)
        · rw [if_neg c2, if_neg c2]
          exact ih b2 _ inner mi hv (by omega) (by omega)

theorem pixel_inside_of_covers {bounds : QRect} {pixel : QPoint}
    (hc : bounds.Covers pixel.x pixel.y) :
    (QRect.ofXYWH pixel.x pixel.y 1 1).Inside bounds ∧ (QRect.ofXYWH pixel.x pixel.y 1 1).Valid := by
  simp only [QRect.Inside, QRect.Valid, QRect.ofXYWH, QRect.Covers] at hc ⊢
  omega

theorem extendBlackPixelToBlackBoxChecked_eq (ii : IntegralImage) (pixel : QPoint)
    (bounds : QRect) (hc : bounds.Covers pixel.x pixel.y) :
    extendBlackPixelToBlackBoxChecked ii pixel bounds =
      Checked.ok (extendBlackPixelToBlackBox ii pixel bounds) := by
  unfold extendBlackPixelToBlackBoxChecked extendBlackPixelToBlackBox
  simp only
  rw [if_neg (by rw [QRect.containsPoint_of_covers hc]; decide)]
  by_cases c : (ii.sum bounds : Int) = bounds.width * bounds.height
  · rw [if_pos c, if_pos c]
  · rw [if_neg c, if_neg c]
    rw [extendLoopChecked_eq ii _ bounds _ (pixel_inside_of_covers hc).1
      (pixel_inside_of_covers hc).2 (le_refl _)]

/-- C24: for a rectangle `r` inside the raster with non-zero sum and a pixel
inside `bounds`: whenever a bisection loop does not `break`, the middle
rectangle lies between the inner and the outer one and differs from both, so
either choice shrinks the gap; both loops reach their `break` within
`bisectBudget` rounds, with the same final pair for every larger bound; and
`findBlackPixelCloseToCenter` needs two levels of recursion at most, one level
when `r` is one pixel wide or high. -/
theorem bisection_terminates (ii : IntegralImage) (r bounds : QRect) (pixel : QPoint)
    (_hin : r.Inside ii.img.rect) (hs : ii.sum r ≠ 0)
    (_hb : bounds.Inside ii.img.rect) (hc : bounds.Covers pixel.x pixel.y) :
    (∀ outer inner : QRect, inner.Valid → inner.Inside outer →
      ¬ (outer.width - inner.width ≤ 1 ∧ outer.height - inner.height ≤ 1) →
      (middleRect outer inner).Inside outer ∧ inner.Inside (middleRect outer inner) ∧
      middleRect outer inner ≠ outer ∧ middleRect outer inner ≠ inner ∧
      bisectBudget outer (middleRect outer inner) < bisectBudget outer inner ∧
      bisectBudget (middleRect outer inner) inner < bisectBudget outer inner) ∧
    (∀ budget, bisectBudget r (QRect.ofXYWH r.center.x r.center.y 1 1) ≤ budget →
      findLoopChecked ii budget r (QRect.ofXYWH r.center.x r.center.y 1 1) =
        Checked.ok (findLoop ii (bisectBudget r (QRect.ofXYWH r.center.x r.center.y 1 1)) r
          (QRect.ofXYWH r.center.x r.center.y 1 1))) ∧
    (∀ budget, bisectBudget bounds (QRect.ofXYWH pixel.x pixel.y 1 1) ≤ budget →
      extendLoopChecked ii budget bounds (QRect.ofXYWH pixel.x pixel.y 1 1) =
        Checked.ok (extendLoop ii (bisectBudget bounds (QRect.ofXYWH pixel.x pixel.y 1 1)) bounds
          (QRect.ofXYWH pixel.x pixel.y 1 1))) ∧
    (∀ d, 2 ≤ d → findBlackPixelCloseToCenterChecked ii d r =
      Checked.ok (findBlackPixelCloseToCenter ii r)) ∧
    ((r.x1 = r.x2 ∨ r.y1 = r.y2) → findBlackPixelCloseToCenterChecked ii 1 r =
      Checked.ok (findBlackPixelCloseToCenter ii r)) := by
  have hv := valid_of_sum_ne_zero ii r hs
  have hcen := pixel_inside_of_covers (center_covers r hv)
  have hpix := pixel_inside_of_covers hc
  refine ⟨?_, ?_, ?_, ?_, ?_⟩
  · intro outer inner hiv hii hnb
    obtain ⟨_, mi, mo, k1, k2⟩ := middleRect_between outer inner hii hiv hnb
    refine ⟨mo, mi, ?_, ?_, k1, k2⟩
    · intro e
      rw [e] at k2
      exact lt_irrefl _ k2
    · intro e
      rw [e] at k1
      exact lt_irrefl _ k1
  · intro budget hb
    rw [findLoopChecked_eq ii budget r _ hcen.1 hcen.2 hb,
      findLoop_stable ii budget _ r _ hcen.1 hcen.2 hb (le_refl _)]
  · intro budget hb
    rw [extendLoopChecked_eq ii budget bounds _ hpix.1 hpix.2 hb,
      extendLoop_stable ii budget _ bounds _ hpix.1 hpix.2 hb (le_refl _)]
  · intro d hd
    rw [findBlackPixelCloseToCenterChecked_eq ii d r hv hs (Or.inl hd)]
    exact congrArg Checked.ok
      (findBlackPixelCloseToCenterRec_depth ii d 2 r hv hs (Or.inl hd) (Or.inl (le_refl 2)))
  · intro ht
    rw [findBlackPixelCloseToCenterChecked_eq ii 1 r hv hs (Or.inr ⟨le_refl 1, ht⟩)]
    exact congrArg Checked.ok
      (findBlackPixelCloseToCenterRec_depth ii 1 2 r hv hs (Or.inr ⟨le_refl 1, ht⟩)
        (Or.inl (le_refl 2)))

theorem bisection_terminates_witness :
    (QRect.ofXYWH 0 0 10 10).Inside (IntegralImage.mk blobImage).img.rect ∧
    (IntegralImage.mk blobImage).sum (QRect.ofXYWH 0 0 10 10) ≠ 0 ∧
    (QRect.ofXYWH 0 0 10 10).Covers 5 5 ∧
    findBlackPixelCloseToCenterChecked ⟨blobImage⟩ 2 (QRect.ofXYWH 0 0 10 10) =
      Checked.ok (findBlackPixelCloseToCenter ⟨blobImage⟩ (QRect.ofXYWH 0 0 10 10)) :=
  ⟨by decide, by decide, by decide,
    (bisection_terminates ⟨blobImage⟩ (QRect.ofXYWH 0 0 10 10) (QRect.ofXYWH 0 0 10 10) ⟨5, 5⟩
      (by decide) (by decide) (by decide) (by decide)).2.2.2.1 2 (le_refl 2)⟩

/-- C26: for a rectangle `r` inside the raster with non-zero sum, the run of
`findBlackPixelCloseToCenter` on `r` with every `assert` evaluated (the entry
assertion of each call, the two containment assertions of each round of the
loop, the two assertions of the bottom-edge stage) ends with the returned point
and not with a failed assertion; the point satisfies `r.contains(point)`, the
entry assertion of `extendBlackPixelToBlackBox`, whose run on that point and
`r`, as in `subdivideUsingRaster`, passes its assertions as well. -/
theorem pixel_search_asserts_hold (ii : IntegralImage) (r : QRect)
    (_hin : r.Inside ii.img.rect) (hs : ii.sum r ≠ 0) :
    findBlackPixelCloseToCenterChecked ii 2 r = Checked.ok (findBlackPixelCloseToCenter ii r) ∧
    r.containsPoint (findBlackPixelCloseToCenter ii r) = true ∧
    extendBlackPixelToBlackBoxChecked ii (findBlackPixelCloseToCenter ii r) r =
      Checked.ok (extendBlackPixelToBlackBox ii (findBlackPixelCloseToCenter ii r) r) := by
  have hv := valid_of_sum_ne_zero ii r hs
  have hp := (findBlackPixelCloseToCenter_spec ii r hv hs).1
  exact ⟨findBlackPixelCloseToCenterChecked_eq ii 2 r hv hs (Or.inl (le_refl 2)),
    QRect.containsPoint_of_covers hp, extendBlackPixelToBlackBoxChecked_eq ii _ r hp⟩

theorem pixel_search_asserts_hold_witness :
    (QRect.ofXYWH 0 0 10 10).Inside (IntegralImage.mk blobImage).img.rect ∧
    (IntegralImage.mk blobImage).sum (QRect.ofXYWH 0 0 10 10) ≠ 0 ∧
    findBlackPixelCloseToCenterChecked ⟨blobImage⟩ 2 (QRect.ofXYWH 0 0 10 10) =
      Checked.ok ⟨4, 4⟩ ∧
    (QRect.ofXYWH 0 0 10 10).containsPoint
      (findBlackPixelCloseToCenter ⟨blobImage⟩ (QRect.ofXYWH 0 0 10 10)) = true :=
  ⟨by decide, by decide, by decide,
    (pixel_search_asserts_hold ⟨blobImage⟩ (QRect.ofXYWH 0 0 10 10)
      (by decide) (by decide)).2.1⟩

/-! ## A termination measure for the search -/

theorem potential_append (a b : List Region) : potential (a ++ b) = potential a + potential b := by
  simp [potential]

theorem popWeight_pos (r : QRect) : 1 ≤ popWeight r := Nat.one_le_pow _ _ (by decide)

theorem potential_eq_zero {q : List Region} (h : potential q = 0) : q = [] := by
  cases q with
  | nil => rfl
  | cons g rest =>
    have := popWeight_pos g.m_bounds
    simp only [potential, List.map_cons, List.sum_cons] at h
    omega

theorem potential_pop {q : PriorityStorage} {t : Region}
    (ht : PriorityStorage.top q = some t) :
    potential q = potential (PriorityStorage.pop q) + popWeight t.m_bounds := by
  induction q generalizing t with
  | nil => simp [PriorityStorage.top] at ht
  | cons a rest ih =>
    simp only [PriorityStorage.top] at ht
    simp only [PriorityStorage.pop]
    cases hr : PriorityStorage.top rest with
    | none =>
      rw [hr] at ht
      have : rest = [] := (PriorityStorage.top_eq_none_iff rest).mp hr
      subst this
      simp only [Option.some.injEq] at ht
      subst ht
      simp [potential]
    | some u =>
      rw [hr] at ht
      simp only at ht ⊢
      by_cases c : AreaCompare a.m_bounds u.m_bounds
      · rw [if_pos c] at ht ⊢
        simp only [Option.some.injEq] at ht
        subst ht
        have := ih hr
        simp only [potential, List.map_cons, List.sum_cons] at this ⊢
        omega
      · rw [if_neg c] at ht ⊢
        simp only [Option.some.injEq] at ht
        subst ht
        simp only [potential, List.map_cons, List.sum_cons]
        omega

theorem potential_le (q : List Region) (w : Nat)
    (h : ∀ g ∈ q, popWeight g.m_bounds ≤ w) : potential q ≤ q.length * w := by
  induction q with
  | nil => simp [potential]
  | cons g rest ih =>
    have h1 := h g (by simp)
    have h2 := ih (fun x hx => h x (List.mem_cons_of_mem _ hx))
    simp only [potential, List.map_cons, List.sum_cons, List.length_cons] at h2 ⊢
    rw [Nat.succ_mul]
    omega

theorem subdivideChildren_length_le (s : MaxWhitespaceFinder) (region : Region)
    (bounds pivot : QRect) : (subdivideChildren s region bounds pivot).length ≤ 4 := by
  unfold subdivideChildren
  simp only [List.length_append]
  split_ifs <;> simp

theorem child_area_lt (s : MaxWhitespaceFinder) (region : Region) (bounds pivot : QRect)
    (hw : 1 ≤ s.m_minSize.width) (hh : 1 ≤ s.m_minSize.height)
    (hpv : pivot.Valid) (hpi : pivot.Inside bounds)
    {c : Region} (hc : c ∈ subdivideChildren s region bounds pivot) :
    c.m_bounds.Valid ∧ c.m_bounds.area < bounds.area := by
  have hside : c.m_bounds.Valid ∧
      ((c.m_bounds.width < bounds.width ∧ c.m_bounds.height = bounds.height) ∨
        (c.m_bounds.width = bounds.width ∧ c.m_bounds.height < bounds.height)) := by
    simp only [QRect.Valid, QRect.Inside] at hpv hpi
    rcases mem_subdivideChildren hc with ⟨k, rfl⟩ | ⟨k, rfl⟩ | ⟨k, rfl⟩ | ⟨k, rfl⟩ <;>
      simp only [newRegion_bounds, QRect.setBottom, QRect.setTop, QRect.setLeft, QRect.setRight,
        QRect.Valid, QRect.width, QRect.height, true_and, and_true] <;> omega
  obtain ⟨hv, ha⟩ := hside
  refine ⟨hv, ?_⟩
  have hcw : 0 < c.m_bounds.width := by unfold QRect.width; have := hv.1; omega
  have hch : 0 < c.m_bounds.height := by unfold QRect.height; have := hv.2; omega
  unfold QRect.area
  rcases ha with ⟨a, b⟩ | ⟨a, b⟩
  · rw [b]; exact mul_lt_mul_of_pos_right a (by omega)
  · rw [a]; exact mul_lt_mul_of_pos_left b (by omega)

theorem pow_five_step (a : Nat) (h : 1 ≤ a) : 4 * 5 ^ (a - 1) + 1 ≤ 5 ^ a := by
  obtain ⟨b, rfl⟩ : ∃ b, a = b + 1 := ⟨a - 1, by omega⟩
  have h1 : 1 ≤ 5 ^ b := Nat.one_le_pow _ _ (by decide)
  simp only [Nat.add_sub_cancel, pow_succ]
  omega

theorem potential_children (s : MaxWhitespaceFinder) (region : Region) (bounds pivot : QRect)
    (hw : 1 ≤ s.m_minSize.width) (hh : 1 ≤ s.m_minSize.height)
    (hpv : pivot.Valid) (hpi : pivot.Inside bounds) :
    potential (subdivideChildren s region bounds pivot) + 1 ≤ popWeight bounds := by
  have hbv : bounds.Valid := by
    simp only [QRect.Valid, QRect.Inside] at hpv hpi ⊢
    omega
  have hba : 1 ≤ bounds.area := by
    unfold QRect.area QRect.width QRect.height
    have := hbv.1
    have := hbv.2
    exact one_le_mul_of_one_le_of_one_le (by omega) (by omega)
  have h1 := potential_le (subdivideChildren s region bounds pivot)
    (5 ^ (bounds.area.toNat - 1)) (by
      intro c hc
      have := (child_area_lt s region bounds pivot hw hh hpv hpi hc).2
      unfold popWeight
      exact Nat.pow_le_pow_right (by decide) (by omega))
  have h2 := subdivideChildren_length_le s region bounds pivot
  have h3 := pow_five_step bounds.area.toNat (by omega)
  have h4 : (subdivideChildren s region bounds pivot).length * 5 ^ (bounds.area.toNat - 1) ≤
      4 * 5 ^ (bounds.area.toNat - 1) := Nat.mul_le_mul_right _ h2
  unfold popWeight
  omega

theorem TermInv_merged {s : MaxWhitespaceFinder} (hs : TermInv s) {t : Region}
    (ht : t ∈ s.m_queuedRegions) (l : List QRect) :
    ∀ o ∈ (t.addNewObstacles l).m_obstacles, o.Valid ∧ o.Inside t.m_bounds := by
  intro o ho
  have hg := hs.2.2 t ht
  rcases mem_addNewObstacles.mp ho with ho | ⟨b, _, rfl, he⟩
  · exact hg.2 o ho
  · exact ⟨intersected_valid he, intersected_inside_right he hg.1.1 hg.1.2⟩

theorem TermInv_popTop {s : MaxWhitespaceFinder} (hs : TermInv s) : TermInv s.popTop :=
  ⟨hs.1, hs.2.1, fun g hg => hs.2.2 g (mem_popTop_queue hg)⟩

theorem TermInv_subdivide {s : MaxWhitespaceFinder} (hs : TermInv s) {t : Region}
    (ht : PriorityStorage.top s.m_queuedRegions = some t) (region : Region) (pivot : QRect)
    (hpv : pivot.Valid) (hpi : pivot.Inside t.m_bounds) :
    TermInv (s.popTop.subdivide region t.m_bounds pivot) ∧
    potential (s.popTop.subdivide region t.m_bounds pivot).m_queuedRegions + 1 ≤
      potential s.m_queuedRegions := by
  have hd := (hs.2.2 t (PriorityStorage.top_mem ht)).1
  rw [subdivide_eq]
  refine ⟨⟨hs.1, hs.2.1, ?_⟩, ?_⟩
  · intro g hg
    rcases List.mem_append.mp hg with hg | hg
    · exact hs.2.2 g (mem_popTop_queue hg)
    · obtain ⟨cd, _, _, co⟩ := child_bounds_facts s.popTop region t.m_bounds pivot hg hd hpv hpi
      refine ⟨cd, fun o ho => ?_⟩
      obtain ⟨p, _, rfl, he⟩ := (co o).mp ho
      exact ⟨intersected_valid he, intersected_inside_right he cd.1 cd.2⟩
  · have h1 := potential_pop ht
    have h2 := potential_children s.popTop region t.m_bounds pivot hs.1 hs.2.1 hpv hpi
    have h3 : potential (s.popTop.m_queuedRegions ++
        subdivideChildren s.popTop region t.m_bounds pivot) =
        potential (PriorityStorage.pop s.m_queuedRegions) +
          potential (subdivideChildren s.popTop region t.m_bounds pivot) :=
      potential_append _ _
    simp only at h3 ⊢
    omega

theorem nextLoop_measure (mode : ObstacleMode) (n : Nat) :
    ∀ (s : MaxWhitespaceFinder) (k : Nat), TermInv s →
      TermInv (nextLoop mode n s k).state ∧
      potential (nextLoop mode n s k).state.m_queuedRegions + (nextLoop mode n s k).pops ≤
        potential s.m_queuedRegions + k ∧
      k ≤ (nextLoop mode n s k).pops ∧
      (1 ≤ n → s.m_queuedRegions ≠ [] → k + 1 ≤ (nextLoop mode n s k).pops) := by
  induction n with
  | zero =>
    intro s k hs
    simp only [nextLoop]
    exact ⟨hs, le_refl _, le_refl _, fun h => absurd h (by decide)⟩
  | succ n ih =>
    intro s k hs
    cases ht : PriorityStorage.top s.m_queuedRegions with
    | none =>
      rw [nextLoop_succ_none ht]
      exact ⟨hs, le_refl _, le_refl _,
        fun _ hq => absurd ((PriorityStorage.top_eq_none_iff _).mp ht) hq⟩
    | some t =>
      have htm := PriorityStorage.top_mem ht
      by_cases c1 : (t.addNewObstacles s.m_newObstacles).m_obstacles = []
      · by_cases c2 : s.m_integralImg.sum t.m_bounds = 0
        · rw [nextLoop_succ_result ht c1 c2]
          simp only
          have h1 := potential_pop ht
          have h2 := popWeight_pos t.m_bounds
          refine ⟨?_, ?_, by omega, fun _ _ => le_refl _⟩
          · have := TermInv_popTop hs
            refine ⟨by rw [registerResult_minSize]; exact this.1,
              by rw [registerResult_minSize]; exact this.2.1, ?_⟩
            rw [registerResult_queue]
            exact this.2.2
          · rw [registerResult_queue]
            have e : s.popTop.m_queuedRegions = PriorityStorage.pop s.m_queuedRegions := rfl
            rw [e]
            omega
        · rw [nextLoop_succ_raster ht c1 c2]
          have hp := raster_pivot_spec s.m_integralImg t.m_bounds
            (valid_of_sum_ne_zero _ _ c2) c2
          have hstep := TermInv_subdivide hs ht (t.addNewObstacles s.m_newObstacles) _ hp.1 hp.2.1
          have hstep : TermInv (s.popTop.subdivideUsingRaster
              (t.addNewObstacles s.m_newObstacles)) ∧
              potential (s.popTop.subdivideUsingRaster
                (t.addNewObstacles s.m_newObstacles)).m_queuedRegions + 1 ≤
                potential s.m_queuedRegions := hstep
          obtain ⟨i1, i2, i3, _⟩ := ih _ (k + 1) hstep.1
          exact ⟨i1, by omega, by omega, fun _ _ => i3⟩
      · rw [nextLoop_succ_obstacles ht c1]
        have hm := findPivotObstacle_mem (t.addNewObstacles s.m_newObstacles) c1
        have hp := TermInv_merged hs htm s.m_newObstacles _ hm
        have hstep := TermInv_subdivide hs ht (t.addNewObstacles s.m_newObstacles) _ hp.1 hp.2
        have hstep : TermInv (s.popTop.subdivideUsingObstacles
            (t.addNewObstacles s.m_newObstacles)) ∧
            potential (s.popTop.subdivideUsingObstacles
              (t.addNewObstacles s.m_newObstacles)).m_queuedRegions + 1 ≤
              potential s.m_queuedRegions := hstep
        obtain ⟨i1, i2, i3, _⟩ := ih _ (k + 1) hstep.1
        exact ⟨i1, by omega, by omega, fun _ _ => i3⟩

theorem runPops_measure (calls : List (ObstacleMode × Int)) :
    ∀ s : MaxWhitespaceFinder, TermInv s → (∀ c ∈ calls, 1 ≤ c.2) →
      TermInv (runCalls s (calls.map fun c => Call.next c.1 c.2)).1 ∧
      potential (runCalls s (calls.map fun c => Call.next c.1 c.2)).1.m_queuedRegions +
        runPops s (calls.map fun c => Call.next c.1 c.2) ≤ potential s.m_queuedRegions ∧
      ((runCalls s (calls.map fun c => Call.next c.1 c.2)).1.m_queuedRegions = [] ∨
        calls.length ≤ runPops s (calls.map fun c => Call.next c.1 c.2)) := by
  induction calls with
  | nil =>
    intro s hs _
    simp only [List.map_nil, runCalls, runPops, List.length_nil]
    exact ⟨hs, le_refl _, Or.inr (le_refl _)⟩
  | cons c rest ih =>
    intro s hs hpos
    obtain ⟨m1, m2, _, m4⟩ := nextLoop_measure c.1 c.2.toNat s 0 hs
    have m1 : TermInv (s.next c.1 c.2).2 := m1
    have m2 : potential (s.next c.1 c.2).2.m_queuedRegions + (s.nextCounted c.1 c.2).pops ≤
        potential s.m_queuedRegions + 0 := m2
    have m4 : 1 ≤ c.2.toNat → s.m_queuedRegions ≠ [] → 0 + 1 ≤ (s.nextCounted c.1 c.2).pops := m4
    obtain ⟨r1, r2, r3⟩ := ih (s.next c.1 c.2).2 m1
      (fun x hx => hpos x (List.mem_cons_of_mem _ hx))
    simp only [List.map_cons, runCalls, runPops, List.length_cons]
    refine ⟨r1, by omega, ?_⟩
    rcases r3 with r3 | r3
    · exact Or.inl r3
    · by_cases hq : s.m_queuedRegions = []
      · left
        have hz : potential s.m_queuedRegions = 0 := by rw [hq]; rfl
        exact potential_eq_zero (by omega)
      · right
        have := m4 (by have := hpos c (by simp); omega) hq
        omega

theorem runPops_addObstacles (s : MaxWhitespaceFinder) (g : Region) (obs : List QRect)
    (rest : List Call) (hq : s.m_queuedRegions = [g])
    (hobs : ∀ o ∈ obs, o.Valid ∧ o.Inside g.m_bounds) :
    runPops s (obs.map Call.addObstacle ++ rest) =
      runPops { s with m_queuedRegions :=
        [⟨g.m_knownNewObstacles, g.m_bounds, g.m_obstacles ++ obs⟩] } rest := by
  induction obs generalizing s g with
  | nil =>
    simp only [List.map_nil, List.nil_append, List.append_nil]
    congr 1
    cases s
    simp only at hq
    subst hq
    rfl
  | cons o obs ih =>
    have e : runPops s ((o :: obs).map Call.addObstacle ++ rest) =
        runPops (s.addObstacle o) (obs.map Call.addObstacle ++ rest) := rfl
    have ho := hobs o (List.mem_cons_self _ _)
    have e2 := Region.addObstacle_of_inside g ho.1 ho.2
    rw [e, ih (s.addObstacle o) (g.addObstacle o) (addObstacle_queue_single o hq)
      (fun o' ho' => by rw [e2]; exact hobs o' (List.mem_cons_of_mem _ ho'))]
    congr 1
    unfold MaxWhitespaceFinder.addObstacle
    rw [hq]
    simp [e2]

theorem runPops_seeded (img : BinaryImage) (min_size : QSize) (obs : List QRect)
    (rest : List Call) (hobs : ∀ o ∈ obs, o.Valid ∧ o.Inside img.rect) :
    runPops (MaxWhitespaceFinder.new img min_size) (obs.map Call.addObstacle ++ rest) =
      runPops (seeded img min_size obs) rest := by
  rw [runPops_addObstacles _ (Region.new 0 img.rect) obs rest rfl hobs]
  rfl

theorem TermInv_seeded (img : BinaryImage) (min_size : QSize) (obs : List QRect)
    (hw : 1 ≤ min_size.width) (hh : 1 ≤ min_size.height)
    (hobs : ∀ o ∈ obs, o.Valid ∧ o.Inside img.rect) :
    TermInv (seeded img min_size obs) ∧
    potential (seeded img min_size obs).m_queuedRegions = 5 ^ (img.width * img.height) := by
  refine ⟨⟨hw, hh, ?_⟩, ?_⟩
  · intro g hg
    simp only [seeded, List.mem_singleton] at hg
    subst hg
    refine ⟨?_, hobs⟩
    simp only [BinaryImage.rect, QRect.ofXYWH]
    omega
  · have e : (img.rect.area).toNat = img.width * img.height := by
      have : img.rect.area = ((img.width * img.height : Nat) : Int) := by
        simp only [BinaryImage.rect, QRect.ofXYWH, QRect.area, QRect.width, QRect.height]
        push_cast
        ring
      rw [this]
      exact Int.toNat_natCast _
    simp only [seeded, potential, popWeight, List.map_cons, List.map_nil, List.sum_cons,
      List.sum_nil, Nat.add_zero]
    rw [e]

/-- C23: for `min_size >= (1, 1)` and caller obstacles that are non-empty,
inside the raster and added before the first `next`, the `next` calls of any
sequence with positive budgets (in any modes) pop at most
`N = 5 ^ (width * height)` regions in total; unless the frontier is empty every
such call pops at least one region, so after `N` calls at the latest the
frontier is empty; and on an empty frontier every `next` returns the null
rectangle and leaves the state as it is. -/
theorem search_exhausts (img : BinaryImage) (min_size : QSize) (obs : List QRect)
    (calls : List (ObstacleMode × Int))
    (hw : 1 ≤ min_size.width) (hh : 1 ≤ min_size.height)
    (hobs : ∀ o ∈ obs, o.Valid ∧ o.Inside img.rect) (hpos : ∀ c ∈ calls, 1 ≤ c.2) :
    runPops (new img min_size)
      (obs.map Call.addObstacle ++ calls.map fun c => Call.next c.1 c.2) ≤
      5 ^ (img.width * img.height) ∧
    ((runCalls (new img min_size)
        (obs.map Call.addObstacle ++ calls.map fun c => Call.next c.1 c.2)).1.m_queuedRegions
        = [] ∨
      calls.length ≤ runPops (new img min_size)
        (obs.map Call.addObstacle ++ calls.map fun c => Call.next c.1 c.2)) ∧
    (5 ^ (img.width * img.height) ≤ calls.length →
      (runCalls (new img min_size)
        (obs.map Call.addObstacle ++ calls.map fun c => Call.next c.1 c.2)).1.m_queuedRegions
        = []) ∧
    ((runCalls (new img min_size)
        (obs.map Call.addObstacle ++ calls.map fun c => Call.next c.1 c.2)).1.m_queuedRegions
        = [] →
      ∀ (mode : ObstacleMode) (n : Int),
        (runCalls (new img min_size)
          (obs.map Call.addObstacle ++ calls.map fun c => Call.next c.1 c.2)).1.next mode n =
        (QRect.null, (runCalls (new img min_size)
          (obs.map Call.addObstacle ++ calls.map fun c => Call.next c.1 c.2)).1)) := by
  rw [runCalls_seeded img min_size obs _ hobs, runPops_seeded img min_size obs _ hobs]
  obtain ⟨hinv, hpot⟩ := TermInv_seeded img min_size obs hw hh hobs
  obtain ⟨_, m2, m3⟩ := runPops_measure calls (seeded img min_size obs) hinv hpos
  rw [hpot] at m2
  refine ⟨by omega, m3, fun hlen => ?_, fun hq mode n => ?_⟩
  · rcases m3 with m3 | m3
    · exact m3
    · exact potential_eq_zero (by omega)
  · unfold MaxWhitespaceFinder.next nextCounted
    rw [nextLoop_empty mode _ _ 0 hq]

theorem search_exhausts_witness :
    (∀ o ∈ [QRect.ofXYWH 4 4 2 2], o.Valid ∧ o.Inside (whiteImage 10 10).rect) ∧
    (∀ c ∈ [(ObstacleMode.AUTO_OBSTACLES, (1 : Int)), (ObstacleMode.MANUAL_OBSTACLES, 1000)],
      1 ≤ c.2) ∧
    runPops (new (whiteImage 10 10) ⟨1, 1⟩)
      ([QRect.ofXYWH 4 4 2 2].map Call.addObstacle ++
        [(ObstacleMode.AUTO_OBSTACLES, (1 : Int)), (ObstacleMode.MANUAL_OBSTACLES, 1000)].map
          fun c => Call.next c.1 c.2) = 2 ∧
    runPops (new (whiteImage 10 10) ⟨1, 1⟩)
      ([QRect.ofXYWH 4 4 2 2].map Call.addObstacle ++
        [(ObstacleMode.AUTO_OBSTACLES, (1 : Int)), (ObstacleMode.MANUAL_OBSTACLES, 1000)].map
          fun c => Call.next c.1 c.2) ≤ 5 ^ (10 * 10) :=
  ⟨by decide, by decide, by decide,
    (search_exhausts (whiteImage 10 10) ⟨1, 1⟩ [QRect.ofXYWH 4 4 2 2]
      [(ObstacleMode.AUTO_OBSTACLES, 1), (ObstacleMode.MANUAL_OBSTACLES, 1000)]
      (by decide) (by decide) (by decide) (by decide)).1⟩

/-! ## States reached by any sequence of calls -/

theorem Region.mem_addObstacle {t : Region} {o o' : QRect} :
    o' ∈ (t.addObstacle o).m_obstacles ↔
      o' ∈ t.m_obstacles ∨ (o' = o.intersected t.m_bounds ∧ o'.isEmpty = false) := by
  simp only [Region.addObstacle, List.mem_append, List.mem_filter, List.mem_singleton,
    Bool.not_eq_true', Bool.not_eq_eq_eq_not, Bool.not_true]

theorem CallInv_new (img : BinaryImage) (min_size : QSize) :
    CallInv img [] (MaxWhitespaceFinder.new img min_size) := by
  have hmem : ∀ g ∈ (MaxWhitespaceFinder.new img min_size).m_queuedRegions,
      g = Region.new 0 img.rect := by
    intro g hg
    simpa [MaxWhitespaceFinder.new, PriorityStorage.push] using hg
  refine ⟨rfl, ?_, ?_, ?_, ?_, ?_, ?_⟩
  · intro g hg
    rw [hmem g hg]
    simp only [Region.new, BinaryImage.rect, QRect.ofXYWH]
    omega
  · intro g hg
    rw [hmem g hg]
    exact QRect.Inside.refl _
  · intro g hg o ho
    rw [hmem g hg] at ho
    simp [Region.new] at ho
  · intro g hg
    rw [hmem g hg]
    exact Nat.zero_le _
  · intro g _ b hb
    simp at hb
  · intro g hg hn
    have e := hmem g hg
    subst e
    refine ⟨rfl, ?_⟩
    simp only [Region.new, BinaryImage.rect, QRect.ofXYWH, QRect.isNull, Bool.and_eq_true,
      beq_iff_eq] at hn ⊢
    simp only [QRect.null, QRect.mk.injEq, true_and]
    omega

theorem CallInv_addObstacle {img : BinaryImage} {obs : List QRect} {s : MaxWhitespaceFinder}
    (h : CallInv img obs s) (o : QRect) : CallInv img (obs ++ [o]) (s.addObstacle o) := by
  by_cases hq : ∃ t, s.m_queuedRegions = [t]
  · obtain ⟨t, ht⟩ := hq
    have e : s.addObstacle o = { s with m_queuedRegions := [t.addObstacle o] } := by
      unfold MaxWhitespaceFinder.addObstacle
      rw [ht]
    have htm : t ∈ s.m_queuedRegions := by rw [ht]; simp
    rw [e]
    refine ⟨h.img_eq, ?_, ?_, ?_, ?_, ?_, ?_⟩
    · intro g hg
      have hg : g = t.addObstacle o := List.mem_singleton.mp hg
      subst hg
      exact h.dims t htm
    · intro g hg
      have hg : g = t.addObstacle o := List.mem_singleton.mp hg
      subst hg
      exact h.inside t htm
    · intro g hg o' ho'
      have hg : g = t.addObstacle o := List.mem_singleton.mp hg
      subst hg
      rcases Region.mem_addObstacle.mp ho' with h1 | ⟨rfl, he⟩
      · exact h.obst t htm o' h1
      · exact ⟨intersected_valid he,
          intersected_inside_right he (h.dims t htm).1 (h.dims t htm).2⟩
    · intro g hg
      have hg : g = t.addObstacle o := List.mem_singleton.mp hg
      subst hg
      exact h.known t htm
    · intro g hg b hb x y hx hbx
      have hg : g = t.addObstacle o := List.mem_singleton.mp hg
      subst hg
      rcases List.mem_append.mp hb with hb | hb
      · rcases h.tracked t htm b hb x y hx hbx with ⟨o', ho', hc⟩ | hp
        · exact Or.inl ⟨o', Region.mem_addObstacle.mpr (Or.inl ho'), hc⟩
        · exact Or.inr hp
      · have hb : b = o := List.mem_singleton.mp hb
        subst hb
        have hi := intersected_covers hbx hx
        exact Or.inl ⟨b.intersected t.m_bounds,
          Region.mem_addObstacle.mpr (Or.inr ⟨rfl, hi.1⟩), hi.2⟩
    · intro g hg hn
      have hg : g = t.addObstacle o := List.mem_singleton.mp hg
      subst hg
      exact ⟨rfl, (h.alone t htm hn).2⟩
  · have hq : ∀ t, s.m_queuedRegions ≠ [t] := fun t ht => hq ⟨t, ht⟩
    have e : s.addObstacle o = { s with m_newObstacles := s.m_newObstacles ++ [o] } := by
      unfold MaxWhitespaceFinder.addObstacle
      split
      · rename_i t ht
        exact absurd ht (hq t)
      · rfl
    rw [e]
    refine ⟨h.img_eq, h.dims, h.inside, h.obst, ?_, ?_, h.alone⟩
    · intro g hg
      show g.m_knownNewObstacles ≤ (s.m_newObstacles ++ [o]).length
      rw [List.length_append]
      exact Nat.le_add_right_of_le (h.known g hg)
    · intro g hg b hb x y hx hbx
      show _ ∨ b ∈ (s.m_newObstacles ++ [o]).drop g.m_knownNewObstacles
      rw [List.drop_append_of_le_length (h.known g hg)]
      rcases List.mem_append.mp hb with hb | hb
      · rcases h.tracked g hg b hb x y hx hbx with h1 | h1
        · exact Or.inl h1
        · exact Or.inr (List.mem_append_left _ h1)
      · exact Or.inr (List.mem_append_right _ hb)

theorem CallInv_not_null_of_mem_pop {img : BinaryImage} {obs : List QRect}
    {s : MaxWhitespaceFinder} (h : CallInv img obs s)
    {g : Region} (hg : g ∈ s.popTop.m_queuedRegions) : g.m_bounds.isNull = false := by
  by_contra hn
  have hn : g.m_bounds.isNull = true := by simpa using hn
  have h1 := (h.alone g (mem_popTop_queue hg) hn).1
  have : s.popTop.m_queuedRegions = [] := by
    unfold popTop
    simp only
    rw [h1]
    exact PriorityStorage.pop_singleton g
  rw [this] at hg
  simp at hg

theorem merged_valid_inside {img : BinaryImage} {obs : List QRect} {s : MaxWhitespaceFinder}
    (h : CallInv img obs s) {t : Region} (ht : t ∈ s.m_queuedRegions) :
    ∀ o ∈ (t.addNewObstacles s.m_newObstacles).m_obstacles, o.Valid ∧ o.Inside t.m_bounds := by
  intro o ho
  rcases mem_addNewObstacles.mp ho with ho | ⟨b, _, rfl, he⟩
  · exact h.obst t ht o ho
  · exact ⟨intersected_valid he, intersected_inside_right he (h.dims t ht).1 (h.dims t ht).2⟩

theorem merged_tracked {img : BinaryImage} {obs : List QRect} {s : MaxWhitespaceFinder}
    (h : CallInv img obs s) {t : Region} (ht : t ∈ s.m_queuedRegions) :
    ∀ b ∈ obs, ∀ x y, t.m_bounds.Covers x y → b.Covers x y →
      ∃ o ∈ (t.addNewObstacles s.m_newObstacles).m_obstacles, o.Covers x y := by
  intro b hb x y hx hbx
  rcases h.tracked t ht b hb x y hx hbx with ⟨o, ho, hc⟩ | hp
  · exact ⟨o, mem_addNewObstacles.mpr (Or.inl ho), hc⟩
  · have hi := intersected_covers hbx hx
    exact ⟨b.intersected t.m_bounds, mem_addNewObstacles.mpr (Or.inr ⟨b, hp, rfl, hi.1⟩), hi.2⟩

theorem CallInv_subdivide {img : BinaryImage} {obs : List QRect} {s : MaxWhitespaceFinder}
    (h : CallInv img obs s) {t : Region}
    (ht : PriorityStorage.top s.m_queuedRegions = some t) (pivot : QRect)
    (hpv : pivot.Valid) (hpi : pivot.Inside t.m_bounds) :
    CallInv img obs
      (s.popTop.subdivide (t.addNewObstacles s.m_newObstacles) t.m_bounds pivot) := by
  rw [subdivide_eq]
  have htm := PriorityStorage.top_mem ht
  have hfacts := fun (c : Region) hc => child_bounds_facts s.popTop
    (t.addNewObstacles s.m_newObstacles) t.m_bounds pivot (c := c) hc (h.dims t htm) hpv hpi
  refine ⟨h.img_eq, ?_, ?_, ?_, ?_, ?_, ?_⟩
  · intro g hg
    rcases List.mem_append.mp hg with hg | hg
    · exact h.dims g (mem_popTop_queue hg)
    · exact (hfacts g hg).1
  · intro g hg
    rcases List.mem_append.mp hg with hg | hg
    · exact h.inside g (mem_popTop_queue hg)
    · exact (hfacts g hg).2.1.trans (h.inside t htm)
  · intro g hg o ho
    rcases List.mem_append.mp hg with hg | hg
    · exact h.obst g (mem_popTop_queue hg) o ho
    · obtain ⟨hd, _, _, hobs⟩ := hfacts g hg
      obtain ⟨p, _, rfl, he⟩ := (hobs o).mp ho
      exact ⟨intersected_valid he, intersected_inside_right he hd.1 hd.2⟩
  · intro g hg
    rcases List.mem_append.mp hg with hg | hg
    · exact h.known g (mem_popTop_queue hg)
    · rw [(hfacts g hg).2.2.1]
  · intro g hg b hb x y hx hbx
    rcases List.mem_append.mp hg with hg | hg
    · exact h.tracked g (mem_popTop_queue hg) b hb x y hx hbx
    · obtain ⟨_, hin, _, hobs⟩ := hfacts g hg
      obtain ⟨o, ho, hc⟩ := merged_tracked h htm b hb x y (hin.covers hx) hbx
      have hi := intersected_covers hc hx
      exact Or.inl ⟨o.intersected g.m_bounds, (hobs _).mpr ⟨o, ho, rfl, hi.1⟩, hi.2⟩
  · intro g hg hn
    exfalso
    rcases List.mem_append.mp hg with hg | hg
    · rw [CallInv_not_null_of_mem_pop h hg] at hn
      exact Bool.false_ne_true hn
    · simp only [QRect.Valid, QRect.Inside] at hpv hpi
      rcases mem_subdivideChildren hg with ⟨c, rfl⟩ | ⟨c, rfl⟩ | ⟨c, rfl⟩ | ⟨c, rfl⟩ <;>
        simp only [newRegion_bounds, QRect.isNull, QRect.setBottom, QRect.setTop, QRect.setLeft,
          QRect.setRight, Bool.and_eq_true, beq_iff_eq] at hn <;>
        omega

theorem registerResult_newObstacles (s : MaxWhitespaceFinder) (mode : ObstacleMode)
    (b : QRect) : ∃ l, (s.registerResult mode b).m_newObstacles = s.m_newObstacles ++ l := by
  unfold registerResult
  split_ifs
  · exact ⟨[b], rfl⟩
  · exact ⟨[], (List.append_nil _).symm⟩

theorem CallInv_register {img : BinaryImage} {obs : List QRect} {s : MaxWhitespaceFinder}
    (h : CallInv img obs s) (mode : ObstacleMode) (b : QRect) :
    CallInv img obs (s.popTop.registerResult mode b) := by
  obtain ⟨l, hl⟩ := registerResult_newObstacles s.popTop mode b
  have hl : (s.popTop.registerResult mode b).m_newObstacles = s.m_newObstacles ++ l := hl
  refine ⟨?_, ?_, ?_, ?_, ?_, ?_, ?_⟩
  · rw [registerResult_integralImg]; exact h.img_eq
  · rw [registerResult_queue]
    intro g hg
    exact h.dims g (mem_popTop_queue hg)
  · rw [registerResult_queue]
    intro g hg
    exact h.inside g (mem_popTop_queue hg)
  · rw [registerResult_queue]
    intro g hg
    exact h.obst g (mem_popTop_queue hg)
  · rw [registerResult_queue, hl]
    intro g hg
    rw [List.length_append]
    exact Nat.le_add_right_of_le (h.known g (mem_popTop_queue hg))
  · rw [registerResult_queue, hl]
    intro g hg b' hb' x y hx hbx
    rw [List.drop_append_of_le_length (h.known g (mem_popTop_queue hg))]
    rcases h.tracked g (mem_popTop_queue hg) b' hb' x y hx hbx with h1 | h1
    · exact Or.inl h1
    · exact Or.inr (List.mem_append_left _ h1)
  · rw [registerResult_queue]
    intro g hg hn
    rw [CallInv_not_null_of_mem_pop h hg] at hn
    exact absurd hn Bool.false_ne_true

theorem CallInv_obstacle_step {img : BinaryImage} {obs : List QRect} {s : MaxWhitespaceFinder}
    (h : CallInv img obs s) {t : Region}
    (ht : PriorityStorage.top s.m_queuedRegions = some t)
    (hne : (t.addNewObstacles s.m_newObstacles).m_obstacles ≠ []) :
    CallInv img obs (s.popTop.subdivideUsingObstacles (t.addNewObstacles s.m_newObstacles)) := by
  have hp := findPivotObstacle_mem (t.addNewObstacles s.m_newObstacles) hne
  obtain ⟨pv, pi⟩ := merged_valid_inside h (PriorityStorage.top_mem ht) _ hp
  exact CallInv_subdivide h ht _ pv pi

theorem CallInv_raster_step {img : BinaryImage} {obs : List QRect} {s : MaxWhitespaceFinder}
    (h : CallInv img obs s) {t : Region}
    (ht : PriorityStorage.top s.m_queuedRegions = some t)
    (hsum : s.m_integralImg.sum t.m_bounds ≠ 0) :
    CallInv img obs (s.popTop.subdivideUsingRaster (t.addNewObstacles s.m_newObstacles)) := by
  have hii : s.popTop.m_integralImg = ⟨img⟩ := h.img_eq
  have hsum : (IntegralImage.mk img).sum t.m_bounds ≠ 0 := by
    rw [← h.img_eq]; exact hsum
  obtain ⟨pv, pi, _⟩ := raster_pivot_spec ⟨img⟩ t.m_bounds
    (valid_of_sum_ne_zero _ _ hsum) hsum
  unfold subdivideUsingRaster
  simp only [hii]
  exact CallInv_subdivide h ht _ pv pi

theorem null_inside_raster (img : BinaryImage) : QRect.null.Inside img.rect := by
  simp only [QRect.Inside, QRect.null, BinaryImage.rect, QRect.ofXYWH]
  omega

theorem CallInv_next {img : BinaryImage} {obs : List QRect} {s : MaxWhitespaceFinder}
    (h : CallInv img obs s) (mode : ObstacleMode) (n : Int) :
    CallInv img obs (s.next mode n).2 ∧ (s.next mode n).1.Inside img.rect ∧
    ∀ b ∈ obs, ¬ (s.next mode n).1.Meets b := by
  refine next_induction mode (CallInv img obs)
    (fun r u => CallInv img obs u ∧ r.Inside img.rect ∧ ∀ b ∈ obs, ¬ r.Meets b)
    ?_ ?_ ?_ ?_ n s h
  · intro u hu
    refine ⟨hu, null_inside_raster img, ?_⟩
    intro b _ hm
    obtain ⟨x, y, hc, _⟩ := hm
    simp only [QRect.Covers, QRect.null] at hc
    omega
  · intro u t hu ht hne
    exact CallInv_obstacle_step hu ht hne
  · intro u t hu ht _ hsum
    exact CallInv_raster_step hu ht hsum
  · intro u t hu ht hobs _
    refine ⟨CallInv_register hu mode _, hu.inside t (PriorityStorage.top_mem ht), ?_⟩
    intro b hb hm
    obtain ⟨x, y, htx, hbx⟩ := hm
    obtain ⟨o, ho, _⟩ := merged_tracked hu (PriorityStorage.top_mem ht) b hb x y htx hbx
    rw [hobs] at ho
    simp at ho

theorem CallInv_runCalls (img : BinaryImage) (calls : List Call) :
    ∀ (obs : List QRect) (s : MaxWhitespaceFinder), CallInv img obs s →
      CallInv img (obs ++ addedObstacles calls) (runCalls s calls).1 ∧
      ∀ r ∈ (runCalls s calls).2, r.Inside img.rect := by
  induction calls with
  | nil =>
    intro obs s h
    simp only [addedObstacles, List.append_nil, runCalls]
    exact ⟨h, by simp⟩
  | cons c rest ih =>
    intro obs s h
    cases c with
    | addObstacle o =>
      simp only [runCalls, addedObstacles]
      have := ih (obs ++ [o]) _ (CallInv_addObstacle h o)
      rw [List.append_assoc] at this
      exact this
    | next mode n =>
      simp only [runCalls, addedObstacles]
      have h1 := CallInv_next h mode n
      have h2 := ih obs _ h1.1
      refine ⟨h2.1, ?_⟩
      intro r hr
      rcases List.mem_cons.mp hr with hr | hr
      · rw [hr]; exact h1.2.1
      · exact h2.2 r hr

theorem CallInv_reached (img : BinaryImage) (min_size : QSize) (calls : List Call) :
    CallInv img (addedObstacles calls) (runCalls (MaxWhitespaceFinder.new img min_size) calls).1 := by
  have := (CallInv_runCalls img calls [] _ (CallInv_new img min_size)).1
  rw [List.nil_append] at this
  exact this

/-! ## Regions and results stay inside the raster and clear of the obstacles -/

/-- C22 (regions stay inside the raster): in every state reached from the
constructor by any sequence of `addObstacle` and `next` calls (any minimum
size, any modes and budgets), the bounds of every region in the frontier lie
inside the raster bounds, and every rectangle returned by `next` along the way
lies inside the raster bounds; so does the rectangle of every integral-image
sum query of `next`, which is the bounds of a region taken off the frontier. -/
theorem regions_stay_inside_raster (img : BinaryImage) (min_size : QSize) (calls : List Call) :
    (∀ g ∈ (runCalls (MaxWhitespaceFinder.new img min_size) calls).1.m_queuedRegions,
      g.m_bounds.Inside img.rect) ∧
    (∀ r ∈ (runCalls (MaxWhitespaceFinder.new img min_size) calls).2, r.Inside img.rect) ∧
    ∀ t, PriorityStorage.top
        (runCalls (MaxWhitespaceFinder.new img min_size) calls).1.m_queuedRegions = some t →
      (t.addNewObstacles
        (runCalls (MaxWhitespaceFinder.new img min_size) calls).1.m_newObstacles).m_bounds.Inside
        img.rect :=
  ⟨(CallInv_reached img min_size calls).inside,
    (CallInv_runCalls img calls [] _ (CallInv_new img min_size)).2,
    fun t ht => (CallInv_reached img min_size calls).inside t (PriorityStorage.top_mem ht)⟩

/-- C3 (emptiness, obstacles): for every raster, every minimum size and every
sequence `calls` of `addObstacle` and `next` calls (any modes and budgets), the
rectangle returned by a `next` call made after `calls` has no pixel in common
with any rectangle that `calls` passed to `addObstacle`. -/
theorem result_avoids_obstacles (img : BinaryImage) (min_size : QSize) (calls : List Call)
    (mode : ObstacleMode) (n : Int) (b : QRect) (hb : b ∈ addedObstacles calls) :
    ¬ ((runCalls (MaxWhitespaceFinder.new img min_size) calls).1.next mode n).1.Meets b :=
  (CallInv_next (CallInv_reached img min_size calls) mode n).2.2 b hb

theorem result_avoids_obstacles_witness :
    QRect.ofXYWH 0 5 10 5 ∈ addedObstacles
      [Call.addObstacle (QRect.ofXYWH 0 5 10 5), Call.next ObstacleMode.MANUAL_OBSTACLES 1,
        Call.addObstacle (QRect.ofXYWH 0 6 10 2)] ∧
    ((runCalls (MaxWhitespaceFinder.new (whiteImage 10 10) ⟨1, 1⟩)
      [Call.addObstacle (QRect.ofXYWH 0 5 10 5), Call.next ObstacleMode.MANUAL_OBSTACLES 1,
        Call.addObstacle (QRect.ofXYWH 0 6 10 2)]).1.next
          ObstacleMode.MANUAL_OBSTACLES 1000).1 = QRect.ofXYWH 0 0 10 5 ∧
    ¬ ((runCalls (MaxWhitespaceFinder.new (whiteImage 10 10) ⟨1, 1⟩)
      [Call.addObstacle (QRect.ofXYWH 0 5 10 5), Call.next ObstacleMode.MANUAL_OBSTACLES 1,
        Call.addObstacle (QRect.ofXYWH 0 6 10 2)]).1.next
          ObstacleMode.MANUAL_OBSTACLES 1000).1.Meets (QRect.ofXYWH 0 5 10 5) :=
  ⟨by decide, by decide,
    result_avoids_obstacles (whiteImage 10 10) ⟨1, 1⟩
      [Call.addObstacle (QRect.ofXYWH 0 5 10 5), Call.next ObstacleMode.MANUAL_OBSTACLES 1,
        Call.addObstacle (QRect.ofXYWH 0 6 10 2)]
      ObstacleMode.MANUAL_OBSTACLES 1000 (QRect.ofXYWH 0 5 10 5) (by decide)⟩

/-! ## Resuming after a budget cutoff, in any reached state -/

theorem nextLoop_resume_reached (mode : ObstacleMode) (a b : Nat) {img : BinaryImage}
    {obs : List QRect} (s : MaxWhitespaceFinder) (k k2 k3 : Nat) (hs : CallInv img obs s)
    (hnull : (nextLoop mode a s k).rect.isNull = true) :
    (nextLoop mode b (nextLoop mode a s k).state k2).rect = (nextLoop mode (a + b) s k3).rect ∧
    (nextLoop mode b (nextLoop mode a s k).state k2).state =
      (nextLoop mode (a + b) s k3).state := by
  induction a generalizing s k k3 with
  | zero =>
    simp only [nextLoop, Nat.zero_add]
    exact nextLoop_rect_state mode b s k2 k3
  | succ a ih =>
    have e : a + 1 + b = (a + b) + 1 := by omega
    rw [e]
    cases ht : PriorityStorage.top s.m_queuedRegions with
    | none =>
      rw [nextLoop_succ_none ht, nextLoop_succ_none ht]
      have hq := (PriorityStorage.top_eq_none_iff _).mp ht
      rw [nextLoop_empty mode b s k2 hq]
      exact ⟨rfl, rfl⟩
    | some t =>
      by_cases c1 : (t.addNewObstacles s.m_newObstacles).m_obstacles = []
      · by_cases c2 : s.m_integralImg.sum t.m_bounds = 0
        · rw [nextLoop_succ_result ht c1 c2] at hnull ⊢
          rw [nextLoop_succ_result ht c1 c2]
          have hn : t.m_bounds.isNull = true := hnull
          have h1 := hs.alone t (PriorityStorage.top_mem ht) hn
          have hq : (s.popTop.registerResult mode t.m_bounds).m_queuedRegions = [] := by
            rw [registerResult_queue]
            unfold popTop
            simp only
            rw [h1.1]
            exact PriorityStorage.pop_singleton t
          simp only
          rw [nextLoop_empty mode b _ k2 hq]
          exact ⟨h1.2.symm, rfl⟩
        · rw [nextLoop_succ_raster ht c1 c2] at hnull ⊢
          rw [nextLoop_succ_raster ht c1 c2]
          exact ih _ _ _ (CallInv_raster_step hs ht c2) hnull
      · rw [nextLoop_succ_obstacles ht c1] at hnull ⊢
        rw [nextLoop_succ_obstacles ht c1]
        exact ih _ _ _ (CallInv_obstacle_step hs ht c1) hnull

/-- C10 (budget cutoff is resumable): for every engine state reached from the
constructor by any sequence of `addObstacle` and `next` calls (any raster, any
minimum size), every mode and budgets `a, b >= 0`: if `next(mode, a)` returns a
null rectangle and leaves state `s'`, then `next(mode, b)` on `s'` returns the
same rectangle and leaves the same state as `next(mode, a + b)` on the
original state. -/
theorem next_budget_resumable (img : BinaryImage) (min_size : QSize) (calls : List Call)
    (mode : ObstacleMode) (a b : Int) (ha : 0 ≤ a) (hb : 0 ≤ b)
    (hnull : (((runCalls (MaxWhitespaceFinder.new img min_size) calls).1.next mode a).1).isNull
      = true) :
    ((runCalls (MaxWhitespaceFinder.new img min_size) calls).1.next mode a).2.next mode b =
      (runCalls (MaxWhitespaceFinder.new img min_size) calls).1.next mode (a + b) := by
  have hs := CallInv_reached img min_size calls
  have e : (a + b).toNat = a.toNat + b.toNat := by omega
  have h := nextLoop_resume_reached mode a.toNat b.toNat _ 0 0 0 hs hnull
  unfold MaxWhitespaceFinder.next nextCounted at *
  rw [e]
  exact Prod.ext h.1 h.2

theorem next_budget_resumable_witness :
    ((0 : Int) ≤ 1 ∧ (0 : Int) ≤ 5) ∧
    ((((runCalls (MaxWhitespaceFinder.new blobImage ⟨0, 0⟩)
      [Call.addObstacle (QRect.ofXYWH 0 0 1 1)]).1.next
      ObstacleMode.AUTO_OBSTACLES 1).1).isNull = true) ∧
    (((runCalls (MaxWhitespaceFinder.new blobImage ⟨0, 0⟩)
      [Call.addObstacle (QRect.ofXYWH 0 0 1 1)]).1.next
        ObstacleMode.AUTO_OBSTACLES 1).2.next ObstacleMode.AUTO_OBSTACLES 5 =
      (runCalls (MaxWhitespaceFinder.new blobImage ⟨0, 0⟩)
        [Call.addObstacle (QRect.ofXYWH 0 0 1 1)]).1.next
        ObstacleMode.AUTO_OBSTACLES (1 + 5)) :=
  ⟨by decide, by decide,
    next_budget_resumable blobImage ⟨0, 0⟩ [Call.addObstacle (QRect.ofXYWH 0 0 1 1)]
      ObstacleMode.AUTO_OBSTACLES 1 5 (by decide) (by decide) (by decide)⟩

/-! ## The order of the results -/

theorem area_le_of_inside {a b : QRect} (hd : a.x1 ≤ a.x2 + 1 ∧ a.y1 ≤ a.y2 + 1)
    (hi : a.Inside b) : a.area ≤ b.area := by
  simp only [QRect.Inside] at hi
  unfold QRect.area QRect.width QRect.height
  exact mul_le_mul (by omega) (by omega) (by omega) (by omega)

theorem subdivide_area_le {img : BinaryImage} {obs : List QRect} {s : MaxWhitespaceFinder}
    (h : CallInv img obs s) {t : Region}
    (ht : PriorityStorage.top s.m_queuedRegions = some t) (pivot : QRect)
    (hpv : pivot.Valid) (hpi : pivot.Inside t.m_bounds) (A : Int)
    (hA : ∀ g ∈ s.m_queuedRegions, g.m_bounds.area ≤ A) :
    ∀ g ∈ (s.popTop.subdivide (t.addNewObstacles s.m_newObstacles)
      t.m_bounds pivot).m_queuedRegions, g.m_bounds.area ≤ A := by
  rw [subdivide_eq]
  have htm := PriorityStorage.top_mem ht
  intro g hg
  rcases List.mem_append.mp hg with hg | hg
  · exact hA g (mem_popTop_queue hg)
  · obtain ⟨hd, hin, _, _⟩ := child_bounds_facts s.popTop
      (t.addNewObstacles s.m_newObstacles) t.m_bounds pivot hg (h.dims t htm) hpv hpi
    exact le_trans (area_le_of_inside hd hin) (hA t htm)

theorem areas_next {img : BinaryImage} {obs : List QRect} {s : MaxWhitespaceFinder}
    (hs : CallInv img obs s)
    (harea : (img.width : Int) * (img.height : Int) ≤ INT_MAX) (A : Int)
    (hA : ∀ g ∈ s.m_queuedRegions, g.m_bounds.area ≤ A) (mode : ObstacleMode) (n : Int) :
    (∀ g ∈ (s.next mode n).2.m_queuedRegions, g.m_bounds.area ≤ A) ∧
    ((s.next mode n).1.isNull = false →
      (s.next mode n).1.area ≤ A ∧
      ∀ g ∈ (s.next mode n).2.m_queuedRegions, g.m_bounds.area ≤ (s.next mode n).1.area) := by
  refine next_induction mode
    (fun u => CallInv img obs u ∧ ∀ g ∈ u.m_queuedRegions, g.m_bounds.area ≤ A)
    (fun r u => (∀ g ∈ u.m_queuedRegions, g.m_bounds.area ≤ A) ∧
      (r.isNull = false → r.area ≤ A ∧ ∀ g ∈ u.m_queuedRegions, g.m_bounds.area ≤ r.area))
    ?_ ?_ ?_ ?_ n s ⟨hs, hA⟩
  · intro u hu
    refine ⟨hu.2, ?_⟩
    intro hn
    have hn : QRect.null.isNull = false := hn
    exact absurd hn (by decide)
  · intro u t hu ht hne
    refine ⟨CallInv_obstacle_step hu.1 ht hne, ?_⟩
    have hp := findPivotObstacle_mem (t.addNewObstacles u.m_newObstacles) hne
    obtain ⟨pv, pi⟩ := merged_valid_inside hu.1 (PriorityStorage.top_mem ht) _ hp
    exact subdivide_area_le hu.1 ht _ pv pi A hu.2
  · intro u t hu ht _ hsum
    refine ⟨CallInv_raster_step hu.1 ht hsum, ?_⟩
    have hii : u.popTop.m_integralImg = ⟨img⟩ := hu.1.img_eq
    have hsum : (IntegralImage.mk img).sum t.m_bounds ≠ 0 := by
      rw [← hu.1.img_eq]; exact hsum
    obtain ⟨pv, pi, _⟩ := raster_pivot_spec ⟨img⟩ t.m_bounds
      (valid_of_sum_ne_zero _ _ hsum) hsum
    unfold subdivideUsingRaster
    simp only [hii]
    exact subdivide_area_le hu.1 ht _ pv pi A hu.2
  · intro u t hu ht _ _
    have htm := PriorityStorage.top_mem ht
    rw [registerResult_queue]
    refine ⟨fun g hg => hu.2 g (mem_popTop_queue hg), fun _ => ⟨hu.2 t htm, ?_⟩⟩
    intro g hg
    have hgm := mem_popTop_queue hg
    have h1 := PriorityStorage.top_area_le ht hgm
    rw [toInt32_area (hu.1.dims g hgm) (hu.1.inside g hgm) harea,
      toInt32_area (hu.1.dims t htm) (hu.1.inside t htm) harea] at h1
    exact h1

theorem addObstacle_area_le {s : MaxWhitespaceFinder} (o : QRect) (A : Int)
    (hA : ∀ g ∈ s.m_queuedRegions, g.m_bounds.area ≤ A) :
    ∀ g ∈ (s.addObstacle o).m_queuedRegions, g.m_bounds.area ≤ A := by
  intro g hg
  rcases mem_addObstacle_queue hg with hg | ⟨t, ht, rfl⟩
  · exact hA g hg
  · exact hA t (by rw [ht]; simp)

theorem areas_runCalls (img : BinaryImage)
    (harea : (img.width : Int) * (img.height : Int) ≤ INT_MAX) (calls : List Call) :
    ∀ (obs : List QRect) (s : MaxWhitespaceFinder) (A : Int), CallInv img obs s →
      (∀ g ∈ s.m_queuedRegions, g.m_bounds.area ≤ A) →
      (∀ r ∈ nonNull (runCalls s calls).2, r.area ≤ A) ∧
      (nonNull (runCalls s calls).2).Pairwise (fun a b => b.area ≤ a.area) := by
  induction calls with
  | nil =>
    intro obs s A _ _
    simp [runCalls, nonNull]
  | cons c rest ih =>
    intro obs s A hs hA
    cases c with
    | addObstacle o =>
      simp only [runCalls]
      exact ih _ _ A (CallInv_addObstacle hs o) (addObstacle_area_le o A hA)
    | next mode n =>
      simp only [runCalls]
      have h1 := CallInv_next hs mode n
      have h2 := areas_next hs harea A hA mode n
      by_cases hn : (s.next mode n).1.isNull = true
      · have e : nonNull ((s.next mode n).1 :: (runCalls (s.next mode n).2 rest).2) =
            nonNull (runCalls (s.next mode n).2 rest).2 := by
          simp [nonNull, List.filter_cons, hn]
        rw [e]
        exact ih _ _ A h1.1 h2.1
      · have hn : (s.next mode n).1.isNull = false := by simpa using hn
        have e : nonNull ((s.next mode n).1 :: (runCalls (s.next mode n).2 rest).2) =
            (s.next mode n).1 :: nonNull (runCalls (s.next mode n).2 rest).2 := by
          simp [nonNull, List.filter_cons, hn]
        rw [e]
        obtain ⟨h3, h4⟩ := h2.2 hn
        have h5 := ih _ _ (s.next mode n).1.area h1.1 h4
        refine ⟨?_, List.Pairwise.cons h5.1 h5.2⟩
        intro r hr
        rcases List.mem_cons.mp hr with hr | hr
        · rw [hr]; exact h3
        · exact le_trans (h5.1 r hr) h3

/-- C8 (area-descending order), amended: for every raster whose number of
pixels `width * height` does not exceed `INT_MAX`, every minimum size and every
sequence of `addObstacle` and `next` calls (any modes and budgets, obstacles
added at any time), the areas of the non-null rectangles returned by `next`
never increase: every returned rectangle has an area of at most the area of
each non-null rectangle returned before it. -/
theorem result_areas_non_increasing (img : BinaryImage) (min_size : QSize)
    (calls : List Call) (harea : (img.width : Int) * (img.height : Int) ≤ INT_MAX) :
    (nonNull (runCalls (MaxWhitespaceFinder.new img min_size) calls).2).Pairwise
      (fun a b => b.area ≤ a.area) :=
  (areas_runCalls img harea calls [] _ img.rect.area (CallInv_new img min_size)
    (fun g hg => by
      have e : g = Region.new 0 img.rect := by
        simpa [MaxWhitespaceFinder.new, PriorityStorage.push] using hg
      rw [e]
      exact le_refl _)).2

theorem result_areas_non_increasing_witness :
    (((whiteImage 10 10).width : Int) * ((whiteImage 10 10).height : Int) ≤ INT_MAX) ∧
    (nonNull (runCalls (MaxWhitespaceFinder.new (whiteImage 10 10) ⟨1, 1⟩)
      [Call.addObstacle (QRect.ofXYWH 0 5 10 1), Call.next ObstacleMode.AUTO_OBSTACLES 1000,
        Call.addObstacle (QRect.ofXYWH 0 0 10 1),
        Call.next ObstacleMode.AUTO_OBSTACLES 1000]).2).map QRect.area = [50, 40] ∧
    (nonNull (runCalls (MaxWhitespaceFinder.new (whiteImage 10 10) ⟨1, 1⟩)
      [Call.addObstacle (QRect.ofXYWH 0 5 10 1), Call.next ObstacleMode.AUTO_OBSTACLES 1000,
        Call.addObstacle (QRect.ofXYWH 0 0 10 1),
        Call.next ObstacleMode.AUTO_OBSTACLES 1000]).2).Pairwise
      (fun a b => b.area ≤ a.area) :=
  ⟨by decide, by decide,
    result_areas_non_increasing (whiteImage 10 10) ⟨1, 1⟩
      [Call.addObstacle (QRect.ofXYWH 0 5 10 1), Call.next ObstacleMode.AUTO_OBSTACLES 1000,
        Call.addObstacle (QRect.ofXYWH 0 0 10 1),
        Call.next ObstacleMode.AUTO_OBSTACLES 1000] (by decide)⟩

/-! ## A raster of more than `INT_MAX` pixels -/

theorem white_sum (w h : Nat) (r : QRect) : (IntegralImage.mk (whiteImage w h)).sum r = 0 :=
  (IntegralImage.sum_eq_zero_iff _ r).mpr (fun x y _ => whiteImage_pixel w h x y)

theorem huge_raster_first :
    ((MaxWhitespaceFinder.new (whiteImage 65536 65538) ⟨1, 1⟩).addObstacle
      (QRect.ofXYWH 0 65536 65536 1)).next ObstacleMode.AUTO_OBSTACLES 2 =
    (QRect.ofXYWH 0 65537 65536 1,
      ⟨⟨whiteImage 65536 65538⟩, [⟨0, QRect.ofXYWH 0 0 65536 65536, []⟩],
        [QRect.ofXYWH 0 65537 65536 1], ⟨1, 1⟩⟩) := by
  have l1 : nextLoop ObstacleMode.AUTO_OBSTACLES 2
      ⟨⟨whiteImage 65536 65538⟩,
        [⟨0, QRect.ofXYWH 0 0 65536 65538, [QRect.ofXYWH 0 65536 65536 1]⟩], [], ⟨1, 1⟩⟩ 0 =
      nextLoop ObstacleMode.AUTO_OBSTACLES 1
        ⟨⟨whiteImage 65536 65538⟩,
          [⟨0, QRect.ofXYWH 0 0 65536 65536, []⟩, ⟨0, QRect.ofXYWH 0 65537 65536 1, []⟩], [],
          ⟨1, 1⟩⟩ 1 :=
    @nextLoop_succ_obstacles ObstacleMode.AUTO_OBSTACLES 1
      ⟨⟨whiteImage 65536 65538⟩,
        [⟨0, QRect.ofXYWH 0 0 65536 65538, [QRect.ofXYWH 0 65536 65536 1]⟩], [], ⟨1, 1⟩⟩ 0
      ⟨0, QRect.ofXYWH 0 0 65536 65538, [QRect.ofXYWH 0 65536 65536 1]⟩ (by decide) (by decide)
  have l2 : nextLoop ObstacleMode.AUTO_OBSTACLES 1
      ⟨⟨whiteImage 65536 65538⟩,
        [⟨0, QRect.ofXYWH 0 0 65536 65536, []⟩, ⟨0, QRect.ofXYWH 0 65537 65536 1, []⟩], [],
        ⟨1, 1⟩⟩ 1 =
      ⟨QRect.ofXYWH 0 65537 65536 1,
        ⟨⟨whiteImage 65536 65538⟩, [⟨0, QRect.ofXYWH 0 0 65536 65536, []⟩],
          [QRect.ofXYWH 0 65537 65536 1], ⟨1, 1⟩⟩, 2⟩ :=
    @nextLoop_succ_result ObstacleMode.AUTO_OBSTACLES 0
      ⟨⟨whiteImage 65536 65538⟩,
        [⟨0, QRect.ofXYWH 0 0 65536 65536, []⟩, ⟨0, QRect.ofXYWH 0 65537 65536 1, []⟩], [],
        ⟨1, 1⟩⟩ 1
      ⟨0, QRect.ofXYWH 0 65537 65536 1, []⟩ (by decide) (by decide) (white_sum _ _ _)
  show ((nextLoop ObstacleMode.AUTO_OBSTACLES 2
      ⟨⟨whiteImage 65536 65538⟩,
        [⟨0, QRect.ofXYWH 0 0 65536 65538, [QRect.ofXYWH 0 65536 65536 1]⟩], [], ⟨1, 1⟩⟩ 0).rect,
    (nextLoop ObstacleMode.AUTO_OBSTACLES 2
      ⟨⟨whiteImage 65536 65538⟩,
        [⟨0, QRect.ofXYWH 0 0 65536 65538, [QRect.ofXYWH 0 65536 65536 1]⟩], [], ⟨1, 1⟩⟩ 0).state)
      = _
  rw [l1, l2]

theorem huge_raster_second :
    (MaxWhitespaceFinder.mk ⟨whiteImage 65536 65538⟩ [⟨0, QRect.ofXYWH 0 0 65536 65536, []⟩]
        [QRect.ofXYWH 0 65537 65536 1] ⟨1, 1⟩).next ObstacleMode.AUTO_OBSTACLES 1 =
    (QRect.ofXYWH 0 0 65536 65536,
      ⟨⟨whiteImage 65536 65538⟩, [],
        [QRect.ofXYWH 0 65537 65536 1, QRect.ofXYWH 0 0 65536 65536], ⟨1, 1⟩⟩) := by
  have l2 : nextLoop ObstacleMode.AUTO_OBSTACLES 1
      ⟨⟨whiteImage 65536 65538⟩, [⟨0, QRect.ofXYWH 0 0 65536 65536, []⟩],
        [QRect.ofXYWH 0 65537 65536 1], ⟨1, 1⟩⟩ 0 =
      ⟨QRect.ofXYWH 0 0 65536 65536,
        ⟨⟨whiteImage 65536 65538⟩, [],
          [QRect.ofXYWH 0 65537 65536 1, QRect.ofXYWH 0 0 65536 65536], ⟨1, 1⟩⟩, 1⟩ :=
    @nextLoop_succ_result ObstacleMode.AUTO_OBSTACLES 0
      ⟨⟨whiteImage 65536 65538⟩, [⟨0, QRect.ofXYWH 0 0 65536 65536, []⟩],
        [QRect.ofXYWH 0 65537 65536 1], ⟨1, 1⟩⟩ 0
      ⟨0, QRect.ofXYWH 0 0 65536 65536, []⟩ (by decide) (by decide) (white_sum _ _ _)
  show ((nextLoop ObstacleMode.AUTO_OBSTACLES 1
      ⟨⟨whiteImage 65536 65538⟩, [⟨0, QRect.ofXYWH 0 0 65536 65536, []⟩],
        [QRect.ofXYWH 0 65537 65536 1], ⟨1, 1⟩⟩ 0).rect,
    (nextLoop ObstacleMode.AUTO_OBSTACLES 1
      ⟨⟨whiteImage 65536 65538⟩, [⟨0, QRect.ofXYWH 0 0 65536 65536, []⟩],
        [QRect.ofXYWH 0 65537 65536 1], ⟨1, 1⟩⟩ 0).state) = _
  rw [l2]

/-- C1 (counterexample): on the all-background raster of 65536 x 65538 pixels
with `min_size = (1, 1)` and the caller obstacle `QRect(0, 65536, 65536, 1)`
(non-empty, inside the raster, added before the first call), the first `next`
in mode `AUTO_OBSTACLES` returns the non-null rectangle
`QRect(0, 65537, 65536, 1)` of area 65536, although the rectangle
`QRect(0, 0, 65536, 65536)` of area 2^32 lies inside the raster, is at least
`min_size`, covers no foreground pixel and meets neither the obstacle nor an
earlier result: `AreaCompare` computes its area as the `int` 0. -/
theorem auto_result_not_largest :
    (∀ o ∈ [QRect.ofXYWH 0 65536 65536 1],
      o.Valid ∧ o.Inside (whiteImage 65536 65538).rect) ∧
    (runCalls (MaxWhitespaceFinder.new (whiteImage 65536 65538) ⟨1, 1⟩)
      ([QRect.ofXYWH 0 65536 65536 1].map Call.addObstacle ++
        [2].map (Call.next ObstacleMode.AUTO_OBSTACLES))).2 = [QRect.ofXYWH 0 65537 65536 1] ∧
    (QRect.ofXYWH 0 65537 65536 1).isNull = false ∧
    (QRect.ofXYWH 0 0 65536 65536).Inside (whiteImage 65536 65538).rect ∧
    (1 : Int) ≤ (QRect.ofXYWH 0 0 65536 65536).width ∧
    (1 : Int) ≤ (QRect.ofXYWH 0 0 65536 65536).height ∧
    (∀ x y, (QRect.ofXYWH 0 0 65536 65536).Covers x y →
      (whiteImage 65536 65538).pixel x y = 0) ∧
    (∀ o ∈ [QRect.ofXYWH 0 65536 65536 1], ¬ (QRect.ofXYWH 0 0 65536 65536).Meets o) ∧
    (QRect.ofXYWH 0 65537 65536 1).area = 65536 ∧
    (QRect.ofXYWH 0 0 65536 65536).area = 4294967296 ∧
    AreaCompare (QRect.ofXYWH 0 0 65536 65536) (QRect.ofXYWH 0 65537 65536 1) = true := by
  refine ⟨by decide, ?_, by decide, by decide, by decide, by decide,
    fun x y _ => whiteImage_pixel _ _ x y, ?_, by decide, by decide, by decide⟩
  · simp only [List.map_cons, List.map_nil, List.cons_append, List.nil_append, runCalls]
    rw [huge_raster_first]
  · intro o ho hm
    rw [List.mem_singleton.mp ho] at hm
    obtain ⟨x, y, h1, h2⟩ := hm
    simp only [QRect.Covers, QRect.ofXYWH] at h1 h2
    omega

/-- C8 (counterexample): on the all-background raster of 65536 x 65538 pixels
with `min_size = (1, 1)`, after `addObstacle(QRect(0, 65536, 65536, 1))` two
successive `next` calls in mode `AUTO_OBSTACLES` return the non-null rectangles
`QRect(0, 65537, 65536, 1)` of area 65536 and then `QRect(0, 0, 65536, 65536)`
of area 2^32: the areas increase. -/
theorem result_areas_can_increase :
    (runCalls (MaxWhitespaceFinder.new (whiteImage 65536 65538) ⟨1, 1⟩)
      [Call.addObstacle (QRect.ofXYWH 0 65536 65536 1),
        Call.next ObstacleMode.AUTO_OBSTACLES 2,
        Call.next ObstacleMode.AUTO_OBSTACLES 1]).2 =
      [QRect.ofXYWH 0 65537 65536 1, QRect.ofXYWH 0 0 65536 65536] ∧
    (QRect.ofXYWH 0 65537 65536 1).isNull = false ∧
    (QRect.ofXYWH 0 0 65536 65536).isNull = false ∧
    (QRect.ofXYWH 0 65537 65536 1).area = 65536 ∧
    (QRect.ofXYWH 0 0 65536 65536).area = 4294967296 ∧
    (QRect.ofXYWH 0 65537 65536 1).area < (QRect.ofXYWH 0 0 65536 65536).area := by
  refine ⟨?_, by decide, by decide, by decide, by decide, by decide⟩
  simp only [runCalls]
  rw [huge_raster_first]
  simp only
  rw [huge_raster_second]

/-! ## Obstacles outside the raster -/

theorem clipTo_append (b : QRect) (l1 l2 : List QRect) :
    clipTo b (l1 ++ l2) = clipTo b l1 ++ clipTo b l2 := by
  simp [clipTo]

theorem addNewObstacles_obstacles (t : Region) (l : List QRect) :
    (t.addNewObstacles l).m_obstacles =
      t.m_obstacles ++ clipTo t.m_bounds (l.drop t.m_knownNewObstacles) := rfl

set_option maxHeartbeats 4000000 in
theorem intersected_empty_mono {b g r : QRect} (hg : g.x1 ≤ g.x2 + 1 ∧ g.y1 ≤ g.y2 + 1)
    (hi : g.Inside r) (h : (b.intersected r).isEmpty = true) :
    (b.intersected g).isEmpty = true := by
  simp only [QRect.Inside] at hi
  have f1 : (if r.x2 - r.x1 + 1 < 0 then r.x2 else r.x1) = r.x1 := if_neg (by omega)
  have f2 : (if r.x2 - r.x1 + 1 < 0 then r.x1 else r.x2) = r.x2 := if_neg (by omega)
  have f3 : (if r.y2 - r.y1 + 1 < 0 then r.y2 else r.y1) = r.y1 := if_neg (by omega)
  have f4 : (if r.y2 - r.y1 + 1 < 0 then r.y1 else r.y2) = r.y2 := if_neg (by omega)
  have g1 : (if g.x2 - g.x1 + 1 < 0 then g.x2 else g.x1) = g.x1 := if_neg (by omega)
  have g2 : (if g.x2 - g.x1 + 1 < 0 then g.x1 else g.x2) = g.x2 := if_neg (by omega)
  have g3 : (if g.y2 - g.y1 + 1 < 0 then g.y2 else g.y1) = g.y1 := if_neg (by omega)
  have g4 : (if g.y2 - g.y1 + 1 < 0 then g.y1 else g.y2) = g.y2 := if_neg (by omega)
  have hnull : QRect.null.isEmpty = true := by decide
  revert h
  unfold QRect.intersected
  simp only [f1, f2, f3, f4, g1, g2, g3, g4]
  generalize (if b.x2 - b.x1 + 1 < 0 then b.x2 else b.x1) = l1
  generalize (if b.x2 - b.x1 + 1 < 0 then b.x1 else b.x2) = r1
  generalize (if b.y2 - b.y1 + 1 < 0 then b.y2 else b.y1) = t1
  generalize (if b.y2 - b.y1 + 1 < 0 then b.y1 else b.y2) = b1
  by_cases hbn : b.isNull = true
  · intro _
    simp only [hbn, Bool.true_or, if_true]
    exact hnull
  · have hbn : b.isNull = false := by simpa using hbn
    by_cases hgn : g.isNull = true
    · intro _
      simp only [hgn, Bool.or_true, if_true]
      exact hnull
    · have hgn : g.isNull = false := by simpa using hgn
      have hrn : r.isNull = false := by
        simp only [QRect.isNull, Bool.and_eq_false_iff, beq_eq_false_iff_ne, ne_eq] at hgn ⊢
        omega
      simp only [hbn, hgn, hrn, Bool.or_self, Bool.false_eq_true, if_false]
      intro h
      by_cases c1 : l1 > g.x2 ∨ g.x1 > r1
      · rw [if_pos c1]; exact hnull
      · rw [if_neg c1]
        by_cases c2 : t1 > g.y2 ∨ g.y1 > b1
        · rw [if_pos c2]; exact hnull
        · rw [if_neg c2]
          by_cases d1 : l1 > r.x2 ∨ r.x1 > r1
          · exfalso; omega
          · rw [if_neg d1] at h
            by_cases d2 : t1 > r.y2 ∨ r.y1 > b1
            · exfalso; omega
            · rw [if_neg d2] at h
              simp only [QRect.isEmpty, Bool.or_eq_true, decide_eq_true_eq, gt_iff_lt] at h ⊢
              split_ifs at h ⊢ <;> omega

theorem top_sim {R : Region → Region → Prop} (hR : ∀ a b, R a b → a.m_bounds = b.m_bounds)
    {q1 q2 : List Region} (h : List.Forall₂ R q1 q2) :
    (PriorityStorage.top q1 = none ∧ PriorityStorage.top q2 = none) ∨
    ∃ t1 t2, PriorityStorage.top q1 = some t1 ∧ PriorityStorage.top q2 = some t2 ∧ R t1 t2 := by
  induction h with
  | nil => exact Or.inl ⟨rfl, rfl⟩
  | @cons a b l1 l2 hab _ ih =>
    right
    rcases ih with ⟨h1, h2⟩ | ⟨t1, t2, h1, h2, h3⟩
    · refine ⟨a, b, ?_, ?_, hab⟩
      · simp only [PriorityStorage.top, h1]
      · simp only [PriorityStorage.top, h2]
    · simp only [PriorityStorage.top, h1, h2]
      rw [hR _ _ hab, hR _ _ h3]
      by_cases c : AreaCompare b.m_bounds t2.m_bounds = true
      · rw [if_pos c, if_pos c]
        exact ⟨t1, t2, rfl, rfl, h3⟩
      · rw [if_neg c, if_neg c]
        exact ⟨a, b, rfl, rfl, hab⟩

theorem pop_sim {R : Region → Region → Prop} (hR : ∀ a b, R a b → a.m_bounds = b.m_bounds)
    {q1 q2 : List Region} (h : List.Forall₂ R q1 q2) :
    List.Forall₂ R (PriorityStorage.pop q1) (PriorityStorage.pop q2) := by
  induction h with
  | nil => exact List.Forall₂.nil
  | @cons a b l1 l2 hab htl ih =>
    rcases top_sim hR htl with ⟨h1, h2⟩ | ⟨t1, t2, h1, h2, h3⟩
    · simp only [PriorityStorage.pop, h1, h2]
      exact List.Forall₂.nil
    · simp only [PriorityStorage.pop, h1, h2]
      rw [hR _ _ hab, hR _ _ h3]
      by_cases c : AreaCompare b.m_bounds t2.m_bounds = true
      · rw [if_pos c, if_pos c]
        exact List.Forall₂.cons hab ih
      · rw [if_neg c, if_neg c]
        exact htl

theorem RegionSim_append {n1 n2 : List QRect} {g1 g2 : Region} (h : RegionSim n1 n2 g1 g2)
    (l : List QRect) : RegionSim (n1 ++ l) (n2 ++ l) g1 g2 := by
  obtain ⟨hb, ho, hk1, hk2, hc⟩ := h
  refine ⟨hb, ho, ?_, ?_, ?_⟩
  · rw [List.length_append]; exact Nat.le_add_right_of_le hk1
  · rw [List.length_append]; exact Nat.le_add_right_of_le hk2
  · rw [List.drop_append_of_le_length hk1, List.drop_append_of_le_length hk2, clipTo_append,
      clipTo_append, hc, hb]

theorem Sim_addObstacle {s1 s2 : MaxWhitespaceFinder} (h : Sim s1 s2) (o : QRect) :
    Sim (s1.addObstacle o) (s2.addObstacle o) := by
  obtain ⟨ii1, q1, n1, m1⟩ := s1
  obtain ⟨ii2, q2, n2, m2⟩ := s2
  obtain ⟨hi, hm, hq⟩ := h
  simp only at hi hm hq
  have other : Sim ⟨ii1, q1, n1 ++ [o], m1⟩ ⟨ii2, q2, n2 ++ [o], m2⟩ :=
    ⟨hi, hm, hq.imp fun _ _ hab => RegionSim_append hab [o]⟩
  cases hq with
  | nil => exact other
  | @cons a b l1 l2 hab htl =>
    cases htl with
    | nil =>
      refine ⟨hi, hm, List.Forall₂.cons ?_ List.Forall₂.nil⟩
      obtain ⟨hb, ho, hk1, hk2, hc⟩ := hab
      refine ⟨hb, ?_, hk1, hk2, hc⟩
      show a.m_obstacles ++ _ = b.m_obstacles ++ _
      rw [ho, hb]
    | cons _ _ => exact other

theorem Sim_popTop {s1 s2 : MaxWhitespaceFinder} (h : Sim s1 s2) : Sim s1.popTop s2.popTop :=
  ⟨h.1, h.2.1, pop_sim (fun _ _ hab => hab.1) h.2.2⟩

theorem Sim_register {s1 s2 : MaxWhitespaceFinder} (h : Sim s1 s2) (mode : ObstacleMode)
    (b : QRect) : Sim (s1.registerResult mode b) (s2.registerResult mode b) := by
  unfold registerResult
  by_cases c : mode = ObstacleMode.AUTO_OBSTACLES
  · rw [if_pos c, if_pos c]
    exact ⟨h.1, h.2.1, h.2.2.imp fun _ _ hab => RegionSim_append hab [b]⟩
  · rw [if_neg c, if_neg c]
    exact h

theorem RegionSim_newRegion (s1 s2 : MaxWhitespaceFinder) {r1 r2 : Region}
    (ho : r1.m_obstacles = r2.m_obstacles) (b : QRect) :
    RegionSim s1.m_newObstacles s2.m_newObstacles (s1.newRegion r1 b) (s2.newRegion r2 b) := by
  refine ⟨rfl, ?_, le_refl _, le_refl _, ?_⟩
  · rw [newRegion_obstacles, newRegion_obstacles, ho]
  · rw [newRegion_known, newRegion_known, List.drop_length, List.drop_length]
    rfl

theorem forall₂_ite_singleton {R : Region → Region → Prop} (c : Prop) [Decidable c]
    {a b : Region} (h : R a b) :
    List.Forall₂ R (if c then [a] else []) (if c then [b] else []) := by
  by_cases hc : c
  · rw [if_pos hc, if_pos hc]
    exact List.Forall₂.cons h List.Forall₂.nil
  · rw [if_neg hc, if_neg hc]
    exact List.Forall₂.nil

theorem forall₂_append {R : Region → Region → Prop} {a1 a2 b1 b2 : List Region}
    (h1 : List.Forall₂ R a1 a2) (h2 : List.Forall₂ R b1 b2) :
    List.Forall₂ R (a1 ++ b1) (a2 ++ b2) := by
  induction h1 with
  | nil => exact h2
  | cons hab _ ih => exact List.Forall₂.cons hab ih

theorem Sim_subdivide {s1 s2 : MaxWhitespaceFinder} (h : Sim s1 s2) {r1 r2 : Region}
    (ho : r1.m_obstacles = r2.m_obstacles) (bounds pivot : QRect) :
    Sim (s1.subdivide r1 bounds pivot) (s2.subdivide r2 bounds pivot) := by
  rw [subdivide_eq, subdivide_eq]
  refine ⟨h.1, h.2.1, ?_⟩
  show List.Forall₂ (RegionSim s1.m_newObstacles s2.m_newObstacles)
    (s1.m_queuedRegions ++ subdivideChildren s1 r1 bounds pivot)
    (s2.m_queuedRegions ++ subdivideChildren s2 r2 bounds pivot)
  refine forall₂_append h.2.2 ?_
  unfold subdivideChildren
  rw [h.2.1]
  exact forall₂_append (forall₂_append (forall₂_append
    (forall₂_ite_singleton _ (RegionSim_newRegion s1 s2 ho _))
    (forall₂_ite_singleton _ (RegionSim_newRegion s1 s2 ho _)))
    (forall₂_ite_singleton _ (RegionSim_newRegion s1 s2 ho _)))
    (forall₂_ite_singleton _ (RegionSim_newRegion s1 s2 ho _))

theorem nextLoop_sim (mode : ObstacleMode) (n : Nat) :
    ∀ (s1 s2 : MaxWhitespaceFinder) (k1 k2 : Nat), Sim s1 s2 →
      (nextLoop mode n s1 k1).rect = (nextLoop mode n s2 k2).rect ∧
      Sim (nextLoop mode n s1 k1).state (nextLoop mode n s2 k2).state := by
  induction n with
  | zero =>
    intro s1 s2 k1 k2 h
    exact ⟨rfl, h⟩
  | succ n ih =>
    intro s1 s2 k1 k2 h
    rcases top_sim (fun _ _ hab => hab.1) h.2.2 with ⟨h1, h2⟩ | ⟨t1, t2, h1, h2, h3⟩
    · rw [nextLoop_succ_none h1, nextLoop_succ_none h2]
      exact ⟨rfl, h⟩
    · have hb : t1.m_bounds = t2.m_bounds := h3.1
      have hobs : (t1.addNewObstacles s1.m_newObstacles).m_obstacles =
          (t2.addNewObstacles s2.m_newObstacles).m_obstacles := by
        rw [addNewObstacles_obstacles, addNewObstacles_obstacles, h3.2.1, h3.2.2.2.2]
      have hpop := Sim_popTop h
      by_cases c1 : (t1.addNewObstacles s1.m_newObstacles).m_obstacles = []
      · have c1' : (t2.addNewObstacles s2.m_newObstacles).m_obstacles = [] := by
          rw [← hobs]; exact c1
        by_cases c2 : s1.m_integralImg.sum t1.m_bounds = 0
        · have c2' : s2.m_integralImg.sum t2.m_bounds = 0 := by
            rw [← h.1, ← hb]; exact c2
          rw [nextLoop_succ_result h1 c1 c2, nextLoop_succ_result h2 c1' c2']
          refine ⟨hb, ?_⟩
          show Sim (s1.popTop.registerResult mode t1.m_bounds)
            (s2.popTop.registerResult mode t2.m_bounds)
          rw [hb]
          exact Sim_register hpop mode _
        · have c2' : s2.m_integralImg.sum t2.m_bounds ≠ 0 := by
            rw [← h.1, ← hb]; exact c2
          rw [nextLoop_succ_raster h1 c1 c2, nextLoop_succ_raster h2 c1' c2']
          apply ih
          unfold subdivideUsingRaster
          have e1 : (t1.addNewObstacles s1.m_newObstacles).m_bounds = t2.m_bounds := hb
          have e2 : (t2.addNewObstacles s2.m_newObstacles).m_bounds = t2.m_bounds := rfl
          have e3 : s1.popTop.m_integralImg = s2.popTop.m_integralImg := h.1
          simp only [e1, e2, e3]
          exact Sim_subdivide hpop hobs _ _
      · have c1' : (t2.addNewObstacles s2.m_newObstacles).m_obstacles ≠ [] := by
          rw [← hobs]; exact c1
        rw [nextLoop_succ_obstacles h1 c1, nextLoop_succ_obstacles h2 c1']
        apply ih
        unfold subdivideUsingObstacles
        have e1 : (t1.addNewObstacles s1.m_newObstacles).m_bounds = t2.m_bounds := hb
        have e2 : (t2.addNewObstacles s2.m_newObstacles).m_bounds = t2.m_bounds := rfl
        have e4 : findPivotObstacle (t1.addNewObstacles s1.m_newObstacles) =
            findPivotObstacle (t2.addNewObstacles s2.m_newObstacles) := by
          unfold findPivotObstacle
          rw [e1, e2, hobs]
        simp only [e1, e2, e4]
        exact Sim_subdivide hpop hobs _ _

theorem runCalls_sim (calls : List Call) :
    ∀ (s1 s2 : MaxWhitespaceFinder), Sim s1 s2 →
      (runCalls s1 calls).2 = (runCalls s2 calls).2 := by
  induction calls with
  | nil =>
    intro s1 s2 _
    rfl
  | cons c rest ih =>
    intro s1 s2 h
    cases c with
    | addObstacle o =>
      simp only [runCalls]
      exact ih _ _ (Sim_addObstacle h o)
    | next mode n =>
      simp only [runCalls]
      have h1 := nextLoop_sim mode n.toNat s1 s2 0 0 h
      have h2 : (s1.next mode n).1 = (s2.next mode n).1 := h1.1
      have h3 : Sim (s1.next mode n).2 (s2.next mode n).2 := h1.2
      rw [h2, ih _ _ h3]

theorem Sim_outside {img : BinaryImage} {obs : List QRect} {s : MaxWhitespaceFinder}
    (h : CallInv img obs s) (b : QRect) (hout : (b.intersected img.rect).isEmpty = true) :
    Sim (s.addObstacle b) s := by
  have hclip : ∀ g ∈ s.m_queuedRegions, clipTo g.m_bounds [b] = [] := by
    intro g hg
    have := intersected_empty_mono (h.dims g hg) (h.inside g hg) hout
    simp [clipTo, this]
  by_cases hq : ∃ t, s.m_queuedRegions = [t]
  · obtain ⟨t, ht⟩ := hq
    have htm : t ∈ s.m_queuedRegions := by rw [ht]; simp
    have e : s.addObstacle b = { s with m_queuedRegions := [t.addObstacle b] } := by
      unfold MaxWhitespaceFinder.addObstacle
      rw [ht]
    rw [e]
    refine ⟨rfl, rfl, ?_⟩
    show List.Forall₂ (RegionSim s.m_newObstacles s.m_newObstacles) [t.addObstacle b]
      s.m_queuedRegions
    rw [ht]
    refine List.Forall₂.cons ⟨rfl, ?_, h.known t htm, h.known t htm, rfl⟩ List.Forall₂.nil
    have e2 : (t.addObstacle b).m_obstacles = t.m_obstacles ++ clipTo t.m_bounds [b] := rfl
    rw [e2, hclip t htm, List.append_nil]
  · have hq : ∀ t, s.m_queuedRegions ≠ [t] := fun t ht => hq ⟨t, ht⟩
    have e : s.addObstacle b = { s with m_newObstacles := s.m_newObstacles ++ [b] } := by
      unfold MaxWhitespaceFinder.addObstacle
      split
      · rename_i t ht
        exact absurd ht (hq t)
      · rfl
    rw [e]
    refine ⟨rfl, rfl, ?_⟩
    show List.Forall₂ (RegionSim (s.m_newObstacles ++ [b]) s.m_newObstacles)
      s.m_queuedRegions s.m_queuedRegions
    rw [List.forall₂_same]
    intro g hg
    refine ⟨rfl, rfl, ?_, h.known g hg, ?_⟩
    · rw [List.length_append]
      exact Nat.le_add_right_of_le (h.known g hg)
    · rw [List.drop_append_of_le_length (h.known g hg), clipTo_append, hclip g hg,
        List.append_nil]

theorem runCalls_append (a b : List Call) :
    ∀ s : MaxWhitespaceFinder, (runCalls s (a ++ b)).2 =
      (runCalls s a).2 ++ (runCalls (runCalls s a).1 b).2 := by
  induction a with
  | nil =>
    intro s
    rfl
  | cons c rest ih =>
    intro s
    cases c with
    | addObstacle o =>
      simp only [List.cons_append, runCalls]
      exact ih _
    | next mode n =>
      have e : runCalls s (Call.next mode n :: rest ++ b) =
          ((runCalls (s.next mode n).2 (rest ++ b)).1,
            (s.next mode n).1 :: (runCalls (s.next mode n).2 (rest ++ b)).2) := rfl
      rw [e]
      simp only [runCalls]
      rw [ih]
      rfl

theorem intersected_isEmpty_of_not_meets {b r : QRect} (hb : b.x1 ≤ b.x2 + 1 ∧ b.y1 ≤ b.y2 + 1)
    (hr : r.x1 ≤ r.x2 + 1 ∧ r.y1 ≤ r.y2 + 1) (h : ¬ b.Meets r) :
    (b.intersected r).isEmpty = true := by
  by_contra hne
  have hne : (b.intersected r).isEmpty = false := by simpa using hne
  have hv := intersected_valid hne
  have h1 := intersected_inside_left hne hb.1 hb.2
  have h2 := intersected_inside_right hne hr.1 hr.2
  exact h ⟨(b.intersected r).x1, (b.intersected r).y1,
    h1.covers ⟨le_refl _, hv.1, le_refl _, hv.2⟩, h2.covers ⟨le_refl _, hv.1, le_refl _, hv.2⟩⟩

/-- C11 (out-of-bounds obstacles are harmless): for every raster, every
minimum size, every engine state reached by a sequence `pre` of `addObstacle`
and `next` calls, and every rectangle `b` whose intersection with the raster
bounds is empty (Qt's `intersected`; for a rectangle without negative extent
this says that it has no pixel in common with the raster), calling
`addObstacle(b)` changes no result: whatever calls `post` follow (`next` calls
of any modes and budgets, and further `addObstacle` calls), the rectangles
returned with the call are those returned without it. -/
theorem outside_obstacle_harmless (img : BinaryImage) (min_size : QSize)
    (pre post : List Call) (b : QRect) (hout : (b.intersected img.rect).isEmpty = true) :
    (runCalls (MaxWhitespaceFinder.new img min_size) (pre ++ Call.addObstacle b :: post)).2 =
      (runCalls (MaxWhitespaceFinder.new img min_size) (pre ++ post)).2 := by
  rw [runCalls_append, runCalls_append]
  congr 1
  exact runCalls_sim post _ _ (Sim_outside (CallInv_reached img min_size pre) b hout)

theorem outside_obstacle_harmless_witness :
    ((QRect.ofXYWH 10 10 2 2).intersected (whiteImage 10 10).rect).isEmpty = true ∧
    (runCalls (MaxWhitespaceFinder.new (whiteImage 10 10) ⟨1, 1⟩)
      ([] ++ Call.addObstacle (QRect.ofXYWH 10 10 2 2) ::
        [Call.next ObstacleMode.MANUAL_OBSTACLES 1000,
          Call.next ObstacleMode.MANUAL_OBSTACLES 1000])).2 =
      [QRect.ofXYWH 0 0 10 10, QRect.null] ∧
    (runCalls (MaxWhitespaceFinder.new (whiteImage 10 10) ⟨1, 1⟩)
      ([] ++ Call.addObstacle (QRect.ofXYWH 10 10 2 2) ::
        [Call.next ObstacleMode.MANUAL_OBSTACLES 1000,
          Call.next ObstacleMode.MANUAL_OBSTACLES 1000])).2 =
    (runCalls (MaxWhitespaceFinder.new (whiteImage 10 10) ⟨1, 1⟩)
      ([] ++ [Call.next ObstacleMode.MANUAL_OBSTACLES 1000,
          Call.next ObstacleMode.MANUAL_OBSTACLES 1000])).2 :=
  ⟨by decide, by decide,
    outside_obstacle_harmless (whiteImage 10 10) ⟨1, 1⟩ []
      [Call.next ObstacleMode.MANUAL_OBSTACLES 1000,
        Call.next ObstacleMode.MANUAL_OBSTACLES 1000] (QRect.ofXYWH 10 10 2 2) (by decide)⟩

end imageproc

namespace FileNameDisambiguator

/-! ## The index ordered by file name and label -/

theorem Item.le_iff (a b : Item) :
    Item.le a b ↔ a.fileName < b.fileName ∨ (a.fileName = b.fileName ∧ a.label ≤ b.label) := by
  unfold Item.le Item.key
  exact Prod.Lex.le_iff _ _

theorem takeWhile_eq_filter_of_sorted (l : List Item) (p : Item → Bool)
    (hs : l.Pairwise Item.le) (hp : ∀ a b, Item.le a b → p b = true → p a = true) :
    l.takeWhile p = l.filter p := by
  induction l with
  | nil => rfl
  | cons a rest ih =>
    obtain ⟨h1, h2⟩ := List.pairwise_cons.mp hs
    cases hpa : p a with
    | true =>
      rw [List.takeWhile_cons, List.filter_cons, hpa]
      simp only [if_true]
      rw [ih h2]
    | false =>
      rw [List.takeWhile_cons, List.filter_cons, hpa]
      simp only [Bool.false_eq_true, if_false]
      symm
      rw [List.filter_eq_nil_iff]
      intro b hb hpb
      have := hp a b (h1 b hb) hpb
      rw [hpa] at this
      exact Bool.false_ne_true this

theorem getLast?_sorted_max (l : List Item) (hs : l.Pairwise Item.le) {a : Item}
    (h : l.getLast? = some a) : a ∈ l ∧ ∀ x ∈ l, Item.le x a := by
  induction l with
  | nil => simp at h
  | cons b rest ih =>
    obtain ⟨h1, h2⟩ := List.pairwise_cons.mp hs
    cases rest with
    | nil =>
      simp only [List.getLast?_singleton, Option.some.injEq] at h
      subst h
      refine ⟨by simp, fun x hx => ?_⟩
      rw [List.mem_singleton.mp hx]
      exact le_refl b.key
    | cons c rest2 =>
      rw [List.getLast?_cons_cons] at h
      obtain ⟨i1, i2⟩ := ih h2 h
      refine ⟨List.mem_cons_of_mem _ i1, fun x hx => ?_⟩
      rcases List.mem_cons.mp hx with rfl | hx
      · exact h1 a i1
      · exact i2 x hx

theorem mem_itemsByFileNameLabel (self : Impl) (x : Item) :
    x ∈ self.itemsByFileNameLabel ↔ x ∈ self.m_items :=
  (List.perm_insertionSort Item.le self.m_items).mem_iff

theorem beforeUpperBound_eq (self : Impl) (file_name : QString) :
    self.beforeUpperBound file_name =
      self.itemsByFileNameLabel.filter fun x => decide (x.fileName ≤ file_name) := by
  unfold Impl.beforeUpperBound
  apply takeWhile_eq_filter_of_sorted _ _ (List.sorted_insertionSort Item.le self.m_items)
  intro a b hab hb
  simp only [decide_eq_true_eq] at hb ⊢
  rcases (Item.le_iff a b).mp hab with h | ⟨h, _⟩
  · exact le_trans (le_of_lt h) hb
  · rw [h]; exact hb

theorem mem_beforeUpperBound (self : Impl) (file_name : QString) (x : Item) :
    x ∈ self.beforeUpperBound file_name ↔ x ∈ self.m_items ∧ x.fileName ≤ file_name := by
  rw [beforeUpperBound_eq, List.mem_filter, mem_itemsByFileNameLabel]
  simp

theorem prev_none (self : Impl) (file_name : QString)
    (h : (self.beforeUpperBound file_name).getLast? = none) :
    ∀ x ∈ self.m_items, ¬ x.fileName ≤ file_name := by
  intro x hx hle
  have hm := (mem_beforeUpperBound self file_name x).mpr ⟨hx, hle⟩
  rw [List.getLast?_eq_none_iff] at h
  rw [h] at hm
  simp at hm

theorem prev_some (self : Impl) (file_name : QString) {prev : Item}
    (h : (self.beforeUpperBound file_name).getLast? = some prev) :
    prev ∈ self.m_items ∧ prev.fileName ≤ file_name ∧
    ∀ x ∈ self.m_items, x.fileName ≤ file_name → Item.le x prev := by
  have hs : (self.beforeUpperBound file_name).Pairwise Item.le := by
    rw [beforeUpperBound_eq]
    exact List.Pairwise.filter _ (List.sorted_insertionSort Item.le self.m_items)
  obtain ⟨h1, h2⟩ := getLast?_sorted_max _ hs h
  have h1 := (mem_beforeUpperBound self file_name prev).mp h1
  exact ⟨h1.1, h1.2, fun x hx hle =>
    h2 x ((mem_beforeUpperBound self file_name x).mpr ⟨hx, hle⟩)⟩

theorem newLabel_none (self : Impl) (file_name : QString)
    (hno : ∀ x ∈ self.m_items, x.fileName ≠ file_name) : self.newLabel file_name = 0 := by
  unfold Impl.newLabel
  cases h : (self.beforeUpperBound file_name).getLast? with
  | none => rfl
  | some prev =>
    simp only
    rw [if_neg (hno prev (prev_some self file_name h).1)]

theorem newLabel_max (self : Impl) (file_name : QString) {m : Item} (hm : m ∈ self.m_items)
    (hmn : m.fileName = file_name)
    (hmax : ∀ x ∈ self.m_items, x.fileName = file_name → x.label ≤ m.label) :
    self.newLabel file_name = imageproc.toInt32 (m.label + 1) := by
  unfold Impl.newLabel
  cases h : (self.beforeUpperBound file_name).getLast? with
  | none => exact absurd (le_of_eq hmn) (prev_none self file_name h m hm)
  | some prev =>
    simp only
    obtain ⟨p1, p2, p3⟩ := prev_some self file_name h
    have hle := (Item.le_iff m prev).mp (p3 m hm (le_of_eq hmn))
    have hname : prev.fileName = file_name := by
      rcases hle with hlt | ⟨he, _⟩
      · rw [hmn] at hlt
        exact absurd p2 (not_le.mpr hlt)
      · rw [← he]; exact hmn
    have hlab : prev.label = m.label := by
      have h1 := hmax prev p1 hname
      rcases hle with hlt | ⟨_, hl⟩
      · rw [hmn, hname] at hlt
        exact absurd hlt (lt_irrefl _)
      · omega
    rw [if_pos hname, hlab]

theorem exists_max_label (self : Impl) (file_name : QString) {x : Item} (hx : x ∈ self.m_items)
    (hxn : x.fileName = file_name) :
    ∃ m ∈ self.m_items, m.fileName = file_name ∧
      ∀ y ∈ self.m_items, y.fileName = file_name → y.label ≤ m.label := by
  cases h : (self.beforeUpperBound file_name).getLast? with
  | none => exact absurd (le_of_eq hxn) (prev_none self file_name h x hx)
  | some prev =>
    obtain ⟨p1, p2, p3⟩ := prev_some self file_name h
    have hle := (Item.le_iff x prev).mp (p3 x hx (le_of_eq hxn))
    have hname : prev.fileName = file_name := by
      rcases hle with hlt | ⟨he, _⟩
      · rw [hxn] at hlt
        exact absurd p2 (not_le.mpr hlt)
      · rw [← he]; exact hxn
    refine ⟨prev, p1, hname, fun y hy hyn => ?_⟩
    rcases (Item.le_iff y prev).mp (p3 y hy (le_of_eq hyn)) with hlt | ⟨_, hl⟩
    · rw [hyn, hname] at hlt
      exact absurd hlt (lt_irrefl _)
    · exact hl

/-! ## Registration -/

theorem findByFilePath_none_iff (self : Impl) (p : QString) :
    self.findByFilePath p = none ↔ ∀ x ∈ self.m_items, x.filePath ≠ p := by
  unfold Impl.findByFilePath
  rw [List.find?_eq_none]
  simp

theorem findByFilePath_some {self : Impl} {p : QString} {it : Item}
    (h : self.findByFilePath p = some it) : it ∈ self.m_items ∧ it.filePath = p := by
  unfold Impl.findByFilePath at h
  refine ⟨List.mem_of_find?_eq_some h, ?_⟩
  have := List.find?_some h
  simpa using this

theorem insert_new (self : Impl) (it : Item)
    (h1 : ∀ x ∈ self.m_items, x.filePath ≠ it.filePath)
    (h2 : ∀ x ∈ self.m_items, ¬ (x.fileName = it.fileName ∧ x.label = it.label)) :
    self.insert it = ⟨self.m_items ++ [it]⟩ := by
  unfold Impl.insert
  have e1 : (self.m_items.any fun x => decide (x.filePath = it.filePath)) = false := by
    rw [List.any_eq_false]
    intro x hx
    simpa using h1 x hx
  have e2 : (self.m_items.any
      fun x => decide (x.fileName = it.fileName ∧ x.label = it.label)) = false := by
    rw [List.any_eq_false]
    intro x hx
    simpa using h2 x hx
  rw [e1, e2]
  simp

theorem toInt32_succ (l : Int) (h : -2147483648 ≤ l ∧ l < imageproc.INT_MAX) :
    imageproc.toInt32 (l + 1) = l + 1 := by
  unfold imageproc.INT_MAX at h
  unfold imageproc.toInt32
  omega

theorem newLabel_gt (self : Impl) (file_name : QString)
    (hrange : ∀ x ∈ self.m_items, -2147483648 ≤ x.label ∧ x.label < imageproc.INT_MAX) :
    ∀ x ∈ self.m_items, x.fileName = file_name → x.label < self.newLabel file_name := by
  intro x hx hxn
  obtain ⟨m, hm, hmn, hmax⟩ := exists_max_label self file_name hx hxn
  rw [newLabel_max self file_name hm hmn hmax, toInt32_succ _ (hrange m hm)]
  have := hmax x hx hxn
  omega

theorem registerFile_new (self : Impl) (p : QString)
    (hnew : ∀ x ∈ self.m_items, x.filePath ≠ p)
    (hrange : ∀ x ∈ self.m_items, -2147483648 ≤ x.label ∧ x.label < imageproc.INT_MAX) :
    self.registerFile p = (self.newLabel (fileNameOf p),
      ⟨self.m_items ++ [⟨p, fileNameOf p, self.newLabel (fileNameOf p)⟩]⟩) := by
  unfold Impl.registerFile
  rw [(findByFilePath_none_iff self p).mpr hnew]
  simp only
  rw [insert_new self _ hnew]
  intro x hx hc
  have := newLabel_gt self (fileNameOf p) hrange x hx hc.1
  simp only at hc
  omega

theorem registerFile_old (self : Impl) (p : QString) {it : Item}
    (h : self.findByFilePath p = some it) : self.registerFile p = (it.label, self) := by
  unfold Impl.registerFile
  rw [h]

theorem WF_register_new (self : Impl) (p : QString) (hwf : self.WF)
    (hnew : ∀ x ∈ self.m_items, x.filePath ≠ p)
    (hrange : ∀ x ∈ self.m_items, -2147483648 ≤ x.label ∧ x.label < imageproc.INT_MAX) :
    (self.registerFile p).2.WF := by
  rw [registerFile_new self p hnew hrange]
  obtain ⟨w1, w2, w3⟩ := hwf
  refine ⟨?_, ?_, ?_⟩
  · intro x hx
    rcases List.mem_append.mp hx with hx | hx
    · exact w1 x hx
    · rw [List.mem_singleton.mp hx]
  · rw [List.pairwise_append]
    refine ⟨w2, List.pairwise_singleton _ _, ?_⟩
    intro a ha b hb
    rw [List.mem_singleton.mp hb]
    exact hnew a ha
  · rw [List.pairwise_append]
    refine ⟨w3, List.pairwise_singleton _ _, ?_⟩
    intro a ha b hb
    rw [List.mem_singleton.mp hb]
    intro hc
    have := newLabel_gt self (fileNameOf p) hrange a ha hc.1
    simp only at hc
    omega

theorem WF_unique {self : Impl} (hwf : self.WF) {a b : Item} (ha : a ∈ self.m_items)
    (hb : b ∈ self.m_items) (hn : a.fileName = b.fileName) (hl : a.label = b.label) : a = b := by
  by_contra hne
  have hsym : ∀ x y : Item, ¬ (x.fileName = y.fileName ∧ x.label = y.label) →
      ¬ (y.fileName = x.fileName ∧ y.label = x.label) :=
    fun x y h hc => h ⟨hc.1.symm, hc.2.symm⟩
  exact (List.Pairwise.forall (fun x y h => hsym x y h) hwf.2.2 ha hb hne) ⟨hn, hl⟩

theorem countName_append (self : Impl) (it : Item) (file_name : QString) :
    (Impl.mk (self.m_items ++ [it])).countName file_name =
      self.countName file_name + (if it.fileName = file_name then 1 else 0) := by
  unfold Impl.countName
  simp only [List.filter_append, List.length_append, List.filter_cons, List.filter_nil]
  by_cases c : it.fileName = file_name
  · simp [c]
  · simp [c]

theorem countName_le_length (self : Impl) (file_name : QString) :
    self.countName file_name ≤ self.m_items.length :=
  List.length_filter_le _ _

theorem countName_pos (self : Impl) (file_name : QString) {x : Item} (hx : x ∈ self.m_items)
    (hn : x.fileName = file_name) : self.countName file_name ≠ 0 := by
  unfold Impl.countName
  intro h
  have hm : x ∈ self.m_items.filter fun y => decide (y.fileName = file_name) :=
    List.mem_filter.mpr ⟨hx, by simpa using hn⟩
  rw [List.length_eq_zero.mp h] at hm
  simp at hm

theorem Dense_range {self : Impl} (hd : self.Dense)
    (hlen : (self.m_items.length : Int) < imageproc.INT_MAX) :
    ∀ x ∈ self.m_items, -2147483648 ≤ x.label ∧ x.label < imageproc.INT_MAX := by
  intro x hx
  have h1 := (hd x.fileName).1 x hx rfl
  have h2 := countName_le_length self x.fileName
  omega

theorem Dense_newLabel {self : Impl} (hd : self.Dense)
    (hlen : (self.m_items.length : Int) < imageproc.INT_MAX) (file_name : QString) :
    self.newLabel file_name = (self.countName file_name : Int) := by
  by_cases c : self.countName file_name = 0
  · rw [c]
    apply newLabel_none
    intro x hx hn
    exact countName_pos self file_name hx hn c
  · obtain ⟨m, hm, hmn, hml⟩ := (hd file_name).2 c
    rw [newLabel_max self file_name hm hmn (fun x hx hxn => by
      have := ((hd file_name).1 x hx hxn).2
      omega), toInt32_succ _ (Dense_range hd hlen m hm), hml]
    omega

theorem Dense_register {self : Impl} (hd : self.Dense)
    (hlen : (self.m_items.length : Int) < imageproc.INT_MAX) (p : QString) :
    (self.registerFile p).2.Dense ∧
    (self.registerFile p).2.m_items.length ≤ self.m_items.length + 1 := by
  cases hf : self.findByFilePath p with
  | some it =>
    rw [registerFile_old self p hf]
    exact ⟨hd, Nat.le_succ _⟩
  | none =>
    have hnew := (findByFilePath_none_iff self p).mp hf
    rw [registerFile_new self p hnew (Dense_range hd hlen), Dense_newLabel hd hlen]
    refine ⟨?_, by simp⟩
    intro fn
    have hc := countName_append self
      ⟨p, fileNameOf p, (self.countName (fileNameOf p) : Int)⟩ fn
    simp only at hc ⊢
    constructor
    · intro x hx hxn
      rcases List.mem_append.mp hx with hx | hx
      · have := (hd fn).1 x hx hxn
        omega
      · rw [List.mem_singleton.mp hx] at hxn ⊢
        simp only at hxn ⊢
        subst hxn
        rw [if_pos rfl] at hc
        omega
    · intro hne
      by_cases c : fileNameOf p = fn
      · refine ⟨⟨p, fileNameOf p, (self.countName (fileNameOf p) : Int)⟩, by simp, c, ?_⟩
        subst c
        rw [if_pos rfl] at hc
        simp only
        omega
      · rw [if_neg c] at hc
        obtain ⟨m, hm, hmn, hml⟩ := (hd fn).2 (by omega)
        exact ⟨m, List.mem_append_left _ hm, hmn, by omega⟩

theorem WF_register {self : Impl} (hwf : self.WF)
    (hrange : ∀ x ∈ self.m_items, -2147483648 ≤ x.label ∧ x.label < imageproc.INT_MAX)
    (p : QString) : (self.registerFile p).2.WF := by
  cases hf : self.findByFilePath p with
  | some it =>
    rw [registerFile_old self p hf]
    exact hwf
  | none => exact WF_register_new self p hwf ((findByFilePath_none_iff self p).mp hf) hrange

theorem registerAll_inv (paths : List QString) :
    ∀ self : Impl, self.WF → self.Dense →
      ((self.m_items.length + paths.length : Nat) : Int) < imageproc.INT_MAX →
      (self.registerAll paths).WF ∧ (self.registerAll paths).Dense ∧
      (self.registerAll paths).m_items.length ≤ self.m_items.length + paths.length := by
  induction paths with
  | nil =>
    intro self hwf hd _
    exact ⟨hwf, hd, le_refl _⟩
  | cons p rest ih =>
    intro self hwf hd hlen
    have hlen1 : (self.m_items.length : Int) < imageproc.INT_MAX := by
      simp only [List.length_cons] at hlen
      omega
    obtain ⟨d1, d2⟩ := Dense_register hd hlen1 p
    have w1 := WF_register hwf (Dense_range hd hlen1) p
    have e : self.registerAll (p :: rest) = (self.registerFile p).2.registerAll rest := rfl
    rw [e]
    obtain ⟨i1, i2, i3⟩ := ih (self.registerFile p).2 w1 d1 (by
      simp only [List.length_cons] at hlen
      omega)
    refine ⟨i1, i2, ?_⟩
    simp only [List.length_cons]
    omega

theorem Dense_empty : Impl.empty.Dense := by
  intro fn
  exact ⟨fun x hx => by simp [Impl.empty] at hx, fun h => absurd rfl h⟩

theorem WF_empty : Impl.empty.WF := by decide

theorem findByFilePath_appended (self : Impl) (p : QString) (fn : QString) (l : Int)
    (hnew : ∀ x ∈ self.m_items, x.filePath ≠ p) :
    (Impl.mk (self.m_items ++ [⟨p, fn, l⟩])).findByFilePath p = some ⟨p, fn, l⟩ := by
  have h := (findByFilePath_none_iff self p).mpr hnew
  unfold Impl.findByFilePath at h ⊢
  simp only [List.find?_append, h, Option.none_or, List.find?_cons, decide_True]

theorem getLabel_of_find {self : Impl} {p : QString} {it : Item}
    (h : self.findByFilePath p = some it) : self.getLabel p = it.label := by
  unfold Impl.getLabel
  rw [h]

/-- C27 (counterexample): in the state that holds the paths `/a/x` with label
`INT_MAX` and `/b/x` with label `INT_MIN` (both of file name `x`), the path
`/c/x` is not registered; `registerFile("/c/x")` returns -2147483648, which is
not 1 + the largest label of that file name (2147483648) and is the label of
`/b/x` already, and the container refuses the item, so the state is
unchanged. -/
theorem register_label_wraps :
    (Impl.mk [⟨[47, 97, 47, 120], [120], 2147483647⟩,
      ⟨[47, 98, 47, 120], [120], -2147483648⟩]).WF ∧
    (∀ x ∈ (Impl.mk [⟨[47, 97, 47, 120], [120], 2147483647⟩,
      ⟨[47, 98, 47, 120], [120], -2147483648⟩]).m_items, x.filePath ≠ [47, 99, 47, 120]) ∧
    ((Impl.mk [⟨[47, 97, 47, 120], [120], 2147483647⟩,
      ⟨[47, 98, 47, 120], [120], -2147483648⟩]).registerFile [47, 99, 47, 120]).1 =
      -2147483648 ∧
    ((Impl.mk [⟨[47, 97, 47, 120], [120], 2147483647⟩,
      ⟨[47, 98, 47, 120], [120], -2147483648⟩]).registerFile [47, 99, 47, 120]).1 ≠
      2147483647 + 1 ∧
    ((Impl.mk [⟨[47, 97, 47, 120], [120], 2147483647⟩,
      ⟨[47, 98, 47, 120], [120], -2147483648⟩]).registerFile [47, 99, 47, 120]).2 =
      Impl.mk [⟨[47, 97, 47, 120], [120], 2147483647⟩,
        ⟨[47, 98, 47, 120], [120], -2147483648⟩] := by
  decide

/-- C27, amended: in a state of the container whose labels are `int`s below
`INT_MAX`,
`registerFile(p)` for a path `p` that is not registered returns 0 when no
registered path has the file name of `p`, and otherwise 1 + the largest label
among the registered paths with that file name; it appends the item
`(p, fileName(p), label)`, and afterwards no two distinct items with the same
file name share a label.  Starting from the empty disambiguator and after
registering fewer than `INT_MAX` paths, a path that is not registered gets as
label the number of registered paths with its file name. -/
theorem register_label_unique (self : Impl) (p : QString) (paths : List QString)
    (hwf : self.WF) (hnew : ∀ x ∈ self.m_items, x.filePath ≠ p)
    (hrange : ∀ x ∈ self.m_items, -2147483648 ≤ x.label ∧ x.label < imageproc.INT_MAX)
    (hlen : (paths.length : Int) < imageproc.INT_MAX) :
    ((∀ x ∈ self.m_items, fileNameOf x.filePath ≠ fileNameOf p) →
      (self.registerFile p).1 = 0) ∧
    (∀ m ∈ self.m_items, fileNameOf m.filePath = fileNameOf p →
      (∀ x ∈ self.m_items, fileNameOf x.filePath = fileNameOf p → x.label ≤ m.label) →
      (self.registerFile p).1 = m.label + 1) ∧
    (self.registerFile p).2.m_items =
      self.m_items ++ [⟨p, fileNameOf p, (self.registerFile p).1⟩] ∧
    (∀ a ∈ (self.registerFile p).2.m_items, ∀ b ∈ (self.registerFile p).2.m_items,
      a.fileName = b.fileName → a.label = b.label → a = b) ∧
    (∀ q, (∀ x ∈ (Impl.empty.registerAll paths).m_items, x.filePath ≠ q) →
      ((Impl.empty.registerAll paths).registerFile q).1 =
        ((Impl.empty.registerAll paths).countName (fileNameOf q) : Int)) ∧
    (∀ a ∈ (Impl.empty.registerAll paths).m_items,
      ∀ b ∈ (Impl.empty.registerAll paths).m_items,
      a.fileName = b.fileName → a.label = b.label → a = b) := by
  have hreg := registerFile_new self p hnew hrange
  refine ⟨?_, ?_, ?_, ?_, ?_, ?_⟩
  · intro hno
    rw [hreg]
    exact newLabel_none self _ (fun x hx => by rw [hwf.1 x hx]; exact hno x hx)
  · intro m hm hmn hmax
    rw [hreg]
    simp only
    rw [newLabel_max self _ hm (by rw [hwf.1 m hm]; exact hmn)
      (fun x hx hxn => hmax x hx (by rw [← hwf.1 x hx]; exact hxn)),
      toInt32_succ _ (hrange m hm)]
  · rw [hreg]
  · intro a ha b hb
    exact WF_unique (WF_register_new self p hwf hnew hrange) ha hb
  · intro q hq
    obtain ⟨_, i2, i3⟩ := registerAll_inv paths Impl.empty WF_empty Dense_empty (by
      simp only [Impl.empty, List.length_nil, Nat.zero_add]
      exact hlen)
    have i3 : (Impl.empty.registerAll paths).m_items.length ≤ 0 + paths.length := i3
    have hl : ((Impl.empty.registerAll paths).m_items.length : Int) < imageproc.INT_MAX := by
      omega
    rw [registerFile_new _ q hq (Dense_range i2 hl)]
    exact Dense_newLabel i2 hl _
  · intro a ha b hb
    obtain ⟨i1, _, _⟩ := registerAll_inv paths Impl.empty WF_empty Dense_empty (by
      simp only [Impl.empty, List.length_nil, Nat.zero_add]
      exact hlen)
    exact WF_unique i1 ha hb

theorem register_label_unique_witness :
    (Impl.empty.registerAll [[47, 97, 47, 120], [47, 98, 47, 120]]).WF ∧
    (Impl.empty.registerAll [[47, 97, 47, 120], [47, 98, 47, 120]]).m_items =
      [⟨[47, 97, 47, 120], [120], 0⟩, ⟨[47, 98, 47, 120], [120], 1⟩] ∧
    ((Impl.empty.registerAll [[47, 97, 47, 120], [47, 98, 47, 120]]).registerFile
      [47, 99, 47, 120]).1 = 2 ∧
    ((Impl.empty.registerAll [[47, 97, 47, 120], [47, 98, 47, 120]]).registerFile
      [47, 99, 47, 120]).2.m_items =
      (Impl.empty.registerAll [[47, 97, 47, 120], [47, 98, 47, 120]]).m_items ++
        [⟨[47, 99, 47, 120], fileNameOf [47, 99, 47, 120],
          ((Impl.empty.registerAll [[47, 97, 47, 120], [47, 98, 47, 120]]).registerFile
            [47, 99, 47, 120]).1⟩] :=
  ⟨by decide, by decide, by decide,
    (register_label_unique (Impl.empty.registerAll [[47, 97, 47, 120], [47, 98, 47, 120]])
      [47, 99, 47, 120] [[47, 97, 47, 120]] (by decide) (by decide) (by decide)
      (by decide)).2.2.1⟩

/-- C28 (counterexample): in the state that holds the paths `/a/x` with label
`INT_MAX` and `/b/x` with label `INT_MIN`, `registerFile("/c/x")` returns
-2147483648 but registers nothing, so `getLabel("/c/x")` on the state it leaves
returns 0, not the label returned. -/
theorem register_then_lookup_differs :
    ((Impl.mk [⟨[47, 97, 47, 120], [120], 2147483647⟩,
      ⟨[47, 98, 47, 120], [120], -2147483648⟩]).registerFile [47, 99, 47, 120]).1 =
      -2147483648 ∧
    ((Impl.mk [⟨[47, 97, 47, 120], [120], 2147483647⟩,
      ⟨[47, 98, 47, 120], [120], -2147483648⟩]).registerFile
        [47, 99, 47, 120]).2.getLabel [47, 99, 47, 120] = 0 ∧
    (Impl.mk [⟨[47, 97, 47, 120], [120], 2147483647⟩,
      ⟨[47, 98, 47, 120], [120], -2147483648⟩]).WF := by
  decide

/-- C28, amended: in a state of the container whose labels are `int`s below
`INT_MAX`,
after `registerFile(p)` has returned the label `L`, `getLabel(p)` returns `L`
and a second `registerFile(p)` returns `L` and leaves the items as they are;
`getLabel` of a path that is not registered returns 0.  (`getLabel` is a
function of the state alone, as the member is `const`.) -/
theorem register_idempotent (self : Impl) (p q : QString)
    (hrange : ∀ x ∈ self.m_items, -2147483648 ≤ x.label ∧ x.label < imageproc.INT_MAX) :
    (self.registerFile p).2.getLabel p = (self.registerFile p).1 ∧
    (self.registerFile p).2.registerFile p =
      ((self.registerFile p).1, (self.registerFile p).2) ∧
    ((∀ x ∈ self.m_items, x.filePath ≠ q) → self.getLabel q = 0) := by
  refine ⟨?_, ?_, ?_⟩
  · cases hf : self.findByFilePath p with
    | some it =>
      rw [registerFile_old self p hf]
      exact getLabel_of_find hf
    | none =>
      have hnew := (findByFilePath_none_iff self p).mp hf
      rw [registerFile_new self p hnew hrange]
      exact getLabel_of_find (findByFilePath_appended self p _ _ hnew)
  · cases hf : self.findByFilePath p with
    | some it =>
      rw [registerFile_old self p hf]
      exact registerFile_old self p hf
    | none =>
      have hnew := (findByFilePath_none_iff self p).mp hf
      rw [registerFile_new self p hnew hrange]
      exact registerFile_old _ p (findByFilePath_appended self p _ _ hnew)
  · intro hq
    unfold Impl.getLabel
    rw [(findByFilePath_none_iff self q).mpr hq]

theorem register_idempotent_witness :
    (∀ x ∈ (Impl.empty.registerAll [[47, 97, 47, 120]]).m_items,
      -2147483648 ≤ x.label ∧ x.label < imageproc.INT_MAX) ∧
    ((Impl.empty.registerAll [[47, 97, 47, 120]]).registerFile [47, 98, 47, 120]).1 = 1 ∧
    ((Impl.empty.registerAll [[47, 97, 47, 120]]).registerFile
      [47, 98, 47, 120]).2.getLabel [47, 98, 47, 120] =
      ((Impl.empty.registerAll [[47, 97, 47, 120]]).registerFile [47, 98, 47, 120]).1 :=
  ⟨by decide, by decide,
    (register_idempotent (Impl.empty.registerAll [[47, 97, 47, 120]]) [47, 98, 47, 120]
      [47, 99, 47, 120] (by decide)).1⟩

end FileNameDisambiguator
